import Mathlib

/-!
# MyRPC: streaming buffers, the JSON codec, fiber synchronisation and the RPC handler

A shallow embedding of `include/buffer/buffer.h`, `include/net/serializer.h`,
`include/serialization/json_deserializer.h`, `include/fiber/fiber_sync.h` and the connection
handler of `test/module_rpc_test/test_json_rpc_proto.cpp`.

* A byte is a `UInt8`; a `std::string` is a `List Byte`.
* The writer state is the text written so far; the reader state is a `ReadBuffer`
  (the byte source and `m_read_idx`).
* A reading operation returns a `Res`: a value with the buffer after the call, a thrown
  exception with the buffer at the throw, or `diverge` when a loop was cut off by its
  iteration budget.
* The C++ templates take the `Save` / `Load` of their element type as an argument.
* The functions of `RWMutex` are run one statement at a time by any number of fibers, in any
  interleaving.
-/

namespace MyRPC

/-- One `char` / `unsigned char` of the wire text. -/
abbrev Byte := UInt8

/-- The bytes of an ASCII literal. -/
def bytes (s : String) : List Byte := s.toList.map (fun c => UInt8.ofNat c.toNat)

/-! ## Exceptions and results -/

/-- The exceptions that can leave the codec: the repository's `NetException` and
`JsonDeserializerException(pos)`, and the two exceptions of `std::stoull` / `std::stoll`. -/
inductive Exception where
  | NetException
  | JsonDeserializerException (pos : Int)
  | invalid_argument
  | out_of_range
  deriving DecidableEq, Repr

/-- State of a `ReadBuffer`: the bytes of the source and the read position `m_read_idx`. -/
structure ReadBuffer where
  data : List Byte
  m_read_idx : Nat
  deriving DecidableEq, Repr

/-- Outcome of a reading operation. -/
inductive Res (α : Type) where
  | ok (val : α) (buffer : ReadBuffer)
  | throw (e : Exception) (buffer : ReadBuffer)
  | diverge
  deriving DecidableEq, Repr

/-- Sequencing of two reading operations: an exception or a cut-off loop ends the sequence. -/
def Res.bind {α β : Type} (r : Res α) (f : α → ReadBuffer → Res β) : Res β :=
  match r with
  | .ok v b => f v b
  | .throw e b => .throw e b
  | .diverge => .diverge

/-! ## `ReadBuffer` (buffer.h) -/

namespace ReadBuffer

/-- The bytes not read yet. -/
def unread (b : ReadBuffer) : List Byte := b.data.drop b.m_read_idx

/-- `int GetPos() const { return m_read_idx; }`: the `unsigned long` index narrowed to a
32-bit `int`. -/
def GetPos (b : ReadBuffer) : Int :=
  ((b.m_read_idx : Int) + 2 ^ 31) % 2 ^ 32 - 2 ^ 31

/-- Modelled from the spec: `GetChar` is pure virtual in `ReadBuffer` and its implementations
are not among the sources. It returns the next byte and moves the read position one byte on;
when the source has no further byte it raises the network error that `ReadUntil` catches. -/
def GetChar (b : ReadBuffer) : Res Byte :=
  match b.data[b.m_read_idx]? with
  | some c => .ok c { b with m_read_idx := b.m_read_idx + 1 }
  | none => .throw .NetException b

/-- Modelled from the spec: `Forward(sz)` is pure virtual; the read position moves `sz` bytes
on. -/
def Forward (b : ReadBuffer) (sz : Nat) : ReadBuffer :=
  { b with m_read_idx := b.m_read_idx + sz }

/-- Modelled from the spec: `Backward(sz)` is pure virtual; the read position moves `sz` bytes
back. -/
def Backward (b : ReadBuffer) (sz : Nat) : ReadBuffer :=
  { b with m_read_idx := b.m_read_idx - sz }

/-- Modelled from the spec: `PeekString(s, N)` is pure virtual; `s` becomes the next `N` bytes
(fewer when the source holds fewer) and the read position stays. -/
def PeekString (b : ReadBuffer) (N : Nat) : List Byte :=
  (b.data.drop b.m_read_idx).take N

/-- Modelled from the spec: `_read_to_str(s, begin, end)` is pure virtual; `s` becomes the
bytes at positions `begin .. end - 1`. -/
def _read_to_str (b : ReadBuffer) (bgn : Nat) (en : Nat) : List Byte :=
  (b.data.drop bgn).take (en - bgn)

/-- The test `(t == ' ') || (t == '\t') || (t == '\n') || (t == '\r')`. -/
def isBlank (t : Byte) : Bool := t == 32 || t == 9 || t == 10 || t == 13

/-- The loop `while(blank(t)) t = GetChar();` shared by `GetCharF` and `PeekCharF`.
The budget counts iterations; `GetCharF` passes one more than the number of unread bytes,
which the loop cannot use up because every iteration reads a byte or throws. -/
def skipBlank : Nat → Byte → ReadBuffer → Res Byte
  | 0, _, _ => .diverge
  | fuel + 1, t, b =>
    if isBlank t then
      match b.GetChar with
      | .ok t1 b1 => skipBlank fuel t1 b1
      | .throw e b1 => .throw e b1
      | .diverge => .diverge
    else .ok t b

/-- `unsigned char GetCharF()`: the next byte that is not blank, consumed. -/
def GetCharF (b : ReadBuffer) : Res Byte :=
  b.GetChar.bind fun t b1 =>
  skipBlank (b1.data.length - b1.m_read_idx + 1) t b1

/-- `unsigned char PeekCharF()`: as `GetCharF`, then `--m_read_idx`. -/
def PeekCharF (b : ReadBuffer) : Res Byte :=
  b.GetChar.bind fun t b1 =>
  (skipBlank (b1.data.length - b1.m_read_idx + 1) t b1).bind fun t2 b2 =>
  .ok t2 { b2 with m_read_idx := b2.m_read_idx - 1 }

/-- The `while (true)` loop of `ReadUntil<c...>`: read a byte; on a terminator step back one
byte and leave the loop; a `NetException` restores `prev_read_idx` and is thrown again.
The budget counts iterations, as in `skipBlank`. -/
def ReadUntil_loop (c : List Byte) (prev_read_idx : Nat) : Nat → ReadBuffer → Res Unit
  | 0, _ => .diverge
  | fuel + 1, b =>
    match b.GetChar with
    | .ok t b1 =>
      if t ∈ c then .ok () { b1 with m_read_idx := b1.m_read_idx - 1 }
      else ReadUntil_loop c prev_read_idx fuel b1
    | .throw .NetException b1 => .throw .NetException { b1 with m_read_idx := prev_read_idx }
    | .throw e b1 => .throw e b1
    | .diverge => .diverge

/-- `template<char ...c> void ReadUntil(std::string& s)`: `s` becomes the bytes from the read
position up to the first byte among `c`, which stays unread. -/
def ReadUntil (c : List Byte) (b : ReadBuffer) : Res (List Byte) :=
  let prev_read_idx := b.m_read_idx
  (ReadUntil_loop c prev_read_idx (b.data.length - b.m_read_idx + 1) b).bind fun _ b1 =>
  .ok (b1._read_to_str prev_read_idx b1.m_read_idx) b1

end ReadBuffer

/-- Modelled from the spec: the macro `MYRPC_ASSERT_EXCEPTION(cond, stmt)` (debug.h, not among
the sources) runs `stmt` when `cond` is false; every use in the codec has
`throw JsonDeserializerException(buffer.GetPos())` as `stmt`, with `cond` evaluated first. -/
def MYRPC_ASSERT_EXCEPTION (cond : Bool) (buffer : ReadBuffer) : Res Unit :=
  if cond then .ok () buffer else .throw (.JsonDeserializerException buffer.GetPos) buffer

/-! ## The C++ standard library functions used by the codec -/

/-- Decimal digits of `n`, most significant first; `fuel` bounds the number of digits. -/
def to_string_digits : Nat → Nat → List Byte
  | 0, _ => []
  | fuel + 1, n =>
    if n < 10 then [UInt8.ofNat (48 + n)]
    else to_string_digits fuel (n / 10) ++ [UInt8.ofNat (48 + n % 10)]

/-- `std::to_string` of an unsigned value (`%u`, `%lu`, `%llu`). -/
def to_string_unsigned (n : Nat) : List Byte := to_string_digits (n + 1) n

/-- `std::to_string` of a signed value (`%d`, `%ld`, `%lld`): a `-` and the digits of the
magnitude when negative. -/
def to_string_signed (v : Int) : List Byte :=
  if v < 0 then 45 :: to_string_unsigned v.natAbs else to_string_unsigned v.toNat

/-- `isspace` in the C locale: space, `\t`, `\n`, `\v`, `\f`, `\r`. -/
def isspace (c : Byte) : Bool := c == 32 || (9 ≤ c && c ≤ 13)

/-- `isdigit`. -/
def isdigit (c : Byte) : Bool := 48 ≤ c && c ≤ 57

/-- Value of a run of decimal digits. -/
def digits_value (ds : List Byte) : Nat :=
  ds.foldl (fun acc c => acc * 10 + (c.toNat - 48)) 0

/-- The subject sequence of `strtoull` / `strtoll` in base 10: leading white space is skipped,
then an optional sign, then the longest run of digits; what follows is ignored. The result is
the sign and the magnitude, or `none` when there is no digit (no conversion). -/
def strto_subject (s : List Byte) : Option (Bool × Nat) :=
  let s1 := s.dropWhile isspace
  let neg := s1.head? == some 45
  let s2 := if s1.head? == some 45 || s1.head? == some 43 then s1.tail else s1
  let ds := s2.takeWhile isdigit
  if ds.isEmpty then none else some (neg, digits_value ds)

/-- `ULLONG_MAX`. -/
def ULLONG_MAX : Nat := 2 ^ 64 - 1

/-- `LLONG_MAX`. -/
def LLONG_MAX : Nat := 2 ^ 63 - 1

/-- `std::stoull(s)`: `invalid_argument` when nothing converts, `out_of_range` when the
magnitude exceeds `ULLONG_MAX`; a value with a minus sign is negated in the unsigned type. -/
def stoull (s : List Byte) : Except Exception Nat :=
  match strto_subject s with
  | none => .error .invalid_argument
  | some (neg, m) =>
    if m > ULLONG_MAX then .error .out_of_range
    else .ok (if neg then (2 ^ 64 - m) % 2 ^ 64 else m)

/-- `std::stoll(s)`: `invalid_argument` when nothing converts, `out_of_range` when the value
is outside `LLONG_MIN .. LLONG_MAX`. -/
def stoll (s : List Byte) : Except Exception Int :=
  match strto_subject s with
  | none => .error .invalid_argument
  | some (neg, m) =>
    if neg then
      if m > LLONG_MAX + 1 then .error .out_of_range else .ok (-(m : Int))
    else
      if m > LLONG_MAX then .error .out_of_range else .ok (m : Int)

/-- Conversion of an integer to a signed type of `w` bits (two's complement, modulo `2^w`). -/
def to_signed (w : Nat) (v : Int) : Int :=
  (v + 2 ^ (w - 1)) % 2 ^ w - 2 ^ (w - 1)

/-- Conversion of an integer to an unsigned type of `w` bits (modulo `2^w`). -/
def to_unsigned (w : Nat) (v : Int) : Nat :=
  (v % 2 ^ w).toNat

/-! ## `JsonSerializer` (net/serializer.h) -/

/-- Modelled from the spec: `StringBuffer` (stringbuffer.h) is not among the sources. Its
state is the text written so far; `buffer << x` appends the bytes of `x`. -/
abbrev StringBuffer := List Byte

/-- Modelled from the spec: `Backward(size)` moves the write position `size` bytes back, so
the last `size` bytes written are erased. -/
def StringBuffer.Backward (buffer : StringBuffer) (size : Nat) : StringBuffer :=
  buffer.take (buffer.length - size)

namespace JsonSerializer

/-- `arithmetic_type<T> Save(const T& t)` at a signed integer type:
`buffer << std::to_string(t)`. -/
def Save_signed (t : Int) (buffer : StringBuffer) : StringBuffer :=
  buffer ++ to_string_signed t

/-- `arithmetic_type<T> Save(const T& t)` at an unsigned integer type. -/
def Save_unsigned (t : Nat) (buffer : StringBuffer) : StringBuffer :=
  buffer ++ to_string_unsigned t

/-- `arithmetic_type<T> Save(const T& t)` at `bool`: `std::to_string` has no overload for
`bool`, the argument is promoted to `int` (`true` is 1, `false` is 0). -/
def Save_bool (t : Bool) (buffer : StringBuffer) : StringBuffer :=
  buffer ++ to_string_signed (if t then 1 else 0)

/-- `void Save(const std::string_view s)`: `buffer << '"' << s << '"'`. -/
def Save_string (s : List Byte) (buffer : StringBuffer) : StringBuffer :=
  buffer ++ [34] ++ s ++ [34]

/-- `serialize_like_vector_impl_`, used by `Save` of `array`, `vector`, `deque`, `list`,
`forward_list`, `set` and `unordered_set`; `t` lists the elements in iteration order. -/
def serialize_like_vector_impl_ {α : Type} (Save : α → StringBuffer → StringBuffer)
    (t : List α) (buffer : StringBuffer) : StringBuffer :=
  let buffer1 := buffer ++ [91]
  let buffer2 := t.foldl (fun buf element => Save element buf ++ [44]) buffer1
  let buffer3 := if !t.isEmpty then StringBuffer.Backward buffer2 1 else buffer2
  buffer3 ++ [93]

/-- `serialize_key_val_impl_` for a key that is not a string. -/
def serialize_key_val_impl_ {α β : Type} (SaveKey : α → StringBuffer → StringBuffer)
    (SaveVal : β → StringBuffer → StringBuffer) (key : α) (value : β)
    (buffer : StringBuffer) : StringBuffer :=
  let buffer1 := buffer ++ bytes "\x7b\"key\":"
  let buffer2 := SaveKey key buffer1
  let buffer3 := buffer2 ++ bytes ",\"value\":"
  let buffer4 := SaveVal value buffer3
  buffer4 ++ [125]

/-- `serialize_key_val_impl_(const std::string_view key, const Tval& value)`. -/
def serialize_key_val_impl_string {β : Type} (SaveVal : β → StringBuffer → StringBuffer)
    (key : List Byte) (value : β) (buffer : StringBuffer) : StringBuffer :=
  let buffer1 := buffer ++ [34] ++ key ++ bytes "\":"
  SaveVal value buffer1

/-- `serialize_like_map_impl_`, the branch `if constexpr(is_string)`; `t` lists the entries
in iteration order. -/
def serialize_like_map_impl_string {β : Type} (SaveVal : β → StringBuffer → StringBuffer)
    (t : List (List Byte × β)) (buffer : StringBuffer) : StringBuffer :=
  let buffer1 := buffer ++ [123]
  let buffer2 := t.foldl
    (fun buf kv => SaveVal kv.2 (buf ++ [34] ++ kv.1 ++ bytes "\":") ++ [44]) buffer1
  let buffer3 := if !t.isEmpty then StringBuffer.Backward buffer2 1 else buffer2
  buffer3 ++ [125]

/-- `serialize_like_map_impl_`, the `else` branch (the key type is not a string). -/
def serialize_like_map_impl_ {α β : Type} (SaveKey : α → StringBuffer → StringBuffer)
    (SaveVal : β → StringBuffer → StringBuffer) (t : List (α × β))
    (buffer : StringBuffer) : StringBuffer :=
  let buffer1 := buffer ++ [91]
  let buffer2 := t.foldl
    (fun buf kv =>
      SaveVal kv.2 (SaveKey kv.1 (buf ++ bytes "\x7b\"key\":") ++ bytes ",\"value\":")
        ++ bytes "\x7d,")
    buffer1
  let buffer3 := if !t.isEmpty then StringBuffer.Backward buffer2 1 else buffer2
  buffer3 ++ [93]

/-- `void Save(const std::optional<T>& t)`. -/
def Save_optional {α : Type} (Save : α → StringBuffer → StringBuffer) (t : Option α)
    (buffer : StringBuffer) : StringBuffer :=
  match t with
  | some v => Save v buffer
  | none => buffer ++ bytes "null"

/-- `void Save(const std::shared_ptr<T>& t)`; `none` is the empty pointer. -/
def Save_shared_ptr {α : Type} (Save : α → StringBuffer → StringBuffer) (t : Option α)
    (buffer : StringBuffer) : StringBuffer :=
  match t with
  | some v => Save v buffer
  | none => buffer ++ bytes "null"

/-- `void Save(const std::unique_ptr<T>& t)`; `none` is the empty pointer. -/
def Save_unique_ptr {α : Type} (Save : α → StringBuffer → StringBuffer) (t : Option α)
    (buffer : StringBuffer) : StringBuffer :=
  match t with
  | some v => Save v buffer
  | none => buffer ++ bytes "null"

/-- A value together with the `Save` overload selected for its type: one element of a
`std::tuple`, or the member behind one `SAVE_ITEM`. -/
structure Saveable where
  T : Type
  Save : T → StringBuffer → StringBuffer
  val : T

/-- `serialize_tuple_impl_`: `t` lists the elements `std::get<Is>(t)` in index order; the fold
expression writes each element followed by `,`, then `Backward(1)` runs whatever the number
of elements. -/
def serialize_tuple_impl_ (t : List Saveable) (buffer : StringBuffer) : StringBuffer :=
  let buffer1 := buffer ++ [91]
  let buffer2 := t.foldl (fun buf e => e.Save e.val buf ++ [44]) buffer1
  let buffer3 := StringBuffer.Backward buffer2 1
  buffer3 ++ [93]

/-- `void Save(const std::pair<Tkey, Tval>& t)` when `is_string` holds. -/
def Save_pair_string {β : Type} (SaveVal : β → StringBuffer → StringBuffer)
    (t : List Byte × β) (buffer : StringBuffer) : StringBuffer :=
  let buffer1 := buffer ++ [123]
  let buffer2 := serialize_key_val_impl_string SaveVal t.1 t.2 buffer1
  buffer2 ++ [125]

/-- `void Save(const std::pair<Tkey, Tval>& t)` when the key type is not a string. -/
def Save_pair {α β : Type} (SaveKey : α → StringBuffer → StringBuffer)
    (SaveVal : β → StringBuffer → StringBuffer) (t : α × β)
    (buffer : StringBuffer) : StringBuffer :=
  let buffer1 := buffer ++ [91]
  let buffer2 := serialize_key_val_impl_ SaveKey SaveVal t.1 t.2 buffer1
  buffer2 ++ [93]

/-- `serialize_struct_begin_impl_`. -/
def serialize_struct_begin_impl_ (buffer : StringBuffer) : StringBuffer :=
  buffer ++ [123]

/-- `serialize_struct_end_impl_`: `buffer.Backward(1); buffer << '}'`. -/
def serialize_struct_end_impl_ (buffer : StringBuffer) : StringBuffer :=
  StringBuffer.Backward buffer 1 ++ [125]

/-- `serialize_item_impl_(key, val)`. -/
def serialize_item_impl_ {β : Type} (SaveVal : β → StringBuffer → StringBuffer)
    (key : List Byte) (val : β) (buffer : StringBuffer) : StringBuffer :=
  serialize_key_val_impl_string SaveVal key val buffer ++ [44]

/-- The member function `Save` that `SAVE_BEGIN SAVE_ITEM(x1) ... SAVE_ITEM(xk) SAVE_END`
declares; `items` lists the members in declaration order, each with its name `#x`. -/
def Save_struct (items : List (List Byte × Saveable)) (buffer : StringBuffer) :
    StringBuffer :=
  let buffer1 := serialize_struct_begin_impl_ buffer
  let buffer2 := items.foldl
    (fun buf it => serialize_item_impl_ it.2.Save it.1 it.2.val buf) buffer1
  serialize_struct_end_impl_ buffer2

end JsonSerializer

/-! ## `JsonDeserializer` (serialization/json_deserializer.h) -/

namespace JsonDeserializer

/-- The terminators `',', '}', ']'` of the arithmetic `Load`. -/
def arithmetic_terminators : List Byte := [44, 125, 93]

/-- `arithmetic_type<T> Load(T& t)`, the branch for `bool`: `t = (s == "true")`. -/
def Load_bool (buffer : ReadBuffer) : Res Bool :=
  (buffer.ReadUntil arithmetic_terminators).bind fun s b =>
  .ok (s == bytes "true") b

/-- `arithmetic_type<T> Load(T& t)`, the branch `std::is_unsigned_v` at a type of `w` bits:
`t = std::stoll(s)`. -/
def Load_unsigned (w : Nat) (buffer : ReadBuffer) : Res Nat :=
  (buffer.ReadUntil arithmetic_terminators).bind fun s b =>
  match stoll s with
  | .ok v => .ok (to_unsigned w v) b
  | .error e => .throw e b

/-- `arithmetic_type<T> Load(T& t)`, the last branch (signed integer types) at a type of `w`
bits: `t = std::stoull(s)`. -/
def Load_signed (w : Nat) (buffer : ReadBuffer) : Res Int :=
  (buffer.ReadUntil arithmetic_terminators).bind fun s b =>
  match stoull s with
  | .ok u => .ok (to_signed w (u : Int)) b
  | .error e => .throw e b

/-- `void Load(std::string& s)`. -/
def Load_string (buffer : ReadBuffer) : Res (List Byte) :=
  buffer.GetCharF.bind fun c1 b1 =>
  (MYRPC_ASSERT_EXCEPTION (c1 == 34) b1).bind fun _ b2 =>
  (b2.ReadUntil [34]).bind fun s b3 =>
  b3.GetChar.bind fun c2 b4 =>
  (MYRPC_ASSERT_EXCEPTION (c2 == 34) b4).bind fun _ b5 =>
  .ok s b5

/-- The `while(buffer.PeekCharF() != ']')` loop of `deserialize_like_vector_impl_`. `Load` is
the element's `Load` applied to a fresh `Tval elem`; `fuel` bounds the number of iterations
(the loop of the source has no bound of its own). -/
def deserialize_like_vector_loop {α : Type} (Load : ReadBuffer → Res α) :
    Nat → List α → ReadBuffer → Res (List α)
  | 0, _, _ => .diverge
  | fuel + 1, t, buffer =>
    buffer.PeekCharF.bind fun c b1 =>
    if c != 93 then
      (Load b1).bind fun elem b2 =>
      b2.PeekCharF.bind fun c2 b3 =>
      (if c2 == 44 then b3.GetChar.bind fun _ b4 => .ok () b4 else .ok () b3).bind fun _ b5 =>
      deserialize_like_vector_loop Load fuel (t ++ [elem]) b5
    else .ok t b1

/-- `deserialize_like_vector_impl_`, used by `Load` of `vector`, `deque`, `list` and
`forward_list`: the elements read are appended to `t`. -/
def deserialize_like_vector_impl_ {α : Type} (Load : ReadBuffer → Res α) (fuel : Nat)
    (t : List α) (buffer : ReadBuffer) : Res (List α) :=
  buffer.GetCharF.bind fun c1 b1 =>
  (MYRPC_ASSERT_EXCEPTION (c1 == 91) b1).bind fun _ b2 =>
  (deserialize_like_vector_loop Load fuel t b2).bind fun t1 b3 =>
  b3.GetCharF.bind fun c3 b4 =>
  (MYRPC_ASSERT_EXCEPTION (c3 == 93) b4).bind fun _ b5 =>
  .ok t1 b5

/-- `void Load(std::optional<T>& t)`; `Load` is the `Load` of `T` applied to a fresh
`T val`. -/
def Load_optional {α : Type} (Load : ReadBuffer → Res α) (buffer : ReadBuffer) :
    Res (Option α) :=
  buffer.PeekCharF.bind fun _ b1 =>
  if b1.PeekString 4 == bytes "null" then .ok none (b1.Forward 4)
  else (Load b1).bind fun val b2 => .ok (some val) b2

/-- `void Load(std::shared_ptr<T>& t)`: `t = std::make_shared<T>()` comes first, with
`make_shared` the value-initialised `T`; `Load` is the `Load` of `T` applied to `*t`. -/
def Load_shared_ptr {α : Type} (make_shared : α) (Load : α → ReadBuffer → Res α)
    (buffer : ReadBuffer) : Res (Option α) :=
  let t := make_shared
  buffer.PeekCharF.bind fun _ b1 =>
  if b1.PeekString 4 == bytes "null" then .ok (some t) (b1.Forward 4)
  else (Load t b1).bind fun val b2 => .ok (some val) b2

/-- `void Load(std::unique_ptr<T>& t)`: `t = std::make_unique<T>()` comes first. -/
def Load_unique_ptr {α : Type} (make_unique : α) (Load : α → ReadBuffer → Res α)
    (buffer : ReadBuffer) : Res (Option α) :=
  let t := make_unique
  buffer.PeekCharF.bind fun _ b1 =>
  if b1.PeekString 4 == bytes "null" then .ok (some t) (b1.Forward 4)
  else (Load t b1).bind fun val b2 => .ok (some val) b2

/-- `deserialize_key_val_impl_` for a key that is not a string; `LoadKey` and `LoadVal` are the
`Load` of the key and value types applied to the fresh `key` and `value`. -/
def deserialize_key_val_impl_ {α β : Type} (LoadKey : ReadBuffer → Res α)
    (LoadVal : ReadBuffer → Res β) (buffer : ReadBuffer) : Res (α × β) :=
  buffer.GetCharF.bind fun c1 b1 =>
  (MYRPC_ASSERT_EXCEPTION (c1 == 123) b1).bind fun _ b2 =>
  b2.PeekCharF.bind fun _ b3 =>
  (MYRPC_ASSERT_EXCEPTION (b3.PeekString 5 == bytes "\"key\"") b3).bind fun _ b4 =>
  (b4.Forward 5).GetCharF.bind fun c2 b5 =>
  (MYRPC_ASSERT_EXCEPTION (c2 == 58) b5).bind fun _ b6 =>
  (LoadKey b6).bind fun key b7 =>
  b7.GetCharF.bind fun c3 b8 =>
  (MYRPC_ASSERT_EXCEPTION (c3 == 44) b8).bind fun _ b9 =>
  b9.PeekCharF.bind fun _ b10 =>
  (MYRPC_ASSERT_EXCEPTION (b10.PeekString 7 == bytes "\"value\"") b10).bind fun _ b11 =>
  (b11.Forward 7).GetCharF.bind fun c4 b12 =>
  (MYRPC_ASSERT_EXCEPTION (c4 == 58) b12).bind fun _ b13 =>
  (LoadVal b13).bind fun value b14 =>
  b14.GetCharF.bind fun c5 b15 =>
  (MYRPC_ASSERT_EXCEPTION (c5 == 125) b15).bind fun _ b16 =>
  .ok (key, value) b16

/-- `deserialize_key_val_impl_(std::string& key, Tval& value)`. -/
def deserialize_key_val_impl_string {β : Type} (LoadVal : ReadBuffer → Res β)
    (buffer : ReadBuffer) : Res (List Byte × β) :=
  (Load_string buffer).bind fun key b1 =>
  b1.GetCharF.bind fun c b2 =>
  (MYRPC_ASSERT_EXCEPTION (c == 58) b2).bind fun _ b3 =>
  (LoadVal b3).bind fun value b4 =>
  .ok (key, value) b4

/-- The `while(c2 != '}' && c2 != ']')` loop of `deserialize_like_map_impl_`. `key_val` is
`deserialize_key_val_impl_` at the key and value types, `emplace` is `t.emplace` of the
container type; `fuel` bounds the number of iterations. -/
def deserialize_like_map_loop {κ β M : Type} (key_val : ReadBuffer → Res (κ × β))
    (emplace : κ → β → M → M) : Nat → Byte → M → ReadBuffer → Res M
  | 0, _, _, _ => .diverge
  | fuel + 1, c2, t, buffer =>
    if c2 != 125 && c2 != 93 then
      (key_val buffer).bind fun kv b1 =>
      b1.PeekCharF.bind fun c b2 =>
      (if c == 44 then b2.GetChar.bind fun _ b3 => .ok () b3 else .ok () b2).bind fun _ b4 =>
      b4.PeekCharF.bind fun c2n b5 =>
      deserialize_like_map_loop key_val emplace fuel c2n (emplace kv.1 kv.2 t) b5
    else .ok t buffer

/-- `deserialize_like_map_impl_`, used by `Load` of `map`, `multimap`, `unordered_map` and
`unordered_multimap`: every entry read is passed to `t.emplace`. -/
def deserialize_like_map_impl_ {κ β M : Type} (key_val : ReadBuffer → Res (κ × β))
    (emplace : κ → β → M → M) (fuel : Nat) (t : M) (buffer : ReadBuffer) : Res M :=
  buffer.GetCharF.bind fun c1 b1 =>
  (MYRPC_ASSERT_EXCEPTION (c1 == 123 || c1 == 91) b1).bind fun _ b2 =>
  b2.PeekCharF.bind fun c2 b3 =>
  (deserialize_like_map_loop key_val emplace fuel c2 t b3).bind fun t1 b4 =>
  b4.GetCharF.bind fun c3 b5 =>
  (MYRPC_ASSERT_EXCEPTION (c3 == 125 || c3 == 93) b5).bind fun _ b6 =>
  .ok t1 b6

/-- `make_tuple_internal_<T>()`: `T t; Load(t); buffer.GetCharF(); return t;`. -/
def make_tuple_internal_ {α : Type} (Load : ReadBuffer → Res α) (buffer : ReadBuffer) :
    Res α :=
  (Load buffer).bind fun t b1 =>
  b1.GetCharF.bind fun _ b2 =>
  .ok t b2

/-- `deserialize_struct_begin_impl_`. -/
def deserialize_struct_begin_impl_ (buffer : ReadBuffer) : Res Unit :=
  buffer.GetCharF.bind fun c b1 =>
  MYRPC_ASSERT_EXCEPTION (c == 123) b1

/-- `deserialize_struct_end_impl_`: the body is empty. -/
def deserialize_struct_end_impl_ (buffer : ReadBuffer) : Res Unit :=
  .ok () buffer

/-- `deserialize_item_impl_(key, val)`; `LoadVal` is the `Load` of the member's type applied
to `val`. -/
def deserialize_item_impl_ {β : Type} (LoadVal : ReadBuffer → Res β) (key : List Byte)
    (buffer : ReadBuffer) : Res β :=
  (deserialize_key_val_impl_string LoadVal buffer).bind fun kv b1 =>
  (MYRPC_ASSERT_EXCEPTION (key == kv.1) b1).bind fun _ b2 =>
  b2.GetCharF.bind fun c b3 =>
  (MYRPC_ASSERT_EXCEPTION (c == 44 || c == 125) b3).bind fun _ b4 =>
  .ok kv.2 b4

end JsonDeserializer

/-! ## `std::map` and `std::string` comparison (C++ standard library) -/

/-- `operator<` of `std::string`: lexicographic on the bytes as `unsigned char`, a proper
prefix being smaller. -/
def string_less : List Byte → List Byte → Bool
  | [], [] => false
  | [], _ :: _ => true
  | _ :: _, [] => false
  | a :: as, b :: bs => if a < b then true else if b < a then false else string_less as bs

/-- `std::less<int>` / `std::less<long>`. -/
def int_less (a b : Int) : Bool := decide (a < b)

/-- `std::map<Key, T, Compare>::emplace(key, val)`, on the entries in iteration order
(ascending by `comp`): the entry goes before the first key that `key` precedes; when an
equivalent key is met (neither precedes the other) nothing is inserted. -/
def std_map_emplace {κ β : Type} (comp : κ → κ → Bool) (key : κ) (val : β) :
    List (κ × β) → List (κ × β)
  | [] => [(key, val)]
  | e :: rest =>
    if comp key e.1 then (key, val) :: e :: rest
    else if comp e.1 key then e :: std_map_emplace comp key val rest
    else e :: rest

/-- `std::unordered_map<Key, T>::emplace(key, val)`: nothing is inserted when an entry with an
equal key exists. The iteration order of the container is unspecified; the model keeps the
entries in the order of insertion. -/
def unordered_map_emplace {κ β : Type} [DecidableEq κ] (key : κ) (val : β)
    (t : List (κ × β)) : List (κ × β) :=
  if key ∈ t.map Prod.fst then t else t ++ [(key, val)]

/-- The text of a JSON object with the entries `es` in order, each written `"k":v` with `v` a
signed integer, separated by `,` between `{` and `}`. Unlike the text that `Save` writes for a
map, the same key may occur more than once. -/
def object_text (es : List (List Byte × Int)) : List Byte :=
  bytes "\x7b"
    ++ List.intercalate (bytes ",")
        (es.map fun kv => bytes "\"" ++ kv.1 ++ bytes "\":" ++ to_string_signed kv.2)
    ++ bytes "\x7d"

/-! ## Fiber synchronisation (fiber/fiber_sync.h) -/

namespace FiberSync

/-- Modelled from the spec: `Fiber::GetStatus()` (fiber/fiber.h is not among the sources)
returns a status from READY, RUNNING, BLOCKED, TERMINAL. -/
inductive Status where
  | READY
  | RUNNING
  | BLOCKED
  | TERMINAL
  deriving DecidableEq, Repr

/-- State of a `Mutex`: the `std::atomic_flag m_lock` and the wait queue `m_wait_queue` of
(fiber status, thread id) pairs, front first. -/
structure Mutex where
  m_lock : Bool
  m_wait_queue : List (Status × Int)
  deriving DecidableEq, Repr

namespace Mutex

/-- `bool tryLock() { return !m_lock.test_and_set(std::memory_order_acquire); }`:
`test_and_set` sets the flag and returns the value it had, in one atomic step. -/
def tryLock (m : Mutex) : Bool × Mutex :=
  (!m.m_lock, { m with m_lock := true })

/-- Modelled from the spec: `Mutex::lock()` is declared in fiber_sync.h and defined outside the
sources. It attempts the atomic test-and-set and returns when the flag was clear; otherwise
the fiber parks and retries when woken, so with the flag set and no other operation running
the call does not return (`none`). -/
def lock (m : Mutex) : Option Mutex :=
  if (tryLock m).1 then some (tryLock m).2 else none

/-- Modelled from the spec: `Mutex::unlock()` clears the atomic flag and, when a waiter is
queued, pops it to wake it. -/
def unlock (m : Mutex) : Mutex :=
  { m with m_lock := false, m_wait_queue := m.m_wait_queue.tail }

end Mutex

/-- Outcome of `Clear`: the loop ran to its end, or `MYRPC_ASSERT` failed; each with the wait
queue at that point. -/
inductive ClearResult where
  | done (m_wait_queue : List (Status × Int))
  | assert_failed (m_wait_queue : List (Status × Int))
  deriving DecidableEq, Repr

/-- The loop of `Mutex::Clear` and `ConditionVariable::Clear`:
`while(!m_wait_queue.empty()){ auto [fb, tid] = m_wait_queue.front();
MYRPC_ASSERT(fb->GetStatus() == Fiber::TERMINAL); m_wait_queue.pop(); }`.
Modelled from the spec: the macro `MYRPC_ASSERT` (debug.h, not among the sources) stops the
program when its condition is false (a fatal invariant violation). -/
def Clear_loop : List (Status × Int) → ClearResult
  | [] => .done []
  | (fb, tid) :: rest =>
    if fb = Status.TERMINAL then Clear_loop rest else .assert_failed ((fb, tid) :: rest)

/-- `Mutex::Clear`. -/
def Mutex.Clear (m : Mutex) : ClearResult := Clear_loop m.m_wait_queue

/-- State of a `ConditionVariable`: the flag `m_notify_all` and the wait queue. -/
structure ConditionVariable where
  m_notify_all : Bool
  m_wait_queue : List (Status × Int)
  deriving DecidableEq, Repr

/-- `ConditionVariable::Clear`. -/
def ConditionVariable.Clear (cv : ConditionVariable) : ClearResult :=
  Clear_loop cv.m_wait_queue

/-- `tryLock` called `n` times in a row on one mutex: the results in call order and the mutex
afterwards. -/
def tryLock_run : Nat → Mutex → List Bool × Mutex
  | 0, m => ([], m)
  | n + 1, m =>
    ((Mutex.tryLock m).1 :: (tryLock_run n (Mutex.tryLock m).2).1,
      (tryLock_run n (Mutex.tryLock m).2).2)

/-- State of an `RWMutex`. -/
structure RWMutex where
  write_lock : Mutex
  read_lock : Mutex
  m_reader : Int
  reader_blocked : Bool
  deriving DecidableEq, Repr

/-- The statement that a fiber inside `lock_shared()` executes next, in source order:
`while(!read_lock.tryLock())`, `if(reader_blocked)`, `read_lock.lock(); break;`,
`if(++m_reader == 1)`, `if(!write_lock.tryLock())`, `reader_blocked = true;`,
`write_lock.lock();`, `reader_blocked = false;`, `read_lock.unlock();`. -/
inductive LockSharedPC where
  | read_tryLock
  | reader_blocked
  | read_lock
  | incr
  | write_tryLock
  | set_blocked
  | write_lock
  | clear_blocked
  | read_unlock
  deriving DecidableEq, Repr

/-- The statement that a fiber inside `unlock_shared()` executes next, in source order:
`while(!read_lock.tryLock());`, `if(--m_reader == 0)`, `write_lock.unlock();`,
`read_lock.unlock();`. -/
inductive UnlockSharedPC where
  | read_tryLock
  | decr
  | write_unlock
  | read_unlock
  deriving DecidableEq, Repr

namespace RWMutex

/-- A freshly constructed `RWMutex`: `m_reader = 0`, `reader_blocked = false`, both mutexes
free. -/
def init : RWMutex :=
  { write_lock := ⟨false, []⟩, read_lock := ⟨false, []⟩, m_reader := 0,
    reader_blocked := false }

/-- `void lock() { write_lock.lock(); }`: one attempt of a fiber that stands at
`write_lock.lock()`. The result is the state and whether the call returned; a fiber that
finds the flag set stays parked in the call and attempts again later. -/
def lock (s : RWMutex) : RWMutex × Bool :=
  match s.write_lock.lock with
  | some wl => ({ s with write_lock := wl }, true)
  | none => (s, false)

/-- `void unlock() { write_lock.unlock(); }`. -/
def unlock (s : RWMutex) : RWMutex :=
  { s with write_lock := s.write_lock.unlock }

/-- One statement of `lock_shared()`, executed atomically by a fiber that stands at it: the
state afterwards and the statement the fiber executes next, `none` when the call has
returned. A fiber that finds a mutex taken in `read_lock.lock()` or `write_lock.lock()` stays
parked at that statement, with everything it has written so far left in place (the read lock
held, `m_reader` incremented, `reader_blocked` set), and attempts again later. The whole
result is `none` when `++m_reader` would overflow the `int`. -/
def lock_shared (s : RWMutex) : LockSharedPC → Option (RWMutex × Option LockSharedPC)
  | .read_tryLock =>
    -- while(!read_lock.tryLock()){
    some ({ s with read_lock := (s.read_lock.tryLock).2 },
      some (if (s.read_lock.tryLock).1 then .incr else .reader_blocked))
  | .reader_blocked =>
    -- if(reader_blocked){ ... } }
    some (s, some (if s.reader_blocked then .read_lock else .read_tryLock))
  | .read_lock =>
    -- read_lock.lock(); break;
    match s.read_lock.lock with
    | some rl => some ({ s with read_lock := rl }, some .incr)
    | none => some (s, some .read_lock)
  | .incr =>
    -- if(++m_reader == 1){
    if s.m_reader < 2 ^ 31 - 1 then
      some ({ s with m_reader := s.m_reader + 1 },
        some (if s.m_reader + 1 = 1 then .write_tryLock else .read_unlock))
    else none
  | .write_tryLock =>
    -- if(!write_lock.tryLock()) {
    some ({ s with write_lock := (s.write_lock.tryLock).2 },
      some (if (s.write_lock.tryLock).1 then .read_unlock else .set_blocked))
  | .set_blocked =>
    -- reader_blocked = true;
    some ({ s with reader_blocked := true }, some .write_lock)
  | .write_lock =>
    -- write_lock.lock();
    match s.write_lock.lock with
    | some wl => some ({ s with write_lock := wl }, some .clear_blocked)
    | none => some (s, some .write_lock)
  | .clear_blocked =>
    -- reader_blocked = false; } }
    some ({ s with reader_blocked := false }, some .read_unlock)
  | .read_unlock =>
    -- read_lock.unlock();
    some ({ s with read_lock := s.read_lock.unlock }, none)

/-- One statement of `unlock_shared()`, executed atomically by a fiber that stands at it: the
state afterwards and the statement the fiber executes next, `none` when the call has
returned. The whole result is `none` when `--m_reader` would overflow the `int`. -/
def unlock_shared (s : RWMutex) : UnlockSharedPC → Option (RWMutex × Option UnlockSharedPC)
  | .read_tryLock =>
    -- while(!read_lock.tryLock());
    some ({ s with read_lock := (s.read_lock.tryLock).2 },
      some (if (s.read_lock.tryLock).1 then .decr else .read_tryLock))
  | .decr =>
    -- if(--m_reader == 0){
    if -(2 ^ 31) < s.m_reader then
      some ({ s with m_reader := s.m_reader - 1 },
        some (if s.m_reader - 1 = 0 then .write_unlock else .read_unlock))
    else none
  | .write_unlock =>
    -- write_lock.unlock(); }
    some ({ s with write_lock := s.write_lock.unlock }, some .read_unlock)
  | .read_unlock =>
    -- read_lock.unlock();
    some ({ s with read_lock := s.read_lock.unlock }, none)

end RWMutex

/-- Where a fiber stands: outside the `RWMutex`, or inside one of its four functions, at the
statement it executes next. -/
inductive PC where
  | idle
  | lock_shared (pc : LockSharedPC)
  | unlock_shared (pc : UnlockSharedPC)
  | lock
  | unlock
  deriving DecidableEq, Repr

/-- A fiber that uses the `RWMutex`: where it stands, the number of shared locks it holds and
whether it holds the exclusive lock. A lock is held from the return of `lock_shared` / `lock`
to the call of `unlock_shared` / `unlock`. -/
structure Fiber where
  pc : PC
  shared : Nat
  exclusive : Bool
  deriving DecidableEq, Repr

/-- An `RWMutex` with the fibers that use it. -/
structure RWState where
  rw : RWMutex
  fibers : List Fiber
  deriving DecidableEq, Repr

/-- The four public functions of `RWMutex`. -/
inductive Call where
  | lock_shared
  | unlock_shared
  | lock
  | unlock
  deriving DecidableEq, Repr

/-- What happens next: fiber `i` calls a function of the `RWMutex`, or fiber `i` executes the
next statement of the call it is in. -/
inductive Action where
  | call (i : Nat) (c : Call)
  | step (i : Nat)
  deriving DecidableEq, Repr

/-- The initial state: a fresh `RWMutex` and `n` fibers outside it that hold nothing. -/
def RWState.init (n : Nat) : RWState :=
  ⟨RWMutex.init, List.replicate n ⟨PC.idle, 0, false⟩⟩

/-- One action, `none` when it cannot happen. A call is made by a fiber that stands outside
the `RWMutex`: `unlock_shared` by a fiber that holds a shared lock, which it gives up with
the call, and `unlock` by a fiber that holds the exclusive lock, likewise. A step executes the
next statement of the fiber; the fiber holds the lock it asked for when `lock_shared` or
`lock` returns. The fibers interleave statement by statement, in any order. A fiber parked in
`Mutex::lock()` may attempt the test-and-set again at any later step: the wait queues, which
only decide when a parked fiber is woken, are not tracked, and every order of wake-ups is
among these interleavings. -/
def RWStep (s : RWState) : Action → Option RWState
  | .call i c =>
    match s.fibers[i]? with
    | none => none
    | some f =>
      if f.pc = PC.idle then
        match c with
        | .lock_shared =>
          some ⟨s.rw, s.fibers.set i { f with pc := .lock_shared .read_tryLock }⟩
        | .unlock_shared =>
          if 0 < f.shared then
            some ⟨s.rw, s.fibers.set i
              { f with pc := .unlock_shared .read_tryLock, shared := f.shared - 1 }⟩
          else none
        | .lock => some ⟨s.rw, s.fibers.set i { f with pc := .lock }⟩
        | .unlock =>
          if f.exclusive then
            some ⟨s.rw, s.fibers.set i { f with pc := .unlock, exclusive := false }⟩
          else none
      else none
  | .step i =>
    match s.fibers[i]? with
    | none => none
    | some f =>
      match f.pc with
      | .idle => none
      | .lock_shared pc =>
        match s.rw.lock_shared pc with
        | none => none
        | some (rw1, some pc1) => some ⟨rw1, s.fibers.set i { f with pc := .lock_shared pc1 }⟩
        | some (rw1, none) =>
          some ⟨rw1, s.fibers.set i { f with pc := .idle, shared := f.shared + 1 }⟩
      | .unlock_shared pc =>
        match s.rw.unlock_shared pc with
        | none => none
        | some (rw1, some pc1) => some ⟨rw1, s.fibers.set i { f with pc := .unlock_shared pc1 }⟩
        | some (rw1, none) => some ⟨rw1, s.fibers.set i { f with pc := .idle }⟩
      | .lock =>
        match s.rw.lock with
        | (rw1, true) => some ⟨rw1, s.fibers.set i { f with pc := .idle, exclusive := true }⟩
        | (rw1, false) => some ⟨rw1, s.fibers⟩
      | .unlock => some ⟨s.rw.unlock, s.fibers.set i { f with pc := .idle }⟩

/-- A sequence of actions, from the first to the last; `none` when one of them cannot
happen. -/
def RWRun : List Action → RWState → Option RWState
  | [], s => some s
  | a :: rest, s =>
    match RWStep s a with
    | some s1 => RWRun rest s1
    | none => none

/-- The number of shared locks held by the fibers. -/
def shared_holders (fibers : List Fiber) : Nat := (fibers.map Fiber.shared).sum

/-- The number of fibers that hold the exclusive lock. -/
def exclusive_holders (fibers : List Fiber) : Nat :=
  (fibers.map fun f => if f.exclusive = true then 1 else 0).sum

/-- The number of fibers that stand at `pc`. -/
def fibers_at (pc : PC) (fibers : List Fiber) : Nat :=
  (fibers.map fun f => if f.pc = pc then 1 else 0).sum

/-- The number of first readers that stand between `++m_reader == 1` and their acquisition of
the write lock. -/
def first_reader_waiting (fibers : List Fiber) : Nat :=
  fibers_at (.lock_shared .write_tryLock) fibers + fibers_at (.lock_shared .set_blocked) fibers
    + fibers_at (.lock_shared .write_lock) fibers

/-- Whether the next statement of fiber `i` is the `read_lock.unlock()` that ends
`lock_shared` or `unlock_shared`. -/
def returns_shared (s : RWState) (i : Nat) : Bool :=
  match s.fibers[i]? with
  | some f => f.pc = .lock_shared .read_unlock || f.pc = .unlock_shared .read_unlock
  | none => false

/-- The number of fibers that hold the read lock: those between its acquisition and its
release in `lock_shared` or `unlock_shared`. -/
def read_lock_holders (fibers : List Fiber) : Nat :=
  fibers_at (.lock_shared .incr) fibers + fibers_at (.lock_shared .write_tryLock) fibers
    + fibers_at (.lock_shared .set_blocked) fibers + fibers_at (.lock_shared .write_lock) fibers
    + fibers_at (.lock_shared .clear_blocked) fibers
    + fibers_at (.lock_shared .read_unlock) fibers
    + fibers_at (.unlock_shared .decr) fibers + fibers_at (.unlock_shared .write_unlock) fibers
    + fibers_at (.unlock_shared .read_unlock) fibers

/-- The number of readers on whose behalf the write lock is held: the shared locks held, the
fibers in `unlock_shared` up to `write_lock.unlock()`, and the fiber in `lock_shared` after
its acquisition of the write lock. -/
def write_lock_readers (fibers : List Fiber) : Nat :=
  shared_holders fibers + fibers_at (.unlock_shared .read_tryLock) fibers
    + fibers_at (.unlock_shared .decr) fibers + fibers_at (.unlock_shared .write_unlock) fibers
    + fibers_at (.lock_shared .clear_blocked) fibers
    + fibers_at (.lock_shared .read_unlock) fibers

/-- What every reachable state satisfies, with a lock flag counted as 1 when set and 0 when
clear: the read lock is held exactly by the one fiber that stands between its acquisition and
its release; `m_reader` counts the shared locks held, the fibers in `unlock_shared` before
`--m_reader` and the fiber in `lock_shared` after `++m_reader`; the write lock is held
exactly by one exclusive holder (or the fiber about to release it in `unlock()`) or on behalf
of the readers, never both; and `write_lock.unlock()` in `unlock_shared` is reached with
`m_reader = 0`. -/
structure RWInv (s : RWState) : Prop where
  read : read_lock_holders s.fibers = s.rw.read_lock.m_lock.toNat
  count :
    s.rw.m_reader =
      ((shared_holders s.fibers + fibers_at (.unlock_shared .read_tryLock) s.fibers
        + fibers_at (.unlock_shared .decr) s.fibers
        + first_reader_waiting s.fibers
        + fibers_at (.lock_shared .clear_blocked) s.fibers
        + fibers_at (.lock_shared .read_unlock) s.fibers : Nat) : Int)
  write :
    exclusive_holders s.fibers + fibers_at .unlock s.fibers
      + min (write_lock_readers s.fibers) 1 = s.rw.write_lock.m_lock.toNat
  zero : 0 < fibers_at (.unlock_shared .write_unlock) s.fibers → s.rw.m_reader = 0

end FiberSync

/-! ## The JSON-RPC connection handler (test/module_rpc_test/test_json_rpc_proto.cpp) -/

namespace JsonRPC

/-- Modelled from the spec: the error codes of `JsonRPC` (rpc/jsonrpc/jsonrpc_proto.h is not
among the sources): the conventional JSON-RPC codes, the client-close signal and the
catch-all network error. -/
inductive Error where
  | NO_ERROR
  | PARSE_ERROR
  | INVALID_REQUEST
  | METHOD_NOT_FOUND
  | INVALID_PARAMS
  | INTERNAL_ERROR
  | CLIENT_CLOSE
  | _OTHER_NET_ERROR
  deriving DecidableEq, Repr

/-- Modelled from the spec: what `JsonRPC::Proto` (not among the sources) reports for one
incoming request: the result of `ParseMethod()`, the method name of `RequestStruct()`, the
result of `ParseRequest(args)` and the first element of the decoded `args`. -/
structure Incoming where
  parse_method : Error
  method : List Byte
  parse_request : Error
  args : List Int
  deriving DecidableEq, Repr

/-- The calls the handler makes on the protocol object, the write buffer and `sum`;
`SendResponse` carries `result`, `none` when the variable was never assigned. -/
inductive Event where
  | ParseMethod
  | ParseRequest
  | sum (v : List Int)
  | SetError (e : Error)
  | SendResponse (result : Option Int)
  | Flush
  deriving DecidableEq, Repr

/-- `int sum(vector<int>& v)`, the additions in 32-bit `int`. -/
def sum (v : List Int) : Int :=
  v.foldl (fun ret_val num => to_signed 32 (ret_val + num)) 0

/-- `SimpleJsonRPCServer::JsonRPCConnHandler`: the calls made, in order, up to the `return`.
Each iteration of `while(true)` takes the next incoming request; when there is none the peer
has closed and `ParseMethod()` returns `CLIENT_CLOSE`. -/
def JsonRPCConnHandler : List Incoming → List Event
  | [] => [Event.ParseMethod]
  | req :: rest =>
    let error0 := req.parse_method
    let branch : Error × Option Int × List Event :=
      if error0 = Error.NO_ERROR then
        if req.method = bytes "sum" then
          (req.parse_request, some (sum req.args), [Event.ParseRequest, Event.sum req.args])
        else
          (Error.METHOD_NOT_FOUND, none, [Event.SetError Error.METHOD_NOT_FOUND])
      else (error0, none, [])
    let error := branch.1
    let result := branch.2.1
    if error = Error.CLIENT_CLOSE ∨ error = Error._OTHER_NET_ERROR then
      Event.ParseMethod :: branch.2.2
    else
      Event.ParseMethod :: branch.2.2 ++ [Event.SendResponse result, Event.Flush]
        ++ (if error ≠ Error.NO_ERROR then [] else JsonRPCConnHandler rest)

/-- The calls made for a `sum` request that parses without error. -/
def served (r : Incoming) : List Event :=
  [Event.ParseMethod, Event.ParseRequest, Event.sum r.args,
    Event.SendResponse (some (sum r.args)), Event.Flush]

end JsonRPC

/-! ## The codec at the element types of tuples and records -/

/-- The element types used in tuples and records: a signed integer type of `w` bits,
`std::string`, and `std::vector` of an element type. -/
inductive Shape where
  | signed (w : Nat)
  | string
  | vector (elem : Shape)
  deriving DecidableEq, Repr

/-- The values of an element type. -/
@[reducible] def Shape.Val : Shape → Type
  | .signed _ => Int
  | .string => List Byte
  | .vector elem => List elem.Val

open JsonSerializer JsonDeserializer

/-- The overload of `JsonSerializer::Save` selected at an element type. -/
def Save_shape : (s : Shape) → s.Val → StringBuffer → StringBuffer
  | .signed _, t => Save_signed t
  | .string, t => Save_string t
  | .vector elem, t => serialize_like_vector_impl_ (Save_shape elem) t

/-- The overload of `JsonDeserializer::Load` selected at an element type, applied to a fresh
object; `fuel` is the iteration budget given to every sequence loop. -/
def Load_shape : (s : Shape) → Nat → ReadBuffer → Res s.Val
  | .signed w, _ => Load_signed w
  | .string, _ => Load_string
  | .vector elem, fuel => deserialize_like_vector_impl_ (Load_shape elem fuel) fuel []

/-- A `std::tuple` with the element types `ss`. -/
def Tuple : List Shape → Type
  | [] => Unit
  | s :: ss => s.Val × Tuple ss

/-- The elements of a tuple in index order, each with its `Save`. -/
def Tuple.saveables : (ss : List Shape) → Tuple ss → List Saveable
  | [], _ => []
  | s :: ss, t => ⟨s.Val, Save_shape s, t.1⟩ :: Tuple.saveables ss t.2

/-- `void Save(const std::tuple<Args...>& t)` at the element types `ss`. -/
def Save_tuple (ss : List Shape) (t : Tuple ss) (buffer : StringBuffer) : StringBuffer :=
  serialize_tuple_impl_ (Tuple.saveables ss t) buffer

/-- The fold expression of `deserialize_tuple_impl_`: one `make_tuple_internal_` per element,
in index order. -/
def deserialize_tuple_elements : (ss : List Shape) → Nat → ReadBuffer → Res (Tuple ss)
  | [], _, buffer => .ok () buffer
  | s :: ss, fuel, buffer =>
    (make_tuple_internal_ (Load_shape s fuel) buffer).bind fun x b1 =>
    (deserialize_tuple_elements ss fuel b1).bind fun r b2 =>
    .ok (x, r) b2

/-- `deserialize_tuple_impl_` at the element types `ss`. -/
def deserialize_tuple_impl_ (ss : List Shape) (fuel : Nat) (buffer : ReadBuffer) :
    Res (Tuple ss) :=
  buffer.GetCharF.bind fun c b1 =>
  (MYRPC_ASSERT_EXCEPTION (c == 91) b1).bind fun _ b2 =>
  deserialize_tuple_elements ss fuel b2

/-- A user record whose members have the names and types `fs`, in declaration order. -/
def Record : List (List Byte × Shape) → Type
  | [] => Unit
  | f :: fs => f.2.Val × Record fs

/-- The members of a record in declaration order, each with its name and its `Save`. -/
def Record.items : (fs : List (List Byte × Shape)) → Record fs → List (List Byte × Saveable)
  | [], _ => []
  | f :: fs, r => (f.1, ⟨f.2.Val, Save_shape f.2, r.1⟩) :: Record.items fs r.2

/-- The `LOAD_ITEM(x)` lines of a record: one `deserialize_item_impl_` per member, in
declaration order. -/
def Load_items : (fs : List (List Byte × Shape)) → Nat → ReadBuffer → Res (Record fs)
  | [], _, buffer => .ok () buffer
  | f :: fs, fuel, buffer =>
    (deserialize_item_impl_ (Load_shape f.2 fuel) f.1 buffer).bind fun x b1 =>
    (Load_items fs fuel b1).bind fun r b2 =>
    .ok (x, r) b2

/-- The member function `Load` that `LOAD_BEGIN LOAD_ITEM(x1) ... LOAD_ITEM(xk) LOAD_END`
declares. -/
def Load_struct (fs : List (List Byte × Shape)) (fuel : Nat) (buffer : ReadBuffer) :
    Res (Record fs) :=
  (deserialize_struct_begin_impl_ buffer).bind fun _ b1 =>
  (Load_items fs fuel b1).bind fun r b2 =>
  (deserialize_struct_end_impl_ b2).bind fun _ b3 =>
  .ok r b3

/-- The values of an element type that the round trip is stated for: an integer within the
range of its 32- or 64-bit type, a string without a double-quote byte, a sequence of such
values that is shorter than the iteration budget. -/
def Shape.valid (fuel : Nat) : (s : Shape) → s.Val → Prop
  | .signed w, v => (w = 32 ∨ w = 64) ∧ -(2 ^ (w - 1) : Int) ≤ v ∧ v < 2 ^ (w - 1)
  | .string, v => (34 : Byte) ∉ v
  | .vector elem, v => v.length < fuel ∧ ∀ x ∈ v, Shape.valid fuel elem x

/-- Every element of a tuple is a valid value of its type. -/
def Tuple.valid (fuel : Nat) : (ss : List Shape) → Tuple ss → Prop
  | [], _ => True
  | s :: ss, t => Shape.valid fuel s t.1 ∧ Tuple.valid fuel ss t.2

/-- Every member of a record has a name without a double-quote byte and a valid value. -/
def Record.valid (fuel : Nat) : (fs : List (List Byte × Shape)) → Record fs → Prop
  | [], _ => True
  | f :: fs, r => (34 : Byte) ∉ f.1 ∧ Shape.valid fuel f.2 r.1 ∧ Record.valid fuel fs r.2


/-! # Properties -/

/-! ### The read buffer -/

namespace ReadBuffer

theorem Forward_zero (b : ReadBuffer) : b.Forward 0 = b := rfl

theorem Forward_Forward (b : ReadBuffer) (m n : Nat) :
    (b.Forward m).Forward n = b.Forward (m + n) := by
  simp [Forward, Nat.add_assoc]

theorem unread_Forward {b : ReadBuffer} {pre rest : List Byte} (h : b.unread = pre ++ rest) :
    (b.Forward pre.length).unread = rest := by
  unfold unread at h
  simp only [unread, Forward]
  rw [← List.drop_drop, h, List.drop_left]

theorem unread_Forward_one {b : ReadBuffer} {c : Byte} {rest : List Byte}
    (h : b.unread = c :: rest) : (b.Forward 1).unread = rest := by
  have h1 : b.unread = [c] ++ rest := by simpa using h
  simpa using unread_Forward h1

theorem GetChar_of_unread {b : ReadBuffer} {c : Byte} {rest : List Byte}
    (h : b.unread = c :: rest) : b.GetChar = .ok c (b.Forward 1) := by
  have h0 : b.data[b.m_read_idx]? = some c := by
    have := List.getElem?_drop b.data b.m_read_idx 0
    unfold unread at h
    rw [h] at this
    simpa using this.symm
  simp [GetChar, h0, Forward]

theorem GetChar_of_unread_nil {b : ReadBuffer} (h : b.unread = []) :
    b.GetChar = .throw .NetException b := by
  have h0 : b.data[b.m_read_idx]? = none := by
    unfold unread at h
    have := List.drop_eq_nil_iff.mp h
    simp [this]
  simp [GetChar, h0]

theorem unread_length (b : ReadBuffer) : b.unread.length = b.data.length - b.m_read_idx := by
  simp [unread]

theorem skipBlank_of_not_blank {t : Byte} (ht : isBlank t = false) (fuel : Nat) (b : ReadBuffer) :
    skipBlank (fuel + 1) t b = .ok t b := by
  simp [skipBlank, ht]

theorem GetCharF_of_unread {b : ReadBuffer} {c : Byte} {rest : List Byte}
    (h : b.unread = c :: rest) (hc : isBlank c = false) : b.GetCharF = .ok c (b.Forward 1) := by
  simp [GetCharF, GetChar_of_unread h, Res.bind, skipBlank_of_not_blank hc]

theorem PeekCharF_of_unread {b : ReadBuffer} {c : Byte} {rest : List Byte}
    (h : b.unread = c :: rest) (hc : isBlank c = false) : b.PeekCharF = .ok c b := by
  simp [PeekCharF, GetChar_of_unread h, Res.bind, skipBlank_of_not_blank hc, Forward]

theorem ReadUntil_loop_of_unread (c : List Byte) (prev : Nat) :
    ∀ (tok : List Byte) (b : ReadBuffer) (fuel : Nat) (t : Byte) (rest : List Byte),
      b.unread = tok ++ t :: rest → (∀ x ∈ tok, x ∉ c) → t ∈ c → tok.length < fuel →
      ReadUntil_loop c prev fuel b = .ok () (b.Forward tok.length) := by
  intro tok
  induction tok with
  | nil =>
    intro b fuel t rest h _ ht hf
    obtain ⟨f, rfl⟩ : ∃ f, fuel = f + 1 := ⟨fuel - 1, by simp at hf; omega⟩
    simp only [List.nil_append] at h
    simp [ReadUntil_loop, GetChar_of_unread h, ht, Forward]
  | cons x tok ih =>
    intro b fuel t rest h hx ht hf
    obtain ⟨f, rfl⟩ : ∃ f, fuel = f + 1 := ⟨fuel - 1, by simp at hf; omega⟩
    have hx0 : x ∉ c := hx x (by simp)
    have h1 : (b.Forward 1).unread = tok ++ t :: rest :=
      unread_Forward_one (by simpa using h)
    have := ih (b.Forward 1) f t rest h1 (fun y hy => hx y (by simp [hy])) ht
      (by simp at hf; omega)
    simp only [List.cons_append] at h
    simp [ReadUntil_loop, GetChar_of_unread h, hx0, this, Forward_Forward, Nat.add_comm]

theorem ReadUntil_of_unread {c : List Byte} {tok : List Byte} {b : ReadBuffer} {t : Byte}
    {rest : List Byte} (h : b.unread = tok ++ t :: rest) (htok : ∀ x ∈ tok, x ∉ c)
    (ht : t ∈ c) : b.ReadUntil c = .ok tok (b.Forward tok.length) := by
  have hlen : tok.length < b.data.length - b.m_read_idx + 1 := by
    have := congrArg List.length h
    rw [unread_length] at this
    simp at this
    omega
  have hloop := ReadUntil_loop_of_unread c b.m_read_idx tok b _ t rest h htok ht hlen
  have hstr : (b.Forward tok.length)._read_to_str b.m_read_idx (b.Forward tok.length).m_read_idx
      = tok := by
    unfold unread at h
    simp [_read_to_str, Forward, h]
  simp [ReadUntil, hloop, Res.bind, hstr]

end ReadBuffer

namespace ReadBuffer

/-! ### The budgets of `GetCharF`, `PeekCharF` and `ReadUntil` are never used up -/

theorem GetChar_cases (b : ReadBuffer) :
    (b.m_read_idx < b.data.length ∧ ∃ c, b.GetChar = .ok c (b.Forward 1))
    ∨ (b.data.length ≤ b.m_read_idx ∧ b.GetChar = .throw .NetException b) := by
  by_cases h : b.m_read_idx < b.data.length
  · left
    refine ⟨h, b.data[b.m_read_idx], ?_⟩
    simp [GetChar, Forward, List.getElem?_eq_getElem h]
  · right
    have h1 : b.data.length ≤ b.m_read_idx := Nat.le_of_not_lt h
    exact ⟨h1, by simp [GetChar, List.getElem?_eq_none h1]⟩

theorem skipBlank_ne_diverge :
    ∀ (fuel : Nat) (t : Byte) (b : ReadBuffer), b.data.length - b.m_read_idx < fuel →
      skipBlank fuel t b ≠ .diverge := by
  intro fuel
  induction fuel with
  | zero => intro t b h; omega
  | succ f ih =>
    intro t b h
    unfold skipBlank
    split
    · rcases GetChar_cases b with ⟨hlt, c, hc⟩ | ⟨_, hc⟩
      · rw [hc]
        exact ih c (b.Forward 1) (by simp only [Forward]; omega)
      · rw [hc]
        exact fun h0 => Res.noConfusion h0
    · exact fun h0 => Res.noConfusion h0

theorem GetCharF_ne_diverge (b : ReadBuffer) : b.GetCharF ≠ .diverge := by
  unfold GetCharF
  rcases GetChar_cases b with ⟨_, c, hc⟩ | ⟨_, hc⟩
  · rw [hc]
    exact skipBlank_ne_diverge _ c _ (Nat.lt_succ_self _)
  · rw [hc]
    exact fun h0 => Res.noConfusion h0

theorem PeekCharF_ne_diverge (b : ReadBuffer) : b.PeekCharF ≠ .diverge := by
  unfold PeekCharF
  rcases GetChar_cases b with ⟨_, c, hc⟩ | ⟨_, hc⟩
  · rw [hc]
    have := skipBlank_ne_diverge _ c (b.Forward 1) (Nat.lt_succ_self _)
    simp only [Res.bind]
    split
    · exact fun h0 => Res.noConfusion h0
    · exact fun h0 => Res.noConfusion h0
    · rename_i h1
      exact absurd h1 this
  · rw [hc]
    exact fun h0 => Res.noConfusion h0

theorem ReadUntil_loop_ne_diverge (c : List Byte) (prev : Nat) :
    ∀ (fuel : Nat) (b : ReadBuffer), b.data.length - b.m_read_idx < fuel →
      ReadUntil_loop c prev fuel b ≠ .diverge := by
  intro fuel
  induction fuel with
  | zero => intro b h; omega
  | succ f ih =>
    intro b h
    unfold ReadUntil_loop
    rcases GetChar_cases b with ⟨hlt, t, hc⟩ | ⟨_, hc⟩
    · rw [hc]
      simp only
      split
      · exact fun h0 => Res.noConfusion h0
      · exact ih (b.Forward 1) (by simp only [Forward]; omega)
    · rw [hc]
      exact fun h0 => Res.noConfusion h0

theorem ReadUntil_ne_diverge (c : List Byte) (b : ReadBuffer) : b.ReadUntil c ≠ .diverge := by
  unfold ReadUntil
  have := ReadUntil_loop_ne_diverge c b.m_read_idx _ b (Nat.lt_succ_self _)
  simp only [Res.bind]
  split
  · exact fun h0 => Res.noConfusion h0
  · exact fun h0 => Res.noConfusion h0
  · rename_i h1
    exact absurd h1 this

end ReadBuffer

open ReadBuffer JsonSerializer JsonDeserializer

/-! ### Decimal text of integers -/

theorem digit_byte_isdigit (k : Nat) (hk : k < 10) : isdigit (UInt8.ofNat (48 + k)) = true := by
  interval_cases k <;> rfl

theorem digit_byte_toNat (k : Nat) (hk : k < 10) : (UInt8.ofNat (48 + k)).toNat - 48 = k := by
  interval_cases k <;> rfl

theorem to_string_digits_isdigit :
    ∀ (fuel n : Nat), ∀ c ∈ to_string_digits fuel n, isdigit c = true := by
  intro fuel
  induction fuel with
  | zero => intro n c hc; simp [to_string_digits] at hc
  | succ f ih =>
    intro n c hc
    unfold to_string_digits at hc
    split at hc
    · simp at hc
      subst hc
      exact digit_byte_isdigit n (by assumption)
    · simp at hc
      rcases hc with hc | hc
      · exact ih _ c hc
      · subst hc
        exact digit_byte_isdigit _ (Nat.mod_lt _ (by decide))

theorem to_string_digits_ne_nil (fuel n : Nat) : to_string_digits (fuel + 1) n ≠ [] := by
  unfold to_string_digits
  split <;> simp

theorem digits_value_append (ds : List Byte) (d : Byte) :
    digits_value (ds ++ [d]) = digits_value ds * 10 + (d.toNat - 48) := by
  simp [digits_value]

theorem digits_value_to_string_digits :
    ∀ (fuel n : Nat), n < fuel → digits_value (to_string_digits fuel n) = n := by
  intro fuel
  induction fuel with
  | zero => intro n h; omega
  | succ f ih =>
    intro n h
    unfold to_string_digits
    split
    · simp [digits_value, digit_byte_toNat n (by assumption)]
    · rw [digits_value_append, ih (n / 10) (by omega),
        digit_byte_toNat _ (Nat.mod_lt _ (by decide))]
      omega

theorem to_string_unsigned_isdigit (n : Nat) : ∀ c ∈ to_string_unsigned n, isdigit c = true :=
  to_string_digits_isdigit _ _

theorem to_string_unsigned_ne_nil (n : Nat) : to_string_unsigned n ≠ [] :=
  to_string_digits_ne_nil _ _

theorem digits_value_to_string_unsigned (n : Nat) : digits_value (to_string_unsigned n) = n :=
  digits_value_to_string_digits _ _ (Nat.lt_succ_self n)

theorem isdigit_not_isspace {c : Byte} (h : isdigit c = true) : isspace c = false := by
  simp only [isdigit, isspace, Bool.and_eq_true, decide_eq_true_eq, Bool.or_eq_false_iff,
    beq_eq_false_iff_ne, Bool.and_eq_false_iff, decide_eq_false_iff_not] at *
  obtain ⟨h1, h2⟩ := h
  have h1 : (48 : Nat) ≤ c.toNat := h1
  constructor
  · rintro rfl
    exact absurd h1 (by decide)
  · right
    intro h3
    have h3 : c.toNat ≤ 13 := h3
    omega

theorem isdigit_cases {c : Byte} (h : isdigit c = true) : 48 ≤ c.toNat ∧ c.toNat ≤ 57 := by
  simp only [isdigit, Bool.and_eq_true, decide_eq_true_eq] at h
  exact ⟨h.1, h.2⟩


theorem isdigit_ne {c d : Byte} (h : isdigit c = true) (hd : isdigit d = false) : c ≠ d := by
  rintro rfl
  rw [h] at hd
  exact Bool.noConfusion hd

theorem strto_subject_digits {ds : List Byte} (hds : ∀ c ∈ ds, isdigit c = true)
    (hne : ds ≠ []) : strto_subject ds = some (false, digits_value ds) := by
  obtain ⟨c, tl, rfl⟩ := List.exists_cons_of_ne_nil hne
  have hc : isdigit c = true := hds c (by simp)
  have hsp : isspace c = false := isdigit_not_isspace hc
  have h45 : c ≠ 45 := isdigit_ne hc (by decide)
  have h43 : c ≠ 43 := isdigit_ne hc (by decide)
  have htw : List.takeWhile isdigit (c :: tl) = c :: tl :=
    List.takeWhile_eq_self_iff.mpr hds
  simp [strto_subject, hsp, h45, h43, htw]

theorem strto_subject_minus_digits {ds : List Byte} (hds : ∀ c ∈ ds, isdigit c = true)
    (hne : ds ≠ []) : strto_subject (45 :: ds) = some (true, digits_value ds) := by
  have hsp : isspace 45 = false := by decide
  have htw : List.takeWhile isdigit ds = ds := List.takeWhile_eq_self_iff.mpr hds
  simp [strto_subject, hsp, htw, hne]

theorem stoull_to_string_signed (v : Int) (hlo : -(2 ^ 64 : Int) < v) (hhi : v < 2 ^ 64) :
    stoull (to_string_signed v) = .ok (v % 2 ^ 64).toNat := by
  unfold to_string_signed
  split
  · rename_i hneg
    rw [stoull, strto_subject_minus_digits (to_string_unsigned_isdigit _)
      (to_string_unsigned_ne_nil _), digits_value_to_string_unsigned]
    have h1 : ¬ (v.natAbs > ULLONG_MAX) := by
      unfold ULLONG_MAX
      omega
    simp only [h1, if_false, if_true]
    congr 1
    omega
  · rename_i hpos
    rw [stoull, strto_subject_digits (to_string_unsigned_isdigit _)
      (to_string_unsigned_ne_nil _), digits_value_to_string_unsigned]
    have h1 : ¬ (v.toNat > ULLONG_MAX) := by
      unfold ULLONG_MAX
      omega
    simp only [h1, if_false, Bool.false_eq_true]
    congr 1
    omega

theorem to_signed_of_stoull (w : Nat) (hw : w = 32 ∨ w = 64) (v : Int)
    (hlo : -(2 ^ (w - 1) : Int) ≤ v) (hhi : v < 2 ^ (w - 1)) :
    to_signed w ((v % 2 ^ 64).toNat : Int) = v := by
  rcases hw with rfl | rfl
  · norm_num at hlo hhi
    simp only [to_signed]
    norm_num
    omega
  · norm_num at hlo hhi
    simp only [to_signed]
    norm_num
    omega

/-! ### Emit-then-trim -/

theorem intercalate_cons_cons {α : Type} (sep x y : List α) (r : List (List α)) :
    List.intercalate sep (x :: y :: r) = x ++ sep ++ List.intercalate sep (y :: r) := by
  simp [List.intercalate]

theorem intercalate_singleton {α : Type} (sep x : List α) :
    List.intercalate sep [x] = x := by
  simp [List.intercalate]

theorem flatten_map_append_sep {α : Type*} (item : α → List Byte) (sep : List Byte) :
    ∀ xs : List α, xs ≠ [] →
      (xs.map (fun e => item e ++ sep)).flatten = List.intercalate sep (xs.map item) ++ sep := by
  intro xs
  induction xs with
  | nil => intro h; exact absurd rfl h
  | cons x xs ih =>
    intro _
    cases xs with
    | nil => simp [intercalate_singleton]
    | cons y r =>
      have := ih (by simp)
      simp only [List.map_cons, List.flatten_cons] at this ⊢
      rw [this, intercalate_cons_cons]
      simp

theorem foldl_emit {α : Type} (step : StringBuffer → α → StringBuffer)
    (item : α → List Byte) (sep : List Byte)
    (hstep : ∀ buf e, step buf e = buf ++ (item e ++ sep)) :
    ∀ (xs : List α) (buf : StringBuffer),
      xs.foldl step buf = buf ++ (xs.map (fun e => item e ++ sep)).flatten := by
  intro xs
  induction xs with
  | nil => intro buf; simp
  | cons x xs ih =>
    intro buf
    simp only [List.foldl_cons, ih, hstep, List.map_cons, List.flatten_cons, List.append_assoc]

theorem Backward_append_singleton (buf : StringBuffer) (c : Byte) :
    StringBuffer.Backward (buf ++ [c]) 1 = buf := by
  simp [StringBuffer.Backward]

theorem emit_then_trim {α : Type} (step : StringBuffer → α → StringBuffer)
    (item : α → List Byte) (hstep : ∀ buf e, step buf e = buf ++ (item e ++ [44]))
    (xs : List α) (buf : StringBuffer) :
    (if !xs.isEmpty then StringBuffer.Backward (xs.foldl step buf) 1 else xs.foldl step buf)
      = buf ++ List.intercalate [44] (xs.map item) := by
  cases xs with
  | nil => simp [List.intercalate]
  | cons x r =>
    rw [foldl_emit step item [44] hstep, flatten_map_append_sep item [44] _ (by simp)]
    simp only [List.isEmpty_cons, Bool.not_false, if_true]
    rw [← List.append_assoc, Backward_append_singleton]

theorem serialize_like_vector_impl__eq {α : Type} (Save : α → StringBuffer → StringBuffer)
    (enc : α → List Byte) (hSave : ∀ e buf, Save e buf = buf ++ enc e)
    (xs : List α) (buf : StringBuffer) :
    serialize_like_vector_impl_ Save xs buf
      = buf ++ 91 :: (List.intercalate [44] (xs.map enc) ++ [93]) := by
  unfold serialize_like_vector_impl_
  simp only
  rw [emit_then_trim _ enc (fun b e => by rw [hSave, List.append_assoc]) xs]
  simp

/-! ### Round trip of a sequence -/

theorem isBlank_44 : isBlank 44 = false := by decide
theorem isBlank_93 : isBlank 93 = false := by decide
theorem isBlank_91 : isBlank 91 = false := by decide

theorem deserialize_like_vector_loop_of_unread {α : Type} (Load : ReadBuffer → Res α)
    (enc : α → List Byte) :
    ∀ (xs : List α),
      (∀ x ∈ xs, ∀ (b : ReadBuffer) (t : Byte) (rest : List Byte),
        b.unread = enc x ++ t :: rest → (t = 44 ∨ t = 93) →
        Load b = .ok x (b.Forward (enc x).length)) →
      (∀ x ∈ xs, ∃ c tl, enc x = c :: tl ∧ isBlank c = false ∧ c ≠ 93) →
      ∀ (fuel : Nat) (t : List α) (b : ReadBuffer) (rest : List Byte),
        xs.length < fuel →
        b.unread = List.intercalate [44] (xs.map enc) ++ 93 :: rest →
        deserialize_like_vector_loop Load fuel t b
          = .ok (t ++ xs) (b.Forward (List.intercalate [44] (xs.map enc)).length) := by
  intro xs
  induction xs with
  | nil =>
    intro _ _ fuel t b rest hf h
    obtain ⟨f, rfl⟩ : ∃ f, fuel = f + 1 := ⟨fuel - 1, by simp at hf; omega⟩
    simp only [List.map_nil, List.intercalate, List.intersperse_nil, List.flatten_nil,
      List.nil_append] at h
    simp [deserialize_like_vector_loop, PeekCharF_of_unread h isBlank_93, Res.bind,
      List.intercalate, Forward_zero]
  | cons x xs ih =>
    intro hLoad hhead fuel t b rest hf h
    obtain ⟨f, rfl⟩ : ∃ f, fuel = f + 1 := ⟨fuel - 1, by simp at hf; omega⟩
    obtain ⟨c, tl, hc, hcb, hc93⟩ := hhead x (by simp)
    have ih1 := ih (fun y hy => hLoad y (by simp [hy])) (fun y hy => hhead y (by simp [hy]))
    cases xs with
    | nil =>
      simp only [List.map_cons, List.map_nil, intercalate_singleton] at h ⊢
      have hb : b.unread = c :: (tl ++ 93 :: rest) := by rw [h, hc]; simp
      have hpeek : b.PeekCharF = .ok c b := PeekCharF_of_unread hb hcb
      have hl := hLoad x (by simp) b 93 rest h (Or.inr rfl)
      have hu : (b.Forward (enc x).length).unread = 93 :: rest := unread_Forward h
      have hpeek2 := PeekCharF_of_unread hu isBlank_93
      have hrec := ih1 f (t ++ [x]) (b.Forward (enc x).length) rest (by simp at hf ⊢; omega)
        (by simpa [List.intercalate] using hu)
      simp [deserialize_like_vector_loop, hpeek, Res.bind, hc93, hl, hpeek2, hrec,
        List.intercalate, Forward_zero]
    | cons y r =>
      simp only [List.map_cons, intercalate_cons_cons, List.append_assoc,
        List.singleton_append] at h ⊢
      have hb : b.unread
          = c :: (tl ++ 44 :: (List.intercalate [44] (enc y :: r.map enc) ++ 93 :: rest)) := by
        rw [h, hc]; simp
      have hpeek : b.PeekCharF = .ok c b := PeekCharF_of_unread hb hcb
      have hl := hLoad x (by simp) b 44 _ h (Or.inl rfl)
      have hu : (b.Forward (enc x).length).unread
          = 44 :: (List.intercalate [44] (enc y :: r.map enc) ++ 93 :: rest) :=
        unread_Forward h
      have hpeek2 := PeekCharF_of_unread hu isBlank_44
      have hget := GetChar_of_unread hu
      have hu2 : ((b.Forward (enc x).length).Forward 1).unread
          = List.intercalate [44] (enc y :: r.map enc) ++ 93 :: rest :=
        unread_Forward_one hu
      have hrec := ih1 f (t ++ [x]) ((b.Forward (enc x).length).Forward 1) rest
        (by simp at hf ⊢; omega) (by simpa using hu2)
      simp only [List.map_cons] at hrec
      simp only [deserialize_like_vector_loop, hpeek, Res.bind, hl, hpeek2, hget, hrec,
        bne_iff_ne, ne_eq, hc93, not_false_eq_true, if_true, beq_self_eq_true]
      simp [Forward]
      omega

theorem deserialize_like_vector_impl__of_unread {α : Type} (Load : ReadBuffer → Res α)
    (enc : α → List Byte) (xs : List α)
    (hLoad : ∀ x ∈ xs, ∀ (b : ReadBuffer) (t : Byte) (rest : List Byte),
      b.unread = enc x ++ t :: rest → (t = 44 ∨ t = 93) →
      Load b = .ok x (b.Forward (enc x).length))
    (hhead : ∀ x ∈ xs, ∃ c tl, enc x = c :: tl ∧ isBlank c = false ∧ c ≠ 93)
    (fuel : Nat) (hf : xs.length < fuel) (t : List α) (b : ReadBuffer) (rest : List Byte)
    (h : b.unread = 91 :: (List.intercalate [44] (xs.map enc) ++ [93]) ++ rest) :
    deserialize_like_vector_impl_ Load fuel t b
      = .ok (t ++ xs)
          (b.Forward (91 :: (List.intercalate [44] (xs.map enc) ++ [93])).length) := by
  have h0 : b.unread = 91 :: (List.intercalate [44] (xs.map enc) ++ 93 :: rest) := by
    simpa using h
  have hget := GetCharF_of_unread h0 isBlank_91
  have hu1 : (b.Forward 1).unread = List.intercalate [44] (xs.map enc) ++ 93 :: rest :=
    unread_Forward_one h0
  have hloop := deserialize_like_vector_loop_of_unread Load enc xs hLoad hhead fuel t
    (b.Forward 1) rest hf hu1
  have hu2 : ((b.Forward 1).Forward (List.intercalate [44] (xs.map enc)).length).unread
      = 93 :: rest := unread_Forward hu1
  have hget2 := GetCharF_of_unread hu2 isBlank_93
  simp only [deserialize_like_vector_impl_, hget, Res.bind, MYRPC_ASSERT_EXCEPTION, hloop, hget2,
    beq_self_eq_true, if_true]
  simp [Forward]
  omega

/-! ### Round trip of signed integers -/

theorem to_string_signed_mem (v : Int) :
    ∀ c ∈ to_string_signed v, c = 45 ∨ isdigit c = true := by
  intro c hc
  unfold to_string_signed at hc
  split at hc
  · rcases List.mem_cons.mp hc with h | h
    · exact Or.inl h
    · exact Or.inr (to_string_unsigned_isdigit _ c h)
  · exact Or.inr (to_string_unsigned_isdigit _ c hc)

theorem to_string_signed_ne_nil (v : Int) : to_string_signed v ≠ [] := by
  unfold to_string_signed
  split
  · simp
  · exact to_string_unsigned_ne_nil _

theorem sign_or_digit_not_terminator {c : Byte} (h : c = 45 ∨ isdigit c = true) :
    c ∉ arithmetic_terminators := by
  intro hmem
  simp only [arithmetic_terminators, List.mem_cons, List.mem_singleton, List.not_mem_nil,
    or_false] at hmem
  rcases h with rfl | h
  · revert hmem; decide
  · rcases hmem with rfl | rfl | rfl <;> revert h <;> decide

theorem sign_or_digit_not_blank {c : Byte} (h : c = 45 ∨ isdigit c = true) :
    isBlank c = false ∧ c ≠ 93 := by
  rcases h with rfl | h
  · decide
  · have := isdigit_cases h
    constructor
    · simp only [isBlank, Bool.or_eq_false_iff, beq_eq_false_iff_ne]
      refine ⟨⟨⟨?_, ?_⟩, ?_⟩, ?_⟩ <;> (rintro rfl; revert h; decide)
    · rintro rfl; revert h; decide

theorem Load_signed_of_unread (w : Nat) (hw : w = 32 ∨ w = 64) (v : Int)
    (hlo : -(2 ^ (w - 1) : Int) ≤ v) (hhi : v < 2 ^ (w - 1))
    (b : ReadBuffer) (t : Byte) (rest : List Byte)
    (h : b.unread = to_string_signed v ++ t :: rest) (ht : t ∈ arithmetic_terminators) :
    Load_signed w b = .ok v (b.Forward (to_string_signed v).length) := by
  have hread := ReadUntil_of_unread h
    (fun x hx => sign_or_digit_not_terminator (to_string_signed_mem v x hx)) ht
  have hrange : -(2 ^ 64 : Int) < v ∧ v < 2 ^ 64 := by
    rcases hw with rfl | rfl <;> norm_num at hlo hhi ⊢ <;> omega
  simp only [Load_signed, hread, Res.bind, stoull_to_string_signed v hrange.1 hrange.2,
    to_signed_of_stoull w hw v hlo hhi]

theorem signed_vector_text (xs : List Int) (buf : StringBuffer) :
    serialize_like_vector_impl_ Save_signed xs buf
      = buf ++ 91 :: (List.intercalate [44] (xs.map to_string_signed) ++ [93]) :=
  serialize_like_vector_impl__eq Save_signed to_string_signed (fun _ _ => rfl) xs buf

/-- C1: a list of signed `w`-bit integers (`w` = 32 or 64, the minimum value included) saved by
`JsonSerializer::Save` and loaded into an empty sequence by `JsonDeserializer::Load` comes
back unchanged, with the whole text consumed, whenever the loop is given more iterations than
the list has elements; the signed branch of `Load` parses with `stoull` and narrows modulo
`2^w`. -/
theorem C1_signed_vector_roundtrip (w : Nat) (hw : w = 32 ∨ w = 64) (xs : List Int)
    (hxs : ∀ x ∈ xs, -(2 ^ (w - 1) : Int) ≤ x ∧ x < 2 ^ (w - 1))
    (fuel : Nat) (hfuel : xs.length < fuel) :
    deserialize_like_vector_impl_ (Load_signed w) fuel []
        ⟨serialize_like_vector_impl_ Save_signed xs [], 0⟩
      = .ok xs ⟨serialize_like_vector_impl_ Save_signed xs [],
          (serialize_like_vector_impl_ Save_signed xs []).length⟩ := by
  have htext := signed_vector_text xs []
  simp only [List.nil_append] at htext
  have hu : (ReadBuffer.mk (serialize_like_vector_impl_ Save_signed xs []) 0).unread
      = 91 :: (List.intercalate [44] (xs.map to_string_signed) ++ [93]) ++ [] := by
    simp [unread, htext]
  have := deserialize_like_vector_impl__of_unread (Load_signed w) to_string_signed xs
    (fun x hx b t rest h ht =>
      Load_signed_of_unread w hw x (hxs x hx).1 (hxs x hx).2 b t rest h
        (by rcases ht with rfl | rfl <;> decide))
    (fun x _ => by
      obtain ⟨c, tl, hc⟩ := List.exists_cons_of_ne_nil (to_string_signed_ne_nil x)
      have := sign_or_digit_not_blank (to_string_signed_mem x c (by simp [hc]))
      exact ⟨c, tl, hc, this.1, this.2⟩)
    fuel hfuel [] _ [] hu
  rw [this, ← htext]
  simp [Forward]

/-- Witness of C1 at a list of 32-bit integers that holds the minimum value. -/
theorem C1_signed_vector_roundtrip_witness :
    deserialize_like_vector_impl_ (Load_signed 32) 7 []
        ⟨serialize_like_vector_impl_ Save_signed [32, 901, 12, 29, -323, -2147483648] [], 0⟩
      = .ok [32, 901, 12, 29, -323, -2147483648]
          ⟨serialize_like_vector_impl_ Save_signed [32, 901, 12, 29, -323, -2147483648] [],
            (serialize_like_vector_impl_ Save_signed
              [32, 901, 12, 29, -323, -2147483648] []).length⟩ :=
  C1_signed_vector_roundtrip 32 (Or.inl rfl) [32, 901, 12, 29, -323, -2147483648]
    (by decide) 7 (by decide)

/-! ### Round trip of a string -/

theorem isBlank_34 : isBlank 34 = false := by decide

theorem Load_string_of_unread (s : List Byte) (hs : (34 : Byte) ∉ s) (b : ReadBuffer)
    (rest : List Byte) (h : b.unread = 34 :: (s ++ 34 :: rest)) :
    Load_string b = .ok s (b.Forward (s.length + 2)) := by
  have hget := GetCharF_of_unread h isBlank_34
  have hu1 : (b.Forward 1).unread = s ++ 34 :: rest := unread_Forward_one h
  have hread : (b.Forward 1).ReadUntil [34] = .ok s ((b.Forward 1).Forward s.length) :=
    ReadUntil_of_unread hu1
      (fun x hx => by
        simp only [List.mem_singleton]
        rintro rfl
        exact hs hx)
      (by simp)
  have hu2 : ((b.Forward 1).Forward s.length).unread = 34 :: rest := unread_Forward hu1
  have hget2 := GetChar_of_unread hu2
  simp only [Load_string, hget, Res.bind, MYRPC_ASSERT_EXCEPTION, hread, hget2,
    beq_self_eq_true, if_true]
  simp [Forward]
  omega

/-- C2 (as stated, for every byte string): the string `a"b` is saved as `"a"b"`, and `Load`
stops at the first double quote after the opening one: it yields `a` and leaves the read
position at 3, not the string itself at position 5. -/
theorem C2_string_with_quote_counterexample :
    Load_string ⟨Save_string [97, 34, 98] [], 0⟩ = .ok [97] ⟨Save_string [97, 34, 98] [], 3⟩
    ∧ Load_string ⟨Save_string [97, 34, 98] [], 0⟩
        ≠ .ok [97, 34, 98] ⟨Save_string [97, 34, 98] [], 5⟩ := by
  decide

/-- C2 (amended): for every byte string `s` that holds no double-quote byte, `Load` applied to
the text written by `Save(s)` yields exactly `s` and leaves the read position just after the
closing double quote, which is the end of the text. -/
theorem C2_string_roundtrip (s : List Byte) (hs : (34 : Byte) ∉ s) :
    Load_string ⟨Save_string s [], 0⟩ = .ok s ⟨Save_string s [], s.length + 2⟩
    ∧ (Save_string s []).length = s.length + 2 := by
  have hu : (ReadBuffer.mk (Save_string s []) 0).unread = 34 :: (s ++ 34 :: []) := by
    simp [unread, Save_string]
  have := Load_string_of_unread s hs _ [] hu
  constructor
  · rw [this]; simp [Forward]
  · simp [Save_string]

/-- Witness of C2 (amended) at a string that holds a comma, a blank and a bracket. -/
theorem C2_string_roundtrip_witness :
    Load_string ⟨Save_string (bytes "a, b]") [], 0⟩
        = .ok (bytes "a, b]") ⟨Save_string (bytes "a, b]") [], (bytes "a, b]").length + 2⟩
    ∧ (Save_string (bytes "a, b]") []).length = (bytes "a, b]").length + 2 :=
  C2_string_roundtrip (bytes "a, b]") (by decide)

/-! ### Unsigned integers, booleans and owning pointers -/

/-- C3: the list holding the single unsigned 64-bit value 2^64-1 is saved as
`[18446744073709551615]`; loading it into a sequence of unsigned 64-bit integers parses the
token with `stoll`, which throws `out_of_range`, whatever the iteration budget. -/
theorem C3_unsigned_max_load_throws (fuel : Nat) :
    serialize_like_vector_impl_ Save_unsigned [18446744073709551615] []
        = bytes "[18446744073709551615]"
    ∧ deserialize_like_vector_impl_ (Load_unsigned 64) (fuel + 1) []
        ⟨serialize_like_vector_impl_ Save_unsigned [18446744073709551615] [], 0⟩
      = .throw .out_of_range ⟨bytes "[18446744073709551615]", 21⟩ := by
  constructor
  · decide
  · rfl

/-- C4: the list holding the single boolean `true` is saved as `[1]`, and loading that text
into an empty sequence of booleans yields the list holding `false`. -/
theorem C4_bool_true_loads_false (fuel : Nat) :
    serialize_like_vector_impl_ Save_bool [true] [] = bytes "[1]"
    ∧ deserialize_like_vector_impl_ Load_bool (fuel + 2) []
        ⟨serialize_like_vector_impl_ Save_bool [true] [], 0⟩
      = .ok [false] ⟨bytes "[1]", 3⟩ := by
  constructor
  · decide
  · rfl

/-- C5: an empty `shared_ptr` / `unique_ptr` is saved as `null`, and loading `null` yields a
pointer that holds the value made by `make_shared` / `make_unique`, not an empty pointer;
`Load` of `std::optional` yields the empty optional on the same text. -/
theorem C5_null_pointer_loads_default {α : Type} (Save : α → StringBuffer → StringBuffer)
    (Load : α → ReadBuffer → Res α) (dflt : α) :
    Save_shared_ptr Save none [] = bytes "null"
    ∧ Save_unique_ptr Save none [] = bytes "null"
    ∧ Load_shared_ptr dflt Load ⟨Save_shared_ptr Save none [], 0⟩
        = .ok (some dflt) ⟨bytes "null", 4⟩
    ∧ Load_unique_ptr dflt Load ⟨Save_unique_ptr Save none [], 0⟩
        = .ok (some dflt) ⟨bytes "null", 4⟩
    ∧ Load_optional (Load dflt) ⟨Save_optional Save none [], 0⟩
        = .ok none ⟨bytes "null", 4⟩ := by
  refine ⟨rfl, rfl, rfl, rfl, rfl⟩

/-! ### The text of containers -/

theorem count_intercalate_comma :
    ∀ l : List (List Byte), l ≠ [] → (∀ t ∈ l, (44 : Byte) ∉ t) →
      (List.intercalate [44] l).count 44 = l.length - 1 := by
  intro l
  induction l with
  | nil => intro h; exact absurd rfl h
  | cons x l ih =>
    intro _ hl
    have hx : x.count 44 = 0 := List.count_eq_zero.mpr (hl x (by simp))
    cases l with
    | nil => simp [intercalate_singleton, hx]
    | cons y r =>
      have := ih (by simp) (fun t ht => hl t (by simp [ht]))
      rw [intercalate_cons_cons]
      simp only [List.count_append, hx, this]
      simp
      omega

theorem getLast?_intercalate :
    ∀ l : List (List Byte), l ≠ [] → (∀ t ∈ l, t ≠ []) →
      ∃ t ∈ l, ∃ d ∈ t, (List.intercalate [44] l).getLast? = some d := by
  intro l
  induction l with
  | nil => intro h; exact absurd rfl h
  | cons x l ih =>
    intro _ hl
    cases l with
    | nil =>
      have hx : x ≠ [] := hl x (by simp)
      exact ⟨x, by simp, x.getLast hx, List.getLast_mem hx, by
        rw [intercalate_singleton, List.getLast?_eq_getLast x hx]⟩
    | cons y r =>
      obtain ⟨t, ht, d, hd, hlast⟩ := ih (by simp) (fun t ht => hl t (by simp [ht]))
      refine ⟨t, List.mem_cons_of_mem x ht, d, hd, ?_⟩
      rw [intercalate_cons_cons, List.getLast?_append, hlast]
      rfl

theorem to_string_signed_no_comma (v : Int) : (44 : Byte) ∉ to_string_signed v := by
  intro h
  rcases to_string_signed_mem v 44 h with h1 | h1 <;> revert h1 <;> decide

theorem to_string_unsigned_no_comma (n : Nat) : (44 : Byte) ∉ to_string_unsigned n := by
  intro h
  have h1 := to_string_unsigned_isdigit n 44 h
  revert h1
  decide

theorem vector_text_commas {α : Type} (Save : α → StringBuffer → StringBuffer)
    (enc : α → List Byte) (hSave : ∀ e buf, Save e buf = buf ++ enc e)
    (hcomma : ∀ e, (44 : Byte) ∉ enc e) (hnil : ∀ e, enc e ≠ [])
    (ys : List α) (hys : ys ≠ []) :
    (serialize_like_vector_impl_ Save ys []).count 44 = ys.length - 1
    ∧ ∀ pre, serialize_like_vector_impl_ Save ys [] ≠ pre ++ [44, 93] := by
  rw [serialize_like_vector_impl__eq Save enc hSave ys []]
  have hne : ys.map enc ≠ [] := by simpa using hys
  constructor
  · have hc := count_intercalate_comma (ys.map enc) hne
      (fun t ht => by
        obtain ⟨v, _, rfl⟩ := List.mem_map.mp ht
        exact hcomma v)
    have h91 : (91 : Byte) ≠ 44 := by decide
    have h93 : (93 : Byte) ≠ 44 := by decide
    simp [List.count_cons, hc, h91, h93]
  · intro pre hpre
    obtain ⟨t, ht, d, hd, hlast⟩ := getLast?_intercalate (ys.map enc) hne
      (fun t ht => by
        obtain ⟨v, _, rfl⟩ := List.mem_map.mp ht
        exact hnil v)
    obtain ⟨v, _, rfl⟩ := List.mem_map.mp ht
    have h1 : (91 :: List.intercalate [44] (ys.map enc)) ++ [93]
        = (pre ++ [44]) ++ [93] := by simpa using hpre
    have h2 := List.append_inj_left' h1 rfl
    have h3 : ([91] ++ List.intercalate [44] (ys.map enc)).getLast? = some 44 := by
      rw [List.singleton_append, h2]; simp
    rw [List.getLast?_append, hlast] at h3
    have h4 : d = 44 := by simpa using h3
    rw [h4] at hd
    exact hcomma v hd

/-- C6: for a sequence `xs` whose element `Save` appends the element's text `enc e`,
`Save(xs)` appends `[`, the texts of the elements in iteration order joined by single `,`, and
`]`; the empty sequence gives `[]`; for a non-empty sequence of signed or unsigned integers
the text holds exactly `n - 1` commas and does not end in `,]`; and
`[32, 901, 12, 29, -323]` gives `[32,901,12,29,-323]`. -/
theorem C6_vector_text {α : Type} (Save : α → StringBuffer → StringBuffer)
    (enc : α → List Byte) (hSave : ∀ e buf, Save e buf = buf ++ enc e)
    (xs : List α) (buf : StringBuffer) :
    serialize_like_vector_impl_ Save xs buf
        = buf ++ bytes "[" ++ List.intercalate (bytes ",") (xs.map enc) ++ bytes "]"
    ∧ serialize_like_vector_impl_ Save [] buf = buf ++ bytes "[]"
    ∧ (∀ ys : List Int, ys ≠ [] →
        (serialize_like_vector_impl_ Save_signed ys []).count 44 = ys.length - 1
        ∧ ∀ pre, serialize_like_vector_impl_ Save_signed ys [] ≠ pre ++ bytes ",]")
    ∧ (∀ ys : List Nat, ys ≠ [] →
        (serialize_like_vector_impl_ Save_unsigned ys []).count 44 = ys.length - 1
        ∧ ∀ pre, serialize_like_vector_impl_ Save_unsigned ys [] ≠ pre ++ bytes ",]")
    ∧ serialize_like_vector_impl_ Save_signed [32, 901, 12, 29, -323] []
        = bytes "[32,901,12,29,-323]" := by
  have hb1 : bytes "[" = [91] := by decide
  have hb2 : bytes "," = [44] := by decide
  have hb3 : bytes "]" = [93] := by decide
  have hb4 : bytes "[]" = [91, 93] := by decide
  have hb5 : bytes ",]" = [44, 93] := by decide
  refine ⟨?_, ?_, ?_, ?_, by decide⟩
  · rw [serialize_like_vector_impl__eq Save enc hSave, hb1, hb2, hb3]
    simp
  · rw [serialize_like_vector_impl__eq Save enc hSave, hb4]
    simp [List.intercalate]
  · intro ys hys
    rw [hb5]
    exact vector_text_commas Save_signed to_string_signed (fun _ _ => rfl)
      to_string_signed_no_comma to_string_signed_ne_nil ys hys
  · intro ys hys
    rw [hb5]
    exact vector_text_commas Save_unsigned to_string_unsigned (fun _ _ => rfl)
      to_string_unsigned_no_comma to_string_unsigned_ne_nil ys hys

/-- Witness of C6 at the sequence `[7, -8]` of signed integers. -/
theorem C6_vector_text_witness :
    serialize_like_vector_impl_ Save_signed [7, -8] []
      = [] ++ bytes "[" ++ List.intercalate (bytes ",") ([7, -8].map to_string_signed)
          ++ bytes "]" :=
  (C6_vector_text Save_signed to_string_signed (fun _ _ => rfl) [7, -8] []).1

/-- C7: for a string-keyed map `m` whose value `Save` appends the value's text `enc v`,
`Save(m)` appends `{`, the entries `"k":<text of v>` in iteration order joined by single `,`,
and `}`; the empty map gives `{}`, and the entries a->1, b->2 in that order give
`{"a":1,"b":2}`. -/
theorem C7_string_key_map_text {β : Type} (SaveVal : β → StringBuffer → StringBuffer)
    (enc : β → List Byte) (hSave : ∀ v buf, SaveVal v buf = buf ++ enc v)
    (m : List (List Byte × β)) (buf : StringBuffer) :
    serialize_like_map_impl_string SaveVal m buf
        = buf ++ bytes "\x7b"
            ++ List.intercalate (bytes ",")
                (m.map fun kv => bytes "\"" ++ kv.1 ++ bytes "\":" ++ enc kv.2)
            ++ bytes "\x7d"
    ∧ serialize_like_map_impl_string SaveVal [] buf = buf ++ bytes "\x7b\x7d"
    ∧ serialize_like_map_impl_string Save_signed [(bytes "a", 1), (bytes "b", 2)] []
        = bytes "\x7b\"a\":1,\"b\":2\x7d" := by
  have hb1 : bytes "\x7b" = [123] := by decide
  have hb2 : bytes "," = [44] := by decide
  have hb3 : bytes "\x7d" = [125] := by decide
  have hb4 : bytes "\x7b\x7d" = [123, 125] := by decide
  have hb5 : bytes "\"" = [34] := by decide
  have key : ∀ (l : List (List Byte × β)), serialize_like_map_impl_string SaveVal l buf
      = buf ++ [123] ++ List.intercalate [44]
          (l.map fun kv => [34] ++ kv.1 ++ bytes "\":" ++ enc kv.2) ++ [125] := by
    intro l
    unfold serialize_like_map_impl_string
    simp only
    rw [emit_then_trim _ (fun kv => [34] ++ kv.1 ++ bytes "\":" ++ enc kv.2)
      (fun b kv => by rw [hSave]; simp) l]
  refine ⟨?_, ?_, by decide⟩
  · rw [key, hb1, hb2, hb3, hb5]
  · rw [key, hb4]
    simp [List.intercalate]

/-- Witness of C7 at the map with the single entry k -> -5. -/
theorem C7_string_key_map_text_witness :
    serialize_like_map_impl_string Save_signed [(bytes "k", -5)] []
      = [] ++ bytes "\x7b"
          ++ List.intercalate (bytes ",")
              ([(bytes "k", (-5 : Int))].map
                fun kv => bytes "\"" ++ kv.1 ++ bytes "\":" ++ to_string_signed kv.2)
          ++ bytes "\x7d" :=
  (C7_string_key_map_text Save_signed to_string_signed (fun _ _ => rfl)
    [(bytes "k", -5)] []).1

/-- C8: for a map `m` whose key type is not a string, with key and value `Save` appending the
texts `encK k` and `encV v`, `Save(m)` appends `[`, one object
`{"key":<text of k>,"value":<text of v>}` per entry in iteration order joined by single `,`,
and `]`; the empty map gives `[]`, and the entries 1->"x", 2->"y" give
`[{"key":1,"value":"x"},{"key":2,"value":"y"}]`. -/
theorem C8_other_key_map_text {α β : Type} (SaveKey : α → StringBuffer → StringBuffer)
    (SaveVal : β → StringBuffer → StringBuffer) (encK : α → List Byte) (encV : β → List Byte)
    (hKey : ∀ k buf, SaveKey k buf = buf ++ encK k)
    (hVal : ∀ v buf, SaveVal v buf = buf ++ encV v)
    (m : List (α × β)) (buf : StringBuffer) :
    serialize_like_map_impl_ SaveKey SaveVal m buf
        = buf ++ bytes "["
            ++ List.intercalate (bytes ",")
                (m.map fun kv =>
                  bytes "\x7b\"key\":" ++ encK kv.1 ++ bytes ",\"value\":" ++ encV kv.2
                    ++ bytes "\x7d")
            ++ bytes "]"
    ∧ serialize_like_map_impl_ SaveKey SaveVal [] buf = buf ++ bytes "[]"
    ∧ serialize_like_map_impl_ Save_signed Save_string [(1, bytes "x"), (2, bytes "y")] []
        = bytes "[\x7b\"key\":1,\"value\":\"x\"\x7d,\x7b\"key\":2,\"value\":\"y\"\x7d]" := by
  have hb1 : bytes "[" = [91] := by decide
  have hb2 : bytes "," = [44] := by decide
  have hb3 : bytes "]" = [93] := by decide
  have hb4 : bytes "[]" = [91, 93] := by decide
  have hb5 : bytes "\x7d," = bytes "\x7d" ++ [44] := by decide
  have key : ∀ (l : List (α × β)), serialize_like_map_impl_ SaveKey SaveVal l buf
      = buf ++ [91] ++ List.intercalate [44]
          (l.map fun kv =>
            bytes "\x7b\"key\":" ++ encK kv.1 ++ bytes ",\"value\":" ++ encV kv.2
              ++ bytes "\x7d") ++ [93] := by
    intro l
    unfold serialize_like_map_impl_
    simp only
    rw [emit_then_trim _ (fun kv =>
        bytes "\x7b\"key\":" ++ encK kv.1 ++ bytes ",\"value\":" ++ encV kv.2 ++ bytes "\x7d")
      (fun b kv => by rw [hVal, hKey, hb5]; simp) l]
  refine ⟨?_, ?_, by decide⟩
  · rw [key, hb1, hb2, hb3]
  · rw [key, hb4]
    simp [List.intercalate]

/-- Witness of C8 at the map with the single entry 3 -> 4. -/
theorem C8_other_key_map_text_witness :
    serialize_like_map_impl_ Save_signed Save_signed [(3, 4)] []
      = [] ++ bytes "["
          ++ List.intercalate (bytes ",")
              ([((3 : Int), (4 : Int))].map fun kv =>
                bytes "\x7b\"key\":" ++ to_string_signed kv.1 ++ bytes ",\"value\":"
                  ++ to_string_signed kv.2 ++ bytes "\x7d")
          ++ bytes "]" :=
  (C8_other_key_map_text Save_signed Save_signed to_string_signed to_string_signed
    (fun _ _ => rfl) (fun _ _ => rfl) [(3, 4)] []).1

/-- C9: `Save` of an empty optional appends exactly the four bytes `null`; `Save` of an
optional holding `v` writes exactly what `Save(v)` writes; an optional holding 7 gives `7`. -/
theorem C9_optional_text {α : Type} (Save : α → StringBuffer → StringBuffer) (v : α)
    (buf : StringBuffer) :
    Save_optional Save none buf = buf ++ bytes "null"
    ∧ (bytes "null").length = 4
    ∧ Save_optional Save (some v) buf = Save v buf
    ∧ Save_optional Save_signed none [] = bytes "null"
    ∧ Save_optional Save_signed (some 7) [] = bytes "7" :=
  ⟨rfl, rfl, rfl, rfl, by decide⟩

/-! ### Booleans -/

/-- C10: `Save` of the boolean `true` writes the text `1` and `Save` of `false` writes `0`;
neither writes `true` or `false`. -/
theorem C10_bool_saved_as_digit :
    Save_bool true [] = bytes "1" ∧ Save_bool false [] = bytes "0"
    ∧ Save_bool true [] ≠ bytes "true" ∧ Save_bool false [] ≠ bytes "false" := by
  decide

/-! ### Tuples, records and pairs: the text written -/

theorem foldl_emit_mem {α : Type*} (step : StringBuffer → α → StringBuffer)
    (item : α → List Byte) (sep : List Byte) :
    ∀ (xs : List α), (∀ e ∈ xs, ∀ buf, step buf e = buf ++ (item e ++ sep)) →
      ∀ (buf : StringBuffer),
        xs.foldl step buf = buf ++ (xs.map (fun e => item e ++ sep)).flatten := by
  intro xs
  induction xs with
  | nil => intro _ buf; simp
  | cons x xs ih =>
    intro h buf
    have h1 := ih (fun e he => h e (List.mem_cons_of_mem x he))
    simp only [List.foldl_cons, h x (List.mem_cons_self x xs), h1, List.map_cons,
      List.flatten_cons, List.append_assoc]

theorem serialize_tuple_impl__eq (t : List Saveable) (enc : Saveable → List Byte)
    (hSave : ∀ e ∈ t, ∀ buf, e.Save e.val buf = buf ++ enc e) (hne : t ≠ [])
    (buf : StringBuffer) :
    serialize_tuple_impl_ t buf = buf ++ 91 :: (List.intercalate [44] (t.map enc) ++ [93]) := by
  have hf := foldl_emit_mem (fun buf (e : Saveable) => e.Save e.val buf ++ [44]) enc [44] t
    (fun e he b => by simp only [hSave e he, List.append_assoc]) (buf ++ [91])
  unfold serialize_tuple_impl_
  simp only
  rw [hf, flatten_map_append_sep enc [44] t hne, ← List.append_assoc,
    Backward_append_singleton]
  simp

theorem Save_struct_eq (items : List (List Byte × Saveable)) (enc : Saveable → List Byte)
    (hSave : ∀ it ∈ items, ∀ buf, it.2.Save it.2.val buf = buf ++ enc it.2)
    (hne : items ≠ []) (buf : StringBuffer) :
    Save_struct items buf
      = buf ++ 123 :: (List.intercalate [44]
          (items.map fun it => 34 :: (it.1 ++ 34 :: 58 :: enc it.2)) ++ [125]) := by
  have hq : bytes "\":" = [34, 58] := by decide
  have hf := foldl_emit_mem
    (fun buf (it : List Byte × Saveable) => serialize_item_impl_ it.2.Save it.1 it.2.val buf)
    (fun it => 34 :: (it.1 ++ 34 :: 58 :: enc it.2)) [44] items
    (fun it hit b => by
      simp [serialize_item_impl_, serialize_key_val_impl_string, hSave it hit, hq])
    (buf ++ [123])
  unfold Save_struct serialize_struct_begin_impl_ serialize_struct_end_impl_
  simp only
  rw [hf, flatten_map_append_sep _ [44] items hne, ← List.append_assoc,
    Backward_append_singleton]
  simp

/-- C11: `Save` of the empty tuple writes `[`, erases it again with the unconditional
`Backward(1)`, and writes `]`: the text is `]`, not `[]`. -/
theorem C11_empty_tuple_text (buf : StringBuffer) :
    serialize_tuple_impl_ [] buf = buf ++ bytes "]"
    ∧ Save_tuple [] () [] = bytes "]"
    ∧ Save_tuple [] () [] ≠ bytes "[]" := by
  refine ⟨?_, by decide, by decide⟩
  have : bytes "]" = [93] := by decide
  simp [serialize_tuple_impl_, Backward_append_singleton, this]

/-- C12: `Save` of a record without members writes `{`, erases it again with the
unconditional `Backward(1)` of `serialize_struct_end_impl_`, and writes `}`: the text is `}`,
not `{}`. -/
theorem C12_empty_record_text (buf : StringBuffer) :
    Save_struct [] buf = buf ++ bytes "\x7d"
    ∧ Save_struct [] [] = bytes "\x7d"
    ∧ Save_struct [] [] ≠ bytes "\x7b\x7d" := by
  refine ⟨?_, by decide, by decide⟩
  have : bytes "\x7d" = [125] := by decide
  simp [Save_struct, serialize_struct_begin_impl_, serialize_struct_end_impl_,
    Backward_append_singleton, this]

theorem Backward_append_two (buf : StringBuffer) (c d : Byte) :
    StringBuffer.Backward (buf ++ [c, d]) 1 = buf ++ [c] := by
  have : buf ++ [c, d] = (buf ++ [c]) ++ [d] := by simp
  rw [this, Backward_append_singleton]

/-- C13: the text written for the pair `(k, v)` is byte for byte the text written for the map
holding the single entry `k -> v`, both when the key is a string and when it is not; the
pair `("k", 5)` gives `{"k":5}` and the pair `(1, "x")` gives `[{"key":1,"value":"x"}]`. -/
theorem C13_pair_text_eq_single_entry_map {α β γ : Type}
    (SaveKey : α → StringBuffer → StringBuffer) (SaveVal : β → StringBuffer → StringBuffer)
    (SaveVal2 : γ → StringBuffer → StringBuffer)
    (skey : List Byte) (svalue : γ) (key : α) (value : β) (buf : StringBuffer) :
    Save_pair_string SaveVal2 (skey, svalue) buf
        = serialize_like_map_impl_string SaveVal2 [(skey, svalue)] buf
    ∧ Save_pair SaveKey SaveVal (key, value) buf
        = serialize_like_map_impl_ SaveKey SaveVal [(key, value)] buf
    ∧ Save_pair_string Save_signed (bytes "k", 5) [] = bytes "\x7b\"k\":5\x7d"
    ∧ Save_pair Save_signed Save_string (1, bytes "x") []
        = bytes "[\x7b\"key\":1,\"value\":\"x\"\x7d]" := by
  have hq : bytes "\x7d," = [125, 44] := by decide
  refine ⟨?_, ?_, by decide, by decide⟩
  · simp [Save_pair_string, serialize_like_map_impl_string, serialize_key_val_impl_string,
      Backward_append_singleton]
  · simp only [Save_pair, serialize_like_map_impl_, serialize_key_val_impl_, List.foldl_cons,
      List.foldl_nil, List.isEmpty_cons, Bool.not_false, if_true, hq, Backward_append_two]

/-! ### Round trip of a map -/

theorem isBlank_58 : isBlank 58 = false := by decide
theorem isBlank_123 : isBlank 123 = false := by decide
theorem isBlank_125 : isBlank 125 = false := by decide

theorem deserialize_like_map_loop_of_unread {κ β M : Type}
    (key_val : ReadBuffer → Res (κ × β)) (emplace : κ → β → M → M)
    (item : κ × β → List Byte) :
    ∀ (m : List (κ × β)),
      (∀ kv ∈ m, ∀ (b : ReadBuffer) (t : Byte) (rest : List Byte),
        b.unread = item kv ++ t :: rest → (t = 44 ∨ t = 125 ∨ t = 93) →
        key_val b = .ok kv (b.Forward (item kv).length)) →
      (∀ kv ∈ m, ∃ c tl, item kv = c :: tl ∧ isBlank c = false ∧ c ≠ 125 ∧ c ≠ 93) →
      ∀ (fuel : Nat) (t : M) (b : ReadBuffer) (rest : List Byte) (cl c2 : Byte),
        (cl = 125 ∨ cl = 93) → m.length < fuel →
        b.unread = List.intercalate [44] (m.map item) ++ cl :: rest →
        b.PeekCharF = .ok c2 b →
        deserialize_like_map_loop key_val emplace fuel c2 t b
          = .ok (m.foldl (fun t kv => emplace kv.1 kv.2 t) t)
              (b.Forward (List.intercalate [44] (m.map item)).length) := by
  intro m
  induction m with
  | nil =>
    intro _ _ fuel t b rest cl c2 hcl hf h hpeek
    obtain ⟨f, rfl⟩ : ∃ f, fuel = f + 1 := ⟨fuel - 1, by simp at hf; omega⟩
    simp only [List.map_nil, List.intercalate, List.intersperse_nil, List.flatten_nil,
      List.nil_append] at h
    have hclb : isBlank cl = false := by rcases hcl with rfl | rfl <;> decide
    have hp := PeekCharF_of_unread h hclb
    rw [hpeek] at hp
    have hc2 : c2 = cl := by injection hp
    subst hc2
    have hcond : (c2 != 125 && c2 != 93) = false := by rcases hcl with rfl | rfl <;> decide
    simp [deserialize_like_map_loop, hcond, List.intercalate, Forward_zero]
  | cons x m ih =>
    intro hLoad hhead fuel t b rest cl c2 hcl hf h hpeek
    obtain ⟨f, rfl⟩ : ∃ f, fuel = f + 1 := ⟨fuel - 1, by simp at hf; omega⟩
    obtain ⟨c, tl, hc, hcb, hc125, hc93⟩ := hhead x (by simp)
    have hclb : isBlank cl = false := by rcases hcl with rfl | rfl <;> decide
    have hcl44 : (cl == 44) = false := by rcases hcl with rfl | rfl <;> decide
    have ih1 := ih (fun y hy => hLoad y (by simp [hy])) (fun y hy => hhead y (by simp [hy]))
    cases m with
    | nil =>
      simp only [List.map_cons, List.map_nil, intercalate_singleton] at h ⊢
      have hb : b.unread = c :: (tl ++ cl :: rest) := by rw [h, hc]; simp
      have hp := PeekCharF_of_unread hb hcb
      rw [hpeek] at hp
      have hc2 : c2 = c := by injection hp
      subst hc2
      have hcond : (c2 != 125 && c2 != 93) = true := by simp [hc125, hc93]
      have hl := hLoad x (by simp) b cl rest h
        (by rcases hcl with rfl | rfl <;> simp)
      have hu : (b.Forward (item x).length).unread = cl :: rest := unread_Forward h
      have hpeek2 := PeekCharF_of_unread hu hclb
      have hrec := ih1 f (emplace x.1 x.2 t) (b.Forward (item x).length) rest cl cl hcl
        (by simp at hf ⊢; omega) (by simpa [List.intercalate] using hu) hpeek2
      simp only [deserialize_like_map_loop, hcond, if_true, hl, Res.bind, hpeek2, hcl44,
        Bool.false_eq_true, if_false, hrec]
      simp [List.intercalate, Forward_zero]
    | cons y r =>
      simp only [List.map_cons, intercalate_cons_cons, List.append_assoc,
        List.singleton_append] at h ⊢
      have hb : b.unread
          = c :: (tl ++ 44 :: (List.intercalate [44] (item y :: r.map item) ++ cl :: rest)) := by
        rw [h, hc]; simp
      have hp := PeekCharF_of_unread hb hcb
      rw [hpeek] at hp
      have hc2 : c2 = c := by injection hp
      subst hc2
      have hcond : (c2 != 125 && c2 != 93) = true := by simp [hc125, hc93]
      have hl := hLoad x (by simp) b 44 _ h (Or.inl rfl)
      have hu : (b.Forward (item x).length).unread
          = 44 :: (List.intercalate [44] (item y :: r.map item) ++ cl :: rest) :=
        unread_Forward h
      have hpeek2 := PeekCharF_of_unread hu isBlank_44
      have hget := GetChar_of_unread hu
      have hu2 : ((b.Forward (item x).length).Forward 1).unread
          = List.intercalate [44] (item y :: r.map item) ++ cl :: rest :=
        unread_Forward_one hu
      obtain ⟨c', tl', hc', hcb', _, _⟩ := hhead y (by simp)
      have hne : ∃ tl2, List.intercalate [44] (item y :: r.map item) ++ cl :: rest
          = c' :: tl2 := by
        cases r with
        | nil => exact ⟨tl' ++ cl :: rest, by simp [intercalate_singleton, hc']⟩
        | cons z r2 =>
          exact ⟨tl' ++ [44] ++ List.intercalate [44] (item z :: r2.map item) ++ cl :: rest, by
            simp [intercalate_cons_cons, hc']⟩
      obtain ⟨tl2, htl2⟩ := hne
      have hpeek3 := PeekCharF_of_unread (hu2.trans htl2) hcb'
      have hrec := ih1 f (emplace x.1 x.2 t) ((b.Forward (item x).length).Forward 1) rest cl c'
        hcl (by simp at hf ⊢; omega) (by simpa using hu2) hpeek3
      simp only [List.map_cons] at hrec
      simp only [deserialize_like_map_loop, hcond, if_true, hl, Res.bind, hpeek2,
        beq_self_eq_true, hget, hpeek3, hrec, List.foldl_cons]
      simp [Forward]
      omega

theorem deserialize_like_map_impl__of_unread {κ β M : Type}
    (key_val : ReadBuffer → Res (κ × β)) (emplace : κ → β → M → M)
    (item : κ × β → List Byte) (m : List (κ × β))
    (hLoad : ∀ kv ∈ m, ∀ (b : ReadBuffer) (t : Byte) (rest : List Byte),
      b.unread = item kv ++ t :: rest → (t = 44 ∨ t = 125 ∨ t = 93) →
      key_val b = .ok kv (b.Forward (item kv).length))
    (hhead : ∀ kv ∈ m, ∃ c tl, item kv = c :: tl ∧ isBlank c = false ∧ c ≠ 125 ∧ c ≠ 93)
    (fuel : Nat) (hf : m.length < fuel) (t : M) (b : ReadBuffer) (rest : List Byte)
    (op cl : Byte) (hop : op = 123 ∨ op = 91) (hcl : cl = 125 ∨ cl = 93)
    (h : b.unread = op :: (List.intercalate [44] (m.map item) ++ cl :: rest)) :
    deserialize_like_map_impl_ key_val emplace fuel t b
      = .ok (m.foldl (fun t kv => emplace kv.1 kv.2 t) t)
          (b.Forward ((List.intercalate [44] (m.map item)).length + 2)) := by
  have hopb : isBlank op = false := by rcases hop with rfl | rfl <;> decide
  have hclb : isBlank cl = false := by rcases hcl with rfl | rfl <;> decide
  have hopc : (op == 123 || op == 91) = true := by rcases hop with rfl | rfl <;> decide
  have hclc : (cl == 125 || cl == 93) = true := by rcases hcl with rfl | rfl <;> decide
  have hget := GetCharF_of_unread h hopb
  have hu1 : (b.Forward 1).unread = List.intercalate [44] (m.map item) ++ cl :: rest :=
    unread_Forward_one h
  have hpk : ∃ c2, (b.Forward 1).PeekCharF = .ok c2 (b.Forward 1) := by
    cases m with
    | nil =>
      exact ⟨cl, PeekCharF_of_unread (by simpa [List.intercalate] using hu1) hclb⟩
    | cons x r =>
      obtain ⟨c, tl, hc, hcb, _, _⟩ := hhead x (by simp)
      cases r with
      | nil =>
        have : (b.Forward 1).unread = c :: (tl ++ cl :: rest) := by
          rw [hu1]; simp [intercalate_singleton, hc]
        exact ⟨c, PeekCharF_of_unread this hcb⟩
      | cons y r2 =>
        have : (b.Forward 1).unread
            = c :: (tl ++ [44] ++ List.intercalate [44] (item y :: r2.map item)
                ++ cl :: rest) := by
          rw [hu1]; simp [intercalate_cons_cons, hc]
        exact ⟨c, PeekCharF_of_unread this hcb⟩
  obtain ⟨c2, hpeek⟩ := hpk
  have hloop := deserialize_like_map_loop_of_unread key_val emplace item m hLoad hhead fuel t
    (b.Forward 1) rest cl c2 hcl hf hu1 hpeek
  have hu2 : ((b.Forward 1).Forward (List.intercalate [44] (m.map item)).length).unread
      = cl :: rest := unread_Forward hu1
  have hget2 := GetCharF_of_unread hu2 hclb
  simp only [deserialize_like_map_impl_, hget, Res.bind, MYRPC_ASSERT_EXCEPTION, hopc, if_true,
    hpeek, hloop, hget2, hclc]
  simp [Forward]
  omega

theorem std_map_emplace_last {κ β : Type} (comp : κ → κ → Bool) (key : κ) (val : β) :
    ∀ (t : List (κ × β)), (∀ e ∈ t, comp e.1 key = true ∧ comp key e.1 = false) →
      std_map_emplace comp key val t = t ++ [(key, val)] := by
  intro t
  induction t with
  | nil => intro _; rfl
  | cons e t ih =>
    intro h
    obtain ⟨h1, h2⟩ := h e (by simp)
    simp [std_map_emplace, h1, h2, ih (fun e he => h e (by simp [he]))]

theorem foldl_std_map_emplace {κ β : Type} (comp : κ → κ → Bool) :
    ∀ (m p : List (κ × β)),
      (p ++ m).Pairwise (fun a b => comp a.1 b.1 = true ∧ comp b.1 a.1 = false) →
      m.foldl (fun t kv => std_map_emplace comp kv.1 kv.2 t) p = p ++ m := by
  intro m
  induction m with
  | nil => intro p _; simp
  | cons x m ih =>
    intro p h
    have hx : ∀ e ∈ p, comp e.1 x.1 = true ∧ comp x.1 e.1 = false := by
      intro e he
      exact (List.pairwise_append.mp h).2.2 e he x (by simp)
    rw [List.foldl_cons, std_map_emplace_last comp x.1 x.2 p hx]
    have := ih (p ++ [x]) (by simpa using h)
    simpa using this

theorem string_less_irrefl : ∀ a : List Byte, string_less a a = false := by
  intro a
  induction a with
  | nil => rfl
  | cons x a ih => simp [string_less, ih]

theorem string_less_asymm :
    ∀ a b : List Byte, string_less a b = true → string_less b a = false := by
  intro a
  induction a with
  | nil => intro b _; cases b <;> rfl
  | cons x a ih =>
    intro b h
    cases b with
    | nil => simp [string_less] at h
    | cons y b =>
      unfold string_less at h ⊢
      by_cases hxy : x < y
      · have hyx : ¬ y < x := fun h' => absurd (UInt8.lt_trans hxy h') (UInt8.lt_irrefl x)
        simp [hyx, hxy]
      · simp only [hxy, if_false] at h
        by_cases hyx : y < x
        · simp [hyx] at h
        · simp only [hyx, hxy, if_false] at h ⊢
          exact ih b h

theorem PeekString_of_unread {b : ReadBuffer} {pre rest : List Byte}
    (h : b.unread = pre ++ rest) : b.PeekString pre.length = pre := by
  unfold unread at h
  simp [PeekString, h]

theorem deserialize_key_val_impl__of_unread {α β : Type} (LoadKey : ReadBuffer → Res α)
    (LoadVal : ReadBuffer → Res β) (encK encV : List Byte) (k : α) (v : β)
    (hK : ∀ (b : ReadBuffer) (rest : List Byte), b.unread = encK ++ 44 :: rest →
      LoadKey b = .ok k (b.Forward encK.length))
    (hV : ∀ (b : ReadBuffer) (rest : List Byte), b.unread = encV ++ 125 :: rest →
      LoadVal b = .ok v (b.Forward encV.length))
    (b : ReadBuffer) (rest : List Byte)
    (h : b.unread = bytes "\x7b\"key\":" ++ encK ++ bytes ",\"value\":" ++ encV
      ++ bytes "\x7d" ++ rest) :
    deserialize_key_val_impl_ LoadKey LoadVal b
      = .ok (k, v) (b.Forward (bytes "\x7b\"key\":" ++ encK ++ bytes ",\"value\":" ++ encV
          ++ bytes "\x7d").length) := by
  have e1 : bytes "\x7b\"key\":" = [123, 34, 107, 101, 121, 34, 58] := by decide
  have e2 : bytes ",\"value\":" = [44, 34, 118, 97, 108, 117, 101, 34, 58] := by decide
  have e3 : bytes "\x7d" = [125] := by decide
  have e4 : bytes "\"key\"" = [34, 107, 101, 121, 34] := by decide
  have e5 : bytes "\"value\"" = [34, 118, 97, 108, 117, 101, 34] := by decide
  rw [e1, e2, e3] at h ⊢
  have h0 : b.unread = 123 :: ([34, 107, 101, 121, 34] ++ (58 :: (encK
      ++ 44 :: ([34, 118, 97, 108, 117, 101, 34] ++ (58 :: (encV ++ 125 :: rest)))))) := by
    simpa using h
  have g1 := GetCharF_of_unread h0 isBlank_123
  have u1 := unread_Forward_one h0
  have u1a : (_ : ReadBuffer).unread = (34 : Byte) :: _ := u1
  have p1 := PeekCharF_of_unread u1a isBlank_34
  have s1 := PeekString_of_unread u1
  have u2 := unread_Forward u1
  have g2 := GetCharF_of_unread u2 isBlank_58
  have u3 := unread_Forward_one u2
  have k1 := hK _ _ u3
  have u4 := unread_Forward u3
  have g3 := GetCharF_of_unread u4 isBlank_44
  have u5 := unread_Forward_one u4
  have u5a : (_ : ReadBuffer).unread = (34 : Byte) :: _ := u5
  have p2 := PeekCharF_of_unread u5a isBlank_34
  have s2 := PeekString_of_unread u5
  have u6 := unread_Forward u5
  have g4 := GetCharF_of_unread u6 isBlank_58
  have u7 := unread_Forward_one u6
  have v1 := hV _ _ u7
  have u8 := unread_Forward u7
  have g5 := GetCharF_of_unread u8 isBlank_125
  simp only [List.length_cons, List.length_nil] at *
  simp only [deserialize_key_val_impl_, g1, Res.bind, MYRPC_ASSERT_EXCEPTION, beq_self_eq_true,
    if_true, p1, s1, e4, g2, k1, g3, p2, s2, e5, g4, v1, g5]
  simp [Forward]
  omega

theorem deserialize_key_val_impl_string_of_unread {β : Type} (LoadVal : ReadBuffer → Res β)
    (encV : List Byte) (key : List Byte) (v : β) (hkey : (34 : Byte) ∉ key) (t : Byte)
    (hV : ∀ (b : ReadBuffer) (rest : List Byte), b.unread = encV ++ t :: rest →
      LoadVal b = .ok v (b.Forward encV.length))
    (b : ReadBuffer) (rest : List Byte)
    (h : b.unread = bytes "\"" ++ key ++ bytes "\":" ++ encV ++ t :: rest) :
    deserialize_key_val_impl_string LoadVal b
      = .ok (key, v) (b.Forward (bytes "\"" ++ key ++ bytes "\":" ++ encV).length) := by
  have e1 : bytes "\"" = [34] := by decide
  have e2 : bytes "\":" = [34, 58] := by decide
  rw [e1, e2] at h ⊢
  have h0 : b.unread = 34 :: (key ++ 34 :: (58 :: (encV ++ t :: rest))) := by simpa using h
  have l1 := Load_string_of_unread key hkey b _ h0
  have h1 : b.unread = (34 :: (key ++ [34])) ++ (58 :: (encV ++ t :: rest)) := by
    simpa using h
  have u1 := unread_Forward h1
  have hlen : (34 :: (key ++ [34])).length = key.length + 2 := by simp
  rw [hlen] at u1
  have g1 := GetCharF_of_unread u1 isBlank_58
  have u2 := unread_Forward_one u1
  have v1 := hV _ _ u2
  simp only [deserialize_key_val_impl_string, l1, Res.bind, g1, MYRPC_ASSERT_EXCEPTION,
    beq_self_eq_true, if_true, v1]
  simp [Forward]
  omega

theorem serialize_like_map_impl__eq {α β : Type} (SaveKey : α → StringBuffer → StringBuffer)
    (SaveVal : β → StringBuffer → StringBuffer) (encK : α → List Byte) (encV : β → List Byte)
    (hKey : ∀ k buf, SaveKey k buf = buf ++ encK k)
    (hVal : ∀ v buf, SaveVal v buf = buf ++ encV v)
    (m : List (α × β)) (buf : StringBuffer) :
    serialize_like_map_impl_ SaveKey SaveVal m buf
      = buf ++ 91 :: (List.intercalate [44]
          (m.map fun kv =>
            bytes "\x7b\"key\":" ++ encK kv.1 ++ bytes ",\"value\":" ++ encV kv.2
              ++ bytes "\x7d") ++ [93]) := by
  have hb5 : bytes "\x7d," = bytes "\x7d" ++ [44] := by decide
  unfold serialize_like_map_impl_
  simp only
  rw [emit_then_trim _ (fun kv =>
      bytes "\x7b\"key\":" ++ encK kv.1 ++ bytes ",\"value\":" ++ encV kv.2 ++ bytes "\x7d")
    (fun b kv => by rw [hVal, hKey, hb5]; simp) m]
  simp

theorem serialize_like_map_impl_string_eq {β : Type}
    (SaveVal : β → StringBuffer → StringBuffer) (enc : β → List Byte)
    (hSave : ∀ v buf, SaveVal v buf = buf ++ enc v)
    (m : List (List Byte × β)) (buf : StringBuffer) :
    serialize_like_map_impl_string SaveVal m buf
      = buf ++ 123 :: (List.intercalate [44]
          (m.map fun kv => bytes "\"" ++ kv.1 ++ bytes "\":" ++ enc kv.2) ++ [125]) := by
  have hq : bytes "\"" = [34] := by decide
  unfold serialize_like_map_impl_string
  simp only
  rw [emit_then_trim _ (fun kv => bytes "\"" ++ kv.1 ++ bytes "\":" ++ enc kv.2)
    (fun b kv => by rw [hSave, hq]; simp) m]
  simp

/-- C14: a `std::map` from signed `w`-bit integers (`w` = 32 or 64) to strings without a
double-quote byte, given by its entries `m` in iteration order (ascending keys), saved by
`Save` and loaded into an empty map with `deserialize_key_val_impl_` for a non-string key,
comes back as exactly `m`, and the whole text is consumed, whenever the loop is given more
iterations than the map has entries. -/
theorem C14_int_key_map_roundtrip (w : Nat) (hw : w = 32 ∨ w = 64)
    (m : List (Int × List Byte)) (hsorted : m.Pairwise (fun a b => a.1 < b.1))
    (hkeys : ∀ kv ∈ m, -(2 ^ (w - 1) : Int) ≤ kv.1 ∧ kv.1 < 2 ^ (w - 1))
    (hvals : ∀ kv ∈ m, (34 : Byte) ∉ kv.2) (fuel : Nat) (hfuel : m.length < fuel) :
    deserialize_like_map_impl_ (deserialize_key_val_impl_ (Load_signed w) Load_string)
        (std_map_emplace int_less) fuel []
        ⟨serialize_like_map_impl_ Save_signed Save_string m [], 0⟩
      = .ok m ⟨serialize_like_map_impl_ Save_signed Save_string m [],
          (serialize_like_map_impl_ Save_signed Save_string m []).length⟩ := by
  have e1 : bytes "\x7b\"key\":" = [123, 34, 107, 101, 121, 34, 58] := by decide
  have htext := serialize_like_map_impl__eq Save_signed Save_string to_string_signed
    (fun v => 34 :: (v ++ [34])) (fun _ _ => rfl) (fun v buf => by simp [Save_string]) m []
  simp only [List.nil_append] at htext
  have hu : (ReadBuffer.mk (serialize_like_map_impl_ Save_signed Save_string m []) 0).unread
      = 91 :: (List.intercalate [44]
          (m.map fun kv =>
            bytes "\x7b\"key\":" ++ to_string_signed kv.1 ++ bytes ",\"value\":"
              ++ 34 :: (kv.2 ++ [34]) ++ bytes "\x7d") ++ 93 :: []) := by
    simp [unread, htext]
  have hfold : m.foldl (fun t kv => std_map_emplace int_less kv.1 kv.2 t) [] = m := by
    have := foldl_std_map_emplace int_less m []
      (by
        simp only [List.nil_append]
        exact hsorted.imp (fun {a b} hab => by
          simp only [int_less, decide_eq_true_eq, decide_eq_false_iff_not]
          exact ⟨hab, by omega⟩))
    simpa using this
  have := deserialize_like_map_impl__of_unread
    (deserialize_key_val_impl_ (Load_signed w) Load_string) (std_map_emplace int_less)
    (fun kv : Int × List Byte =>
      bytes "\x7b\"key\":" ++ to_string_signed kv.1 ++ bytes ",\"value\":"
        ++ 34 :: (kv.2 ++ [34]) ++ bytes "\x7d") m
    (fun kv hkv b t rest h _ =>
      deserialize_key_val_impl__of_unread (Load_signed w) Load_string
        (to_string_signed kv.1) (34 :: (kv.2 ++ [34])) kv.1 kv.2
        (fun b1 rest1 h1 =>
          Load_signed_of_unread w hw kv.1 (hkeys kv hkv).1 (hkeys kv hkv).2 b1 44 rest1 h1
            (by decide))
        (fun b1 rest1 h1 => by
          have := Load_string_of_unread kv.2 (hvals kv hkv) b1 (125 :: rest1)
            (by simpa using h1)
          simpa using this)
        b (t :: rest) (by simpa using h))
    (fun kv _ => ⟨123, _, by rw [e1]; rfl, by decide, by decide, by decide⟩)
    fuel hfuel [] _ [] 91 93 (Or.inr rfl) (Or.inr rfl) hu
  rw [this, hfold, htext]
  simp [Forward]

/-- Witness of C14 at the map -7 -> "x y", 3 -> "" with 32-bit keys. -/
theorem C14_int_key_map_roundtrip_witness :
    deserialize_like_map_impl_ (deserialize_key_val_impl_ (Load_signed 32) Load_string)
        (std_map_emplace int_less) 3 []
        ⟨serialize_like_map_impl_ Save_signed Save_string [(-7, bytes "x y"), (3, [])] [], 0⟩
      = .ok [(-7, bytes "x y"), (3, [])]
          ⟨serialize_like_map_impl_ Save_signed Save_string [(-7, bytes "x y"), (3, [])] [],
            (serialize_like_map_impl_ Save_signed Save_string
              [(-7, bytes "x y"), (3, [])] []).length⟩ :=
  C14_int_key_map_roundtrip 32 (Or.inl rfl) [(-7, bytes "x y"), (3, [])]
    (by decide) (by decide) (by decide) 3 (by decide)

/-- C15: a `std::map` from strings without a double-quote byte to signed `w`-bit integers,
given by its entries `m` in iteration order, is loaded back as exactly `m` from the text
of `Save(m)` with its outer brackets replaced by any opening bracket among `{`, `[` and any
closing bracket among `}`, `]`; with `{` and `}` that text is the text of `Save(m)`
itself. -/
theorem C15_string_key_map_any_brackets (w : Nat) (hw : w = 32 ∨ w = 64)
    (m : List (List Byte × Int))
    (hsorted : m.Pairwise (fun a b => string_less a.1 b.1 = true))
    (hkeys : ∀ kv ∈ m, (34 : Byte) ∉ kv.1)
    (hvals : ∀ kv ∈ m, -(2 ^ (w - 1) : Int) ≤ kv.2 ∧ kv.2 < 2 ^ (w - 1))
    (op cl : Byte) (hop : op = 123 ∨ op = 91) (hcl : cl = 125 ∨ cl = 93)
    (fuel : Nat) (hfuel : m.length < fuel) :
    deserialize_like_map_impl_ (deserialize_key_val_impl_string (Load_signed w))
        (std_map_emplace string_less) fuel []
        ⟨op :: ((serialize_like_map_impl_string Save_signed m []).tail.dropLast ++ [cl]), 0⟩
      = .ok m ⟨op :: ((serialize_like_map_impl_string Save_signed m []).tail.dropLast ++ [cl]),
          (serialize_like_map_impl_string Save_signed m []).length⟩
    ∧ 123 :: ((serialize_like_map_impl_string Save_signed m []).tail.dropLast ++ [125])
        = serialize_like_map_impl_string Save_signed m [] := by
  have e1 : bytes "\"" = [34] := by decide
  have htext := serialize_like_map_impl_string_eq Save_signed to_string_signed
    (fun _ _ => rfl) m []
  simp only [List.nil_append] at htext
  have hbody : (serialize_like_map_impl_string Save_signed m []).tail.dropLast
      = List.intercalate [44]
          (m.map fun kv => bytes "\"" ++ kv.1 ++ bytes "\":" ++ to_string_signed kv.2) := by
    rw [htext]; simp
  refine ⟨?_, by rw [hbody, htext]⟩
  rw [hbody]
  have hfold : m.foldl (fun t kv => std_map_emplace string_less kv.1 kv.2 t) [] = m := by
    have := foldl_std_map_emplace string_less m []
      (by
        simp only [List.nil_append]
        exact hsorted.imp (fun {a b} hab => ⟨hab, string_less_asymm _ _ hab⟩))
    simpa using this
  have := deserialize_like_map_impl__of_unread
    (deserialize_key_val_impl_string (Load_signed w)) (std_map_emplace string_less)
    (fun kv : List Byte × Int => bytes "\"" ++ kv.1 ++ bytes "\":" ++ to_string_signed kv.2) m
    (fun kv hkv b t rest h ht =>
      deserialize_key_val_impl_string_of_unread (Load_signed w) (to_string_signed kv.2)
        kv.1 kv.2 (hkeys kv hkv) t
        (fun b1 rest1 h1 =>
          Load_signed_of_unread w hw kv.2 (hvals kv hkv).1 (hvals kv hkv).2 b1 t rest1 h1
            (by rcases ht with rfl | rfl | rfl <;> decide))
        b rest (by simpa using h))
    (fun kv _ => ⟨34, _, by rw [e1]; rfl, by decide, by decide, by decide⟩)
    fuel hfuel []
    ⟨op :: (List.intercalate [44]
      (m.map fun kv => bytes "\"" ++ kv.1 ++ bytes "\":" ++ to_string_signed kv.2) ++ [cl]), 0⟩
    [] op cl hop hcl (by simp [unread])
  rw [this, hfold, htext]
  simp [Forward]

/-- Witness of C15 at the map "a" -> 1, "b" -> -2 between `[` and `}`. -/
theorem C15_string_key_map_any_brackets_witness :
    deserialize_like_map_impl_ (deserialize_key_val_impl_string (Load_signed 32))
        (std_map_emplace string_less) 3 []
        ⟨91 :: ((serialize_like_map_impl_string Save_signed
            [(bytes "a", 1), (bytes "b", -2)] []).tail.dropLast ++ [125]), 0⟩
      = .ok [(bytes "a", 1), (bytes "b", -2)]
          ⟨91 :: ((serialize_like_map_impl_string Save_signed
            [(bytes "a", 1), (bytes "b", -2)] []).tail.dropLast ++ [125]),
          (serialize_like_map_impl_string Save_signed
            [(bytes "a", 1), (bytes "b", -2)] []).length⟩ :=
  (C15_string_key_map_any_brackets 32 (Or.inl rfl) [(bytes "a", 1), (bytes "b", -2)]
    (by decide) (by decide) (by decide) 91 125 (Or.inr rfl) (Or.inl rfl) 3 (by decide)).1

/-! ### Round trip of the element types, of tuples and of records -/

theorem Save_shape_append : ∀ (s : Shape) (v : s.Val) (buf : StringBuffer),
    Save_shape s v buf = buf ++ Save_shape s v [] := by
  intro s
  induction s with
  | signed w => intro v buf; simp [Save_shape, Save_signed]
  | string => intro v buf; simp [Save_shape, Save_string]
  | vector elem ih =>
    intro v buf
    simp only [Save_shape]
    rw [serialize_like_vector_impl__eq (Save_shape elem) (fun x => Save_shape elem x []) ih v buf,
      serialize_like_vector_impl__eq (Save_shape elem) (fun x => Save_shape elem x []) ih v []]
    simp

theorem Save_shape_head (fuel : Nat) : ∀ (s : Shape) (v : s.Val), Shape.valid fuel s v →
    ∃ c tl, Save_shape s v [] = c :: tl ∧ isBlank c = false ∧ c ≠ 93 ∧ c ≠ 125 := by
  intro s
  cases s with
  | signed w =>
    intro v _
    obtain ⟨c, tl, hc⟩ := List.exists_cons_of_ne_nil (to_string_signed_ne_nil v)
    have hm := to_string_signed_mem v c (by simp [hc])
    have h1 := sign_or_digit_not_blank hm
    have h2 := sign_or_digit_not_terminator hm
    refine ⟨c, tl, by simp [Save_shape, Save_signed, hc], h1.1, h1.2, ?_⟩
    rintro rfl
    exact h2 (by decide)
  | string =>
    intro v _
    exact ⟨34, v ++ [34], by simp [Save_shape, Save_string], by decide, by decide, by decide⟩
  | vector elem =>
    intro v _
    refine ⟨91, List.intercalate [44] (v.map fun x => Save_shape elem x []) ++ [93], ?_,
      by decide, by decide, by decide⟩
    simp only [Save_shape]
    rw [serialize_like_vector_impl__eq (Save_shape elem) (fun x => Save_shape elem x [])
      (Save_shape_append elem) v []]
    rfl

theorem Load_shape_of_unread (fuel : Nat) : ∀ (s : Shape) (v : s.Val), Shape.valid fuel s v →
    ∀ (b : ReadBuffer) (t : Byte) (rest : List Byte),
      b.unread = Save_shape s v [] ++ t :: rest → t ∈ arithmetic_terminators →
      Load_shape s fuel b = .ok v (b.Forward (Save_shape s v []).length) := by
  intro s
  induction s with
  | signed w =>
    intro v hv b t rest h ht
    obtain ⟨hw, hlo, hhi⟩ := hv
    have h1 : b.unread = to_string_signed v ++ t :: rest := by
      simpa [Save_shape, Save_signed] using h
    have := Load_signed_of_unread w hw v hlo hhi b t rest h1 ht
    simpa [Load_shape, Save_shape, Save_signed] using this
  | string =>
    intro v hv b t rest h _
    have h1 : b.unread = 34 :: (v ++ 34 :: t :: rest) := by
      simpa [Save_shape, Save_string] using h
    have := Load_string_of_unread v hv b (t :: rest) h1
    simpa [Load_shape, Save_shape, Save_string] using this
  | vector elem ih =>
    intro v hv b t rest h _
    obtain ⟨hlen, hall⟩ := hv
    have htext := serialize_like_vector_impl__eq (Save_shape elem)
      (fun x => Save_shape elem x []) (Save_shape_append elem) v []
    simp only [List.nil_append] at htext
    simp only [Save_shape] at h ⊢
    rw [htext] at h ⊢
    have := deserialize_like_vector_impl__of_unread (Load_shape elem fuel)
      (fun x => Save_shape elem x []) v
      (fun x hx b1 t1 rest1 h1 ht1 => ih x (hall x hx) b1 t1 rest1 h1
        (by rcases ht1 with rfl | rfl <;> decide))
      (fun x hx => by
        obtain ⟨c, tl, hc, hcb, hc93, _⟩ := Save_shape_head fuel elem x (hall x hx)
        exact ⟨c, tl, hc, hcb, hc93⟩)
      fuel hlen [] b (t :: rest) h
    simpa [Load_shape] using this

theorem Tuple.saveables_append : ∀ (ss : List Shape) (t : Tuple ss),
    ∀ e ∈ Tuple.saveables ss t, ∀ buf, e.Save e.val buf = buf ++ e.Save e.val [] := by
  intro ss
  induction ss with
  | nil => intro t e he; simp [Tuple.saveables] at he
  | cons s ss ih =>
    intro t e he buf
    simp only [Tuple.saveables, List.mem_cons] at he
    rcases he with rfl | he
    · exact Save_shape_append s t.1 buf
    · exact ih t.2 e he buf

theorem Tuple.saveables_ne_nil (s : Shape) (ss : List Shape) (t : Tuple (s :: ss)) :
    Tuple.saveables (s :: ss) t ≠ [] := by
  simp [Tuple.saveables]

theorem deserialize_tuple_elements_of_unread (fuel : Nat) :
    ∀ (ss : List Shape) (s : Shape) (t : Tuple (s :: ss)), Tuple.valid fuel (s :: ss) t →
      ∀ (b : ReadBuffer) (rest : List Byte),
        b.unread = List.intercalate [44]
            ((Tuple.saveables (s :: ss) t).map fun e => e.Save e.val []) ++ 93 :: rest →
        deserialize_tuple_elements (s :: ss) fuel b
          = .ok t (b.Forward ((List.intercalate [44]
              ((Tuple.saveables (s :: ss) t).map fun e => e.Save e.val [])).length + 1)) := by
  intro ss
  induction ss with
  | nil =>
    intro s t hv b rest h
    simp only [Tuple.saveables, List.map_cons, List.map_nil, intercalate_singleton] at h ⊢
    have hl := Load_shape_of_unread fuel s t.1 hv.1 b 93 rest h (by decide)
    have hu := unread_Forward h
    have hg := GetCharF_of_unread hu isBlank_93
    simp only [deserialize_tuple_elements, make_tuple_internal_, hl, Res.bind, hg]
    simp [Forward]
    exact ⟨rfl, by omega⟩
  | cons s2 ss ih =>
    intro s t hv b rest h
    simp only [Tuple.saveables, List.map_cons, intercalate_cons_cons, List.append_assoc,
      List.singleton_append] at h ⊢
    have hl := Load_shape_of_unread fuel s t.1 hv.1 b 44 _ h (by decide)
    have hu := unread_Forward h
    have hg := GetCharF_of_unread hu isBlank_44
    have hu2 := unread_Forward_one hu
    have hrec := ih s2 t.2 hv.2 _ rest (by simpa [Tuple.saveables] using hu2)
    simp only [Tuple.saveables, List.map_cons] at hrec
    rw [deserialize_tuple_elements]
    simp only [make_tuple_internal_, hl, Res.bind, hg, hrec]
    simp [Forward]
    omega

/-- C16: a tuple with at least one element, whose elements are signed 32- or 64-bit integers,
strings without a double-quote byte, or sequences of such values (each shorter than the
iteration budget), saved by `Save` and loaded by `deserialize_tuple_impl_`, comes back
unchanged, element by element in order, and the text is consumed through the closing `]`. -/
theorem C16_tuple_roundtrip (s : Shape) (ss : List Shape) (t : Tuple (s :: ss)) (fuel : Nat)
    (hvalid : Tuple.valid fuel (s :: ss) t) :
    deserialize_tuple_impl_ (s :: ss) fuel ⟨Save_tuple (s :: ss) t [], 0⟩
      = .ok t ⟨Save_tuple (s :: ss) t [], (Save_tuple (s :: ss) t []).length⟩ := by
  have htext := serialize_tuple_impl__eq (Tuple.saveables (s :: ss) t)
    (fun e => e.Save e.val []) (Tuple.saveables_append (s :: ss) t)
    (Tuple.saveables_ne_nil s ss t) []
  simp only [List.nil_append] at htext
  have hS : Save_tuple (s :: ss) t [] = 91 :: (List.intercalate [44]
      ((Tuple.saveables (s :: ss) t).map fun e => e.Save e.val []) ++ [93]) := htext
  have hu : (ReadBuffer.mk (Save_tuple (s :: ss) t []) 0).unread
      = 91 :: (List.intercalate [44]
          ((Tuple.saveables (s :: ss) t).map fun e => e.Save e.val []) ++ 93 :: []) := by
    simp [unread, hS]
  have hg := GetCharF_of_unread hu isBlank_91
  have hu1 := unread_Forward_one hu
  have hel := deserialize_tuple_elements_of_unread fuel ss s t hvalid _ [] hu1
  simp only [deserialize_tuple_impl_, hg, Res.bind, MYRPC_ASSERT_EXCEPTION, beq_self_eq_true,
    if_true, hel]
  rw [hS]
  simp [Forward]
  omega

/-- Witness of C16 at a tuple of a 32-bit integer, a string and a sequence of 64-bit
integers. -/
theorem C16_tuple_roundtrip_witness :
    deserialize_tuple_impl_ [.signed 32, .string, .vector (.signed 64)] 3
        ⟨Save_tuple [.signed 32, .string, .vector (.signed 64)]
          ((-5 : Int), bytes "a,b]", ([1, -2] : List Int), ()) [], 0⟩
      = .ok ((-5 : Int), bytes "a,b]", ([1, -2] : List Int), ())
          ⟨Save_tuple [.signed 32, .string, .vector (.signed 64)]
            ((-5 : Int), bytes "a,b]", ([1, -2] : List Int), ()) [],
           (Save_tuple [.signed 32, .string, .vector (.signed 64)]
            ((-5 : Int), bytes "a,b]", ([1, -2] : List Int), ()) []).length⟩ :=
  C16_tuple_roundtrip (.signed 32) [.string, .vector (.signed 64)]
    ((-5 : Int), bytes "a,b]", ([1, -2] : List Int), ()) 3
    (by
      simp only [Tuple.valid, Shape.valid]
      decide)

theorem skipBlank_of_unread (c : Byte) (rest : List Byte) (hc : isBlank c = false) :
    ∀ (ws : List Byte) (b : ReadBuffer) (fuel : Nat) (t : Byte),
      isBlank t = true → (∀ x ∈ ws, isBlank x = true) → b.unread = ws ++ c :: rest →
      ws.length + 2 ≤ fuel →
      skipBlank fuel t b = .ok c (b.Forward (ws.length + 1)) := by
  intro ws
  induction ws with
  | nil =>
    intro b fuel t ht _ h hf
    obtain ⟨f, rfl⟩ : ∃ f, fuel = f + 2 := ⟨fuel - 2, by simp at hf; omega⟩
    simp only [List.nil_append] at h
    simp [skipBlank, ht, GetChar_of_unread h, hc]
  | cons x ws ih =>
    intro b fuel t ht hws h hf
    obtain ⟨f, rfl⟩ : ∃ f, fuel = f + 1 := ⟨fuel - 1, by simp at hf; omega⟩
    simp only [List.cons_append] at h
    have hrec := ih (b.Forward 1) f x (hws x (by simp)) (fun y hy => hws y (by simp [hy]))
      (unread_Forward_one h) (by simp at hf; omega)
    simp only [skipBlank, ht, if_true, GetChar_of_unread h, hrec]
    simp [Forward]
    omega

theorem GetCharF_skip_blanks {b : ReadBuffer} {ws : List Byte} {c : Byte} {rest : List Byte}
    (h : b.unread = ws ++ c :: rest) (hws : ∀ x ∈ ws, isBlank x = true)
    (hc : isBlank c = false) : b.GetCharF = .ok c (b.Forward (ws.length + 1)) := by
  cases ws with
  | nil => simpa using GetCharF_of_unread h hc
  | cons x ws =>
    simp only [List.cons_append] at h
    have hu := unread_Forward_one h
    have hlen : ws.length + 2 ≤ (b.Forward 1).data.length - (b.Forward 1).m_read_idx + 1 := by
      have := congrArg List.length hu
      rw [unread_length] at this
      simp at this
      omega
    have := skipBlank_of_unread c rest hc ws (b.Forward 1) _ x (hws x (by simp))
      (fun y hy => hws y (by simp [hy])) hu hlen
    simp only [GetCharF, GetChar_of_unread h, Res.bind, this]
    simp [Forward]
    omega

theorem deserialize_item_impl__of_unread {β : Type} (LoadVal : ReadBuffer → Res β)
    (encV : List Byte) (key : List Byte) (v : β) (hkey : (34 : Byte) ∉ key) (t : Byte)
    (ht : t = 44 ∨ t = 125)
    (hV : ∀ (b : ReadBuffer) (rest : List Byte), b.unread = encV ++ t :: rest →
      LoadVal b = .ok v (b.Forward encV.length))
    (b : ReadBuffer) (rest : List Byte)
    (h : b.unread = 34 :: (key ++ 34 :: 58 :: encV) ++ t :: rest) :
    deserialize_item_impl_ LoadVal key b
      = .ok v (b.Forward ((34 :: (key ++ 34 :: 58 :: encV)).length + 1)) := by
  have e1 : bytes "\"" = [34] := by decide
  have e2 : bytes "\":" = [34, 58] := by decide
  have h1 : b.unread = bytes "\"" ++ key ++ bytes "\":" ++ encV ++ t :: rest := by
    rw [e1, e2]; simpa using h
  have hkv := deserialize_key_val_impl_string_of_unread LoadVal encV key v hkey t hV b rest h1
  have hu := unread_Forward (by simpa using h1 :
    b.unread = (bytes "\"" ++ key ++ bytes "\":" ++ encV) ++ t :: rest)
  have htb : isBlank t = false := by rcases ht with rfl | rfl <;> decide
  have htc : (t == 44 || t == 125) = true := by rcases ht with rfl | rfl <;> decide
  have hg := GetCharF_of_unread hu htb
  simp only [deserialize_item_impl_, hkv, Res.bind, MYRPC_ASSERT_EXCEPTION, beq_self_eq_true,
    if_true, hg, htc]
  simp [Forward, e1, e2]
  omega

theorem Record.items_append : ∀ (fs : List (List Byte × Shape)) (r : Record fs),
    ∀ it ∈ Record.items fs r, ∀ buf, it.2.Save it.2.val buf = buf ++ it.2.Save it.2.val [] := by
  intro fs
  induction fs with
  | nil => intro r it hit; simp [Record.items] at hit
  | cons f fs ih =>
    intro r it hit buf
    simp only [Record.items, List.mem_cons] at hit
    rcases hit with rfl | hit
    · exact Save_shape_append f.2 r.1 buf
    · exact ih r.2 it hit buf

theorem Load_items_of_unread (fuel : Nat) :
    ∀ (fs : List (List Byte × Shape)) (f : List Byte × Shape) (r : Record (f :: fs)),
      Record.valid fuel (f :: fs) r →
      ∀ (b : ReadBuffer) (rest : List Byte),
        b.unread = List.intercalate [44]
            ((Record.items (f :: fs) r).map fun it =>
              34 :: (it.1 ++ 34 :: 58 :: it.2.Save it.2.val [])) ++ 125 :: rest →
        Load_items (f :: fs) fuel b
          = .ok r (b.Forward ((List.intercalate [44]
              ((Record.items (f :: fs) r).map fun it =>
                34 :: (it.1 ++ 34 :: 58 :: it.2.Save it.2.val []))).length + 1)) := by
  intro fs
  induction fs with
  | nil =>
    intro f r hv b rest h
    simp only [Record.items, List.map_cons, List.map_nil, intercalate_singleton] at h ⊢
    have hl := deserialize_item_impl__of_unread (Load_shape f.2 fuel) (Save_shape f.2 r.1 [])
      f.1 r.1 hv.1 125 (Or.inr rfl)
      (fun b1 rest1 h1 => Load_shape_of_unread fuel f.2 r.1 hv.2.1 b1 125 rest1 h1 (by decide))
      b rest h
    simp only [Load_items, hl, Res.bind]
    simp [Forward]
    rfl
  | cons f2 fs ih =>
    intro f r hv b rest h
    simp only [Record.items, List.map_cons, intercalate_cons_cons, List.append_assoc,
      List.singleton_append] at h ⊢
    have hl := deserialize_item_impl__of_unread (Load_shape f.2 fuel) (Save_shape f.2 r.1 [])
      f.1 r.1 hv.1 44 (Or.inl rfl)
      (fun b1 rest1 h1 => Load_shape_of_unread fuel f.2 r.1 hv.2.1 b1 44 rest1 h1 (by decide))
      b _ h
    have hu := unread_Forward h
    have hu2 := unread_Forward_one hu
    have hrec := ih f2 r.2 hv.2.2 _ rest hu2
    rw [Forward_Forward] at hrec
    rw [Load_items]
    simp only [hl, Res.bind, hrec]
    simp [Forward, Record.items]
    omega

/-- C17: a record with at least one member, whose member names hold no double-quote byte and
whose values are signed 32- or 64-bit integers, strings without a double-quote byte, or
sequences of such values, saved with `SAVE_BEGIN` / `SAVE_ITEM` / `SAVE_END` and loaded with
`LOAD_BEGIN` / `LOAD_ITEM` / `LOAD_END` over the same members in the same order, comes back
equal member by member, and the text is consumed through the closing `}`. -/
theorem C17_record_roundtrip (f : List Byte × Shape) (fs : List (List Byte × Shape))
    (r : Record (f :: fs)) (fuel : Nat) (hvalid : Record.valid fuel (f :: fs) r) :
    Load_struct (f :: fs) fuel ⟨Save_struct (Record.items (f :: fs) r) [], 0⟩
      = .ok r ⟨Save_struct (Record.items (f :: fs) r) [],
          (Save_struct (Record.items (f :: fs) r) []).length⟩ := by
  have htext := Save_struct_eq (Record.items (f :: fs) r) (fun e => e.Save e.val [])
    (Record.items_append (f :: fs) r) (by simp [Record.items]) []
  simp only [List.nil_append] at htext
  have hu : (ReadBuffer.mk (Save_struct (Record.items (f :: fs) r) []) 0).unread
      = 123 :: (List.intercalate [44]
          ((Record.items (f :: fs) r).map fun it =>
            34 :: (it.1 ++ 34 :: 58 :: it.2.Save it.2.val [])) ++ 125 :: []) := by
    simp [unread, htext]
  have hg := GetCharF_of_unread hu isBlank_123
  have hu1 := unread_Forward_one hu
  have hit := Load_items_of_unread fuel fs f r hvalid _ [] hu1
  simp only [Load_struct, deserialize_struct_begin_impl_, deserialize_struct_end_impl_, hg,
    Res.bind, MYRPC_ASSERT_EXCEPTION, beq_self_eq_true, if_true, hit]
  rw [htext]
  simp [Forward]
  omega

/-- Witness of C17 at a record with the members `id` (32-bit integer) and `name` (string). -/
theorem C17_record_roundtrip_witness :
    Load_struct [(bytes "id", .signed 32), (bytes "name", .string)] 1
        ⟨Save_struct (Record.items [(bytes "id", .signed 32), (bytes "name", .string)]
          ((7 : Int), bytes "bob", ())) [], 0⟩
      = .ok ((7 : Int), bytes "bob", ())
          ⟨Save_struct (Record.items [(bytes "id", .signed 32), (bytes "name", .string)]
            ((7 : Int), bytes "bob", ())) [],
           (Save_struct (Record.items [(bytes "id", .signed 32), (bytes "name", .string)]
            ((7 : Int), bytes "bob", ())) []).length⟩ :=
  C17_record_roundtrip (bytes "id", .signed 32) [(bytes "name", .string)]
    ((7 : Int), bytes "bob", ()) 1
    (by
      simp only [Record.valid, Shape.valid]
      decide)

/-! ### The key and the separator of a record member -/

/-- C18 (as stated, for every value type): with an integer member, the input `"a":1 x,` holds
the well-formed `"a":1` followed by a blank and the byte `x`, which is neither `,` nor `}`,
and `deserialize_item_impl_` succeeds with the value 1 (the numeric token runs up to the next
`,`, and `stoull` ignores what follows the digits); on the input `"a":1 x` the error raised
is the network error, not a `JsonDeserializerException`. -/
theorem C18_integer_member_counterexample :
    bytes "\"a\":1 x," = bytes "\"a\":" ++ to_string_signed 1 ++ [32] ++ 120 :: bytes ","
    ∧ deserialize_item_impl_ (Load_signed 32) (bytes "a") ⟨bytes "\"a\":1 x,", 0⟩
        = .ok 1 ⟨bytes "\"a\":1 x,", 8⟩
    ∧ deserialize_item_impl_ (Load_signed 32) (bytes "a") ⟨bytes "\"a\":1 x", 0⟩
        = .throw .NetException ⟨bytes "\"a\":1 x", 4⟩ := by
  decide

/-- C18 (amended): for every expected name `key` and every input that holds `"k":` followed by
a value on which the `Load` of the member's type returns normally, `c` being the first byte
after the blanks that this `Load` leaves unread: `deserialize_item_impl_(key, val)` succeeds
if and only if `k` equals `key` and `c` is `,` or `}`, and in every other case it raises a
`JsonDeserializerException` (before reading `c` when the names differ). -/
theorem C18_item_key_and_separator {β : Type} (LoadVal : ReadBuffer → Res β)
    (key k : List Byte) (v : β) (hk : (34 : Byte) ∉ k) (b b1 : ReadBuffer)
    (tail ws rest : List Byte) (c : Byte)
    (h : b.unread = bytes "\"" ++ k ++ bytes "\":" ++ tail)
    (hV : LoadVal (b.Forward (k.length + 3)) = .ok v b1)
    (hu : b1.unread = ws ++ c :: rest) (hws : ∀ x ∈ ws, isBlank x = true)
    (hc : isBlank c = false) :
    deserialize_item_impl_ LoadVal key b
      = if key = k then
          if c = 44 ∨ c = 125 then .ok v (b1.Forward (ws.length + 1))
          else .throw (.JsonDeserializerException (b1.Forward (ws.length + 1)).GetPos)
            (b1.Forward (ws.length + 1))
        else .throw (.JsonDeserializerException b1.GetPos) b1 := by
  have e1 : bytes "\"" = [34] := by decide
  have e2 : bytes "\":" = [34, 58] := by decide
  rw [e1, e2] at h
  have h0 : b.unread = 34 :: (k ++ 34 :: (58 :: tail)) := by simpa using h
  have l1 := Load_string_of_unread k hk b _ h0
  have h1 : b.unread = (34 :: (k ++ [34])) ++ (58 :: tail) := by simpa using h
  have u1 := unread_Forward h1
  have hlen : (34 :: (k ++ [34])).length = k.length + 2 := by simp
  rw [hlen] at u1
  have g1 := GetCharF_of_unread u1 isBlank_58
  rw [Forward_Forward] at g1
  have g2 := GetCharF_skip_blanks hu hws hc
  simp only [deserialize_item_impl_, deserialize_key_val_impl_string, l1, Res.bind, g1,
    MYRPC_ASSERT_EXCEPTION, beq_self_eq_true, if_true, hV]
  by_cases hkey : key = k
  · subst hkey
    simp only [beq_self_eq_true, if_true, g2]
    by_cases hc1 : c = 44 ∨ c = 125
    · have : (c == 44 || c == 125) = true := by rcases hc1 with rfl | rfl <;> decide
      simp [this, hc1]
    · have : (c == 44 || c == 125) = false := by
        simp only [not_or] at hc1
        simp [hc1.1, hc1.2]
      simp [this, hc1]
  · have : (key == k) = false := by simpa using hkey
    simp [this, hkey]

/-- Witness of C18 (amended): the member `a` read from `"a":"v"  ]`, where the byte after the
blanks is `]`. -/
theorem C18_item_key_and_separator_witness :
    deserialize_item_impl_ Load_string (bytes "a") ⟨bytes "\"a\":\"v\"  ]", 0⟩
      = if bytes "a" = bytes "a" then
          if (93 : Byte) = 44 ∨ (93 : Byte) = 125 then
            .ok (bytes "v") ((ReadBuffer.mk (bytes "\"a\":\"v\"  ]") 7).Forward (2 + 1))
          else .throw (.JsonDeserializerException
              ((ReadBuffer.mk (bytes "\"a\":\"v\"  ]") 7).Forward (2 + 1)).GetPos)
            ((ReadBuffer.mk (bytes "\"a\":\"v\"  ]") 7).Forward (2 + 1))
        else .throw (.JsonDeserializerException
            (ReadBuffer.mk (bytes "\"a\":\"v\"  ]") 7).GetPos)
          (ReadBuffer.mk (bytes "\"a\":\"v\"  ]") 7) :=
  C18_item_key_and_separator Load_string (bytes "a") (bytes "a") (bytes "v") (by decide)
    ⟨bytes "\"a\":\"v\"  ]", 0⟩ ⟨bytes "\"a\":\"v\"  ]", 7⟩ (bytes "\"v\"  ]") [32, 32] []
    93 (by decide) (by decide) (by decide) (by decide) (by decide)

/-! ### `ReadUntil` -/

theorem ReadUntil_loop_throw (c : List Byte) (prev : Nat) :
    ∀ (fuel : Nat) (b : ReadBuffer) (e : Exception) (b1 : ReadBuffer),
      ReadUntil_loop c prev fuel b = .throw e b1 →
      e = .NetException ∧ b1.data = b.data ∧ b1.m_read_idx = prev := by
  intro fuel
  induction fuel with
  | zero => intro b e b1 h; simp [ReadUntil_loop] at h
  | succ f ih =>
    intro b e b1 h
    unfold ReadUntil_loop at h
    rcases GetChar_cases b with ⟨_, t, hc⟩ | ⟨_, hc⟩
    · rw [hc] at h
      simp only at h
      split at h
      · exact Res.noConfusion h
      · have := ih (b.Forward 1) e b1 h
        simpa [Forward] using this
    · rw [hc] at h
      simp only [Res.throw.injEq] at h
      obtain ⟨h1, h2⟩ := h
      subst h1 h2
      exact ⟨rfl, rfl, rfl⟩

theorem ReadUntil_loop_of_no_terminator (c : List Byte) (prev : Nat) :
    ∀ (p : List Byte) (b : ReadBuffer) (fuel : Nat),
      b.unread = p → (∀ x ∈ p, x ∉ c) → p.length < fuel →
      ReadUntil_loop c prev fuel b = .throw .NetException ⟨b.data, prev⟩ := by
  intro p
  induction p with
  | nil =>
    intro b fuel h _ hf
    obtain ⟨f, rfl⟩ : ∃ f, fuel = f + 1 := ⟨fuel - 1, by simp at hf; omega⟩
    simp [ReadUntil_loop, GetChar_of_unread_nil h]
  | cons x p ih =>
    intro b fuel h hx hf
    obtain ⟨f, rfl⟩ : ∃ f, fuel = f + 1 := ⟨fuel - 1, by simp at hf; omega⟩
    have hx0 : x ∉ c := hx x (by simp)
    have h1 : (b.Forward 1).unread = p := unread_Forward_one h
    have := ih (b.Forward 1) f h1 (fun y hy => hx y (by simp [hy])) (by simp at hf; omega)
    simp only [ReadUntil_loop, GetChar_of_unread h, hx0, if_false, this]
    rfl

/-- C19: when the source runs out during the scan of `ReadUntil`, after any number of bytes
none of which is a terminator, `GetChar` raises the network error, and the error leaves
`ReadUntil` with the buffer as it was at the call (`m_read_idx` restored); every exception
that leaves `ReadUntil` is that network error with `m_read_idx` at its value on entry. -/
theorem C19_ReadUntil_restores_read_idx (c : List Byte) (b : ReadBuffer) :
    ((∀ x ∈ b.unread, x ∉ c) → b.ReadUntil c = .throw .NetException b)
    ∧ (∀ (e : Exception) (b1 : ReadBuffer), b.ReadUntil c = .throw e b1 →
        e = .NetException ∧ b1.m_read_idx = b.m_read_idx ∧ b1.data = b.data) := by
  constructor
  · intro h
    have := ReadUntil_loop_of_no_terminator c b.m_read_idx b.unread b
      (b.data.length - b.m_read_idx + 1) rfl h (by rw [unread_length]; omega)
    simp [ReadUntil, this, Res.bind]
  · intro e b1 h
    unfold ReadUntil at h
    simp only [Res.bind] at h
    split at h
    · exact Res.noConfusion h
    · rename_i e0 b0 hloop
      simp only [Res.throw.injEq] at h
      obtain ⟨h1, h2⟩ := h
      subst h1 h2
      obtain ⟨ha, hb, hc⟩ := ReadUntil_loop_throw c b.m_read_idx _ b _ _ hloop
      exact ⟨ha, hc, hb⟩
    · exact Res.noConfusion h

/-- Witness of C19: three bytes are scanned from position 5 before the source runs out. -/
theorem C19_ReadUntil_restores_read_idx_witness :
    (ReadBuffer.mk (bytes "[1,2,345") 5).ReadUntil [44, 125, 93]
        = .throw .NetException ⟨bytes "[1,2,345", 5⟩
    ∧ (∀ (e : Exception) (b1 : ReadBuffer),
        (ReadBuffer.mk (bytes "[1,2,345") 5).ReadUntil [44, 125, 93] = .throw e b1 →
        e = .NetException ∧ b1.m_read_idx = 5 ∧ b1.data = bytes "[1,2,345") :=
  ⟨(C19_ReadUntil_restores_read_idx [44, 125, 93] ⟨bytes "[1,2,345", 5⟩).1 (by decide),
   (C19_ReadUntil_restores_read_idx [44, 125, 93] ⟨bytes "[1,2,345", 5⟩).2⟩

/-- C20: when the unread bytes are `p ++ [t] ++ rest` with `t` a terminator and no terminator
in `p`, `ReadUntil` returns exactly `p`, the read position has advanced by the length of `p`
and stands at `t`, and the next `GetChar` returns `t`. -/
theorem C20_ReadUntil_stops_at_terminator (c : List Byte) (b : ReadBuffer) (p : List Byte)
    (t : Byte) (rest : List Byte) (h : b.unread = p ++ t :: rest)
    (hp : ∀ x ∈ p, x ∉ c) (ht : t ∈ c) :
    ∃ b1, b.ReadUntil c = .ok p b1
      ∧ b1.data = b.data
      ∧ b1.m_read_idx = b.m_read_idx + p.length
      ∧ b1.unread = t :: rest
      ∧ b1.GetChar = .ok t (b1.Forward 1) := by
  have hu : (b.Forward p.length).unread = t :: rest := unread_Forward h
  exact ⟨b.Forward p.length, ReadUntil_of_unread h hp ht, rfl, rfl, hu, GetChar_of_unread hu⟩

/-- Witness of C20: the token `12` of `[12,3]` read from position 1. -/
theorem C20_ReadUntil_stops_at_terminator_witness :
    ∃ b1, (ReadBuffer.mk (bytes "[12,3]") 1).ReadUntil [44, 125, 93] = .ok (bytes "12") b1
      ∧ b1.data = bytes "[12,3]"
      ∧ b1.m_read_idx = 1 + (bytes "12").length
      ∧ b1.unread = 44 :: bytes "3]"
      ∧ b1.GetChar = .ok 44 (b1.Forward 1) :=
  C20_ReadUntil_stops_at_terminator [44, 125, 93] ⟨bytes "[12,3]", 1⟩ (bytes "12") 44
    (bytes "3]") (by decide) (by decide) (by decide)

open FiberSync JsonRPC

/-! ### `GetCharF` and `PeekCharF` -/

theorem PeekCharF_skip_blanks {b : ReadBuffer} {ws : List Byte} {c : Byte} {rest : List Byte}
    (h : b.unread = ws ++ c :: rest) (hws : ∀ x ∈ ws, isBlank x = true)
    (hc : isBlank c = false) : b.PeekCharF = .ok c (b.Forward ws.length) := by
  cases ws with
  | nil => simpa [Forward_zero] using PeekCharF_of_unread h hc
  | cons x ws =>
    simp only [List.cons_append] at h
    have hu := unread_Forward_one h
    have hlen : ws.length + 2 ≤ (b.Forward 1).data.length - (b.Forward 1).m_read_idx + 1 := by
      have := congrArg List.length hu
      rw [unread_length] at this
      simp at this
      omega
    have := skipBlank_of_unread c rest hc ws (b.Forward 1) _ x (hws x (by simp))
      (fun y hy => hws y (by simp [hy])) hu hlen
    simp only [PeekCharF, GetChar_of_unread h, Res.bind, this]
    simp [Forward]
    omega

/-- C21: when the unread bytes are `w ++ [c] ++ rest` with `w` made of space, tab, newline
and carriage-return bytes only and `c` none of these, `GetCharF` returns `c` and leaves the
read position just after `c`; `PeekCharF` returns `c` and leaves the read position at `c`,
and the next `GetChar` returns `c` again. -/
theorem C21_GetCharF_PeekCharF_skip_blanks (b : ReadBuffer) (w : List Byte) (c : Byte)
    (rest : List Byte) (h : b.unread = w ++ c :: rest)
    (hw : ∀ x ∈ w, x = 32 ∨ x = 9 ∨ x = 10 ∨ x = 13)
    (hc : c ≠ 32 ∧ c ≠ 9 ∧ c ≠ 10 ∧ c ≠ 13) :
    b.GetCharF = .ok c ⟨b.data, b.m_read_idx + w.length + 1⟩
    ∧ (ReadBuffer.mk b.data (b.m_read_idx + w.length + 1)).unread = rest
    ∧ b.PeekCharF = .ok c ⟨b.data, b.m_read_idx + w.length⟩
    ∧ (ReadBuffer.mk b.data (b.m_read_idx + w.length)).unread = c :: rest
    ∧ (ReadBuffer.mk b.data (b.m_read_idx + w.length)).GetChar
        = .ok c ⟨b.data, b.m_read_idx + w.length + 1⟩ := by
  have hws : ∀ x ∈ w, isBlank x = true := by
    intro x hx
    rcases hw x hx with rfl | rfl | rfl | rfl <;> decide
  have hcb : isBlank c = false := by
    simp only [isBlank, Bool.or_eq_false_iff, beq_eq_false_iff_ne]
    exact ⟨⟨⟨hc.1, hc.2.1⟩, hc.2.2.1⟩, hc.2.2.2⟩
  have hu : (b.Forward w.length).unread = c :: rest := unread_Forward h
  have hu1 : ((b.Forward w.length).Forward 1).unread = rest := unread_Forward_one hu
  refine ⟨?_, ?_, ?_, hu, ?_⟩
  · rw [GetCharF_skip_blanks h hws hcb]; simp [Forward, Nat.add_assoc]
  · simpa [Forward] using hu1
  · rw [PeekCharF_skip_blanks h hws hcb]; rfl
  · have := GetChar_of_unread hu
    simpa [Forward] using this

/-- Witness of C21 at the buffer `,  \n[1]` read from position 1. -/
theorem C21_GetCharF_PeekCharF_skip_blanks_witness :
    (ReadBuffer.mk (bytes ",  \n[1]") 1).GetCharF
        = .ok 91 ⟨bytes ",  \n[1]", 1 + (bytes "  \n").length + 1⟩
    ∧ (ReadBuffer.mk (bytes ",  \n[1]") (1 + (bytes "  \n").length + 1)).unread = bytes "1]"
    ∧ (ReadBuffer.mk (bytes ",  \n[1]") 1).PeekCharF
        = .ok 91 ⟨bytes ",  \n[1]", 1 + (bytes "  \n").length⟩
    ∧ (ReadBuffer.mk (bytes ",  \n[1]") (1 + (bytes "  \n").length)).unread
        = 91 :: bytes "1]"
    ∧ (ReadBuffer.mk (bytes ",  \n[1]") (1 + (bytes "  \n").length)).GetChar
        = .ok 91 ⟨bytes ",  \n[1]", 1 + (bytes "  \n").length + 1⟩ :=
  C21_GetCharF_PeekCharF_skip_blanks ⟨bytes ",  \n[1]", 1⟩ (bytes "  \n") 91 (bytes "1]")
    (by decide) (by decide) (by decide)

/-! ### The exceptions of `Load` -/

/-- C22: `[x]` loaded as a sequence of 32-bit integers ends in the `invalid_argument` of
`std::stoull`, and a token above `ULLONG_MAX` in its `out_of_range`; neither is a
`JsonDeserializerException` and neither carries a position. A wrong opening bracket raises
`JsonDeserializerException` with the read position after the offending byte. -/
theorem C22_numeric_token_exceptions (fuel : Nat) :
    deserialize_like_vector_impl_ (Load_signed 32) (fuel + 1) [] ⟨bytes "[x]", 0⟩
        = .throw .invalid_argument ⟨bytes "[x]", 2⟩
    ∧ deserialize_like_vector_impl_ (Load_signed 32) (fuel + 1) []
          ⟨bytes "[18446744073709551616]", 0⟩
        = .throw .out_of_range ⟨bytes "[18446744073709551616]", 21⟩
    ∧ deserialize_like_vector_impl_ (Load_signed 32) (fuel + 1) [] ⟨bytes "(1]", 0⟩
        = .throw (.JsonDeserializerException 1) ⟨bytes "(1]", 1⟩ := by
  refine ⟨rfl, rfl, rfl⟩

/-! ### `Mutex::tryLock` -/

theorem tryLock_run_locked : ∀ (n : Nat) (m : Mutex), m.m_lock = true →
    (tryLock_run n m).1.count true = 0 ∧ (tryLock_run n m).2.m_lock = true := by
  intro n
  induction n with
  | zero => intro m h; exact ⟨rfl, h⟩
  | succ n ih =>
    intro m h
    have := ih (Mutex.tryLock m).2 rfl
    simp only [tryLock_run, Mutex.tryLock, h] at this ⊢
    simpa using this

/-- C23: `tryLock` is one atomic test-and-set: it returns true exactly when the flag was clear
before the call, the flag is set after the call in both cases, the wait queue is untouched,
and in a run of `n` calls with nothing in between at most one call returns true. -/
theorem C23_tryLock (m : Mutex) (n : Nat) :
    ((Mutex.tryLock m).1 = true ↔ m.m_lock = false)
    ∧ (Mutex.tryLock m).2.m_lock = true
    ∧ (Mutex.tryLock m).2.m_wait_queue = m.m_wait_queue
    ∧ (tryLock_run n m).1.length = n
    ∧ (tryLock_run n m).1.count true ≤ 1 := by
  refine ⟨by simp [Mutex.tryLock], rfl, rfl, ?_, ?_⟩
  · induction n generalizing m with
    | zero => rfl
    | succ n ih => simp [tryLock_run, ih]
  · cases n with
    | zero => simp [tryLock_run]
    | succ n =>
      have := (tryLock_run_locked n (Mutex.tryLock m).2 rfl).1
      simp only [tryLock_run, List.count_cons, this]
      split <;> simp

/-! ### `RWMutex`

The counts of `RWInv` change only at the fiber that moves, so each statement of the four
functions is checked on its own: `RWInv_call` for the calls, one lemma for each statement, and
`RWInv_run` for a whole interleaving. -/

theorem sum_map_set (g : Fiber → Nat) :
    ∀ (l : List Fiber) (i : Nat) (f b : Fiber), l[i]? = some f →
      ((l.set i b).map g).sum + g f = (l.map g).sum + g b := by
  intro l
  induction l with
  | nil => intro i f b h; simp at h
  | cons a l ih =>
    intro i f b h
    cases i with
    | zero =>
      simp at h
      subst h
      simp only [List.set_cons_zero, List.map_cons, List.sum_cons]
      omega
    | succ i =>
      simp at h
      have := ih i f b h
      simp only [List.set_cons_succ, List.map_cons, List.sum_cons]
      omega

theorem le_sum_map (g : Fiber → Nat) :
    ∀ (l : List Fiber) (i : Nat) (f : Fiber), l[i]? = some f → g f ≤ (l.map g).sum := by
  intro l
  induction l with
  | nil => intro i f h; simp at h
  | cons a l ih =>
    intro i f h
    cases i with
    | zero =>
      simp at h
      subst h
      simp only [List.map_cons, List.sum_cons]
      omega
    | succ i =>
      simp at h
      have := ih i f h
      simp only [List.map_cons, List.sum_cons]
      omega

theorem shared_holders_set (l : List Fiber) (i : Nat) (f b : Fiber) (h : l[i]? = some f) :
    f.shared ≤ shared_holders l
    ∧ shared_holders (l.set i b) = shared_holders l + b.shared - f.shared := by
  have h1 := sum_map_set Fiber.shared l i f b h
  have h2 := le_sum_map Fiber.shared l i f h
  simp only [shared_holders]
  omega

theorem exclusive_holders_set (l : List Fiber) (i : Nat) (f b : Fiber) (h : l[i]? = some f) :
    (if f.exclusive = true then 1 else 0) ≤ exclusive_holders l
    ∧ exclusive_holders (l.set i b)
        = exclusive_holders l + (if b.exclusive = true then 1 else 0)
          - (if f.exclusive = true then 1 else 0) := by
  have h1 := sum_map_set (fun f => if f.exclusive = true then 1 else 0) l i f b h
  have h2 := le_sum_map (fun f => if f.exclusive = true then 1 else 0) l i f h
  beta_reduce at h1 h2
  simp only [exclusive_holders]
  omega

theorem fibers_at_set (l : List Fiber) (i : Nat) (f b : Fiber) (h : l[i]? = some f) (pc : PC) :
    (if f.pc = pc then 1 else 0) ≤ fibers_at pc l
    ∧ fibers_at pc (l.set i b)
        = fibers_at pc l + (if b.pc = pc then 1 else 0) - (if f.pc = pc then 1 else 0) := by
  have h1 := sum_map_set (fun f => if f.pc = pc then 1 else 0) l i f b h
  have h2 := le_sum_map (fun f => if f.pc = pc then 1 else 0) l i f h
  beta_reduce at h1 h2
  simp only [fibers_at]
  omega

theorem counts_set (l : List Fiber) (i : Nat) (pc0 : PC) (sh : Nat) (ex : Bool)
    (hf : l[i]? = some ⟨pc0, sh, ex⟩) :
    (∀ b : Fiber, sh ≤ shared_holders l
      ∧ shared_holders (l.set i b) = shared_holders l + b.shared - sh)
    ∧ (∀ b : Fiber, (if ex = true then 1 else 0) ≤ exclusive_holders l
      ∧ exclusive_holders (l.set i b)
        = exclusive_holders l + (if b.exclusive = true then 1 else 0)
          - (if ex = true then 1 else 0))
    ∧ (∀ (b : Fiber) (pc : PC), (if pc0 = pc then 1 else 0) ≤ fibers_at pc l
      ∧ fibers_at pc (l.set i b)
        = fibers_at pc l + (if b.pc = pc then 1 else 0) - (if pc0 = pc then 1 else 0))
    ∧ 1 ≤ fibers_at pc0 l := by
  refine ⟨fun b => shared_holders_set l i _ b hf, fun b => exclusive_holders_set l i _ b hf,
    fun b pc => fibers_at_set l i _ b hf pc, ?_⟩
  have := (fibers_at_set l i _ ⟨.idle, 0, false⟩ hf pc0).1
  simpa using this

theorem RWInv_init (n : Nat) : RWInv (RWState.init n) := by
  have hs : shared_holders (List.replicate n ⟨PC.idle, 0, false⟩) = 0 := by
    simp [shared_holders]
  have hx : exclusive_holders (List.replicate n ⟨PC.idle, 0, false⟩) = 0 := by
    simp [exclusive_holders]
  have hp : ∀ pc, pc ≠ PC.idle → fibers_at pc (List.replicate n ⟨PC.idle, 0, false⟩) = 0 := by
    intro pc hpc
    simp [fibers_at, Ne.symm hpc]
  constructor <;>
    simp [RWState.init, RWMutex.init, hs, hx, hp, read_lock_holders, write_lock_readers,
      first_reader_waiting]

theorem RWInv_call (s s1 : RWState) (i : Nat) (c : Call) (h : RWInv s)
    (hs : RWStep s (.call i c) = some s1) : RWInv s1 := by
  obtain ⟨⟨⟨wl, wq⟩, ⟨rl, rq⟩, m, rb⟩, l⟩ := s
  obtain ⟨hr, hcount, hw, hzero⟩ := h
  simp only [read_lock_holders, write_lock_readers, first_reader_waiting]
    at hr hcount hw hzero
  simp only [RWStep] at hs
  cases hf : l[i]? with
  | none => simp [hf] at hs
  | some f =>
    obtain ⟨pc, sh, ex⟩ := f
    obtain ⟨hS, hX, hP, hP1⟩ := counts_set l i _ sh ex hf
    have hS1 := (hS ⟨.idle, 0, false⟩).1
    have hX1 := (hX ⟨.idle, 0, false⟩).1
    simp only [hf] at hs
    by_cases hpc : pc = PC.idle
    · subst hpc
      cases c with
      | lock_shared =>
        simp at hs
        subst hs
        refine ⟨?_, ?_, ?_, ?_⟩ <;>
          simp only [read_lock_holders, write_lock_readers, first_reader_waiting,
            (hS _).2, (hX _).2, (hP _ _).2] <;>
          simp only [reduceCtorEq, PC.lock_shared.injEq, PC.unlock_shared.injEq, ↓reduceIte] <;>
          omega
      | unlock_shared =>
        by_cases hsh : 0 < sh
        · simp [hsh] at hs
          subst hs
          simp at hS1
          refine ⟨?_, ?_, ?_, ?_⟩ <;>
            simp only [read_lock_holders, write_lock_readers, first_reader_waiting,
              (hS _).2, (hX _).2, (hP _ _).2] <;>
            simp only [reduceCtorEq, PC.lock_shared.injEq, PC.unlock_shared.injEq, ↓reduceIte] <;>
            omega
        · simp [hsh] at hs
      | lock =>
        simp at hs
        subst hs
        refine ⟨?_, ?_, ?_, ?_⟩ <;>
          simp only [read_lock_holders, write_lock_readers, first_reader_waiting,
            (hS _).2, (hX _).2, (hP _ _).2] <;>
          simp only [reduceCtorEq, PC.lock_shared.injEq, PC.unlock_shared.injEq, ↓reduceIte] <;>
          omega
      | unlock =>
        cases ex with
        | false => simp at hs
        | true =>
          simp at hs
          subst hs
          simp at hX1
          refine ⟨?_, ?_, ?_, ?_⟩ <;>
            simp only [read_lock_holders, write_lock_readers, first_reader_waiting,
              (hS _).2, (hX _).2, (hP _ _).2] <;>
            simp only [reduceCtorEq, PC.lock_shared.injEq, PC.unlock_shared.injEq, ↓reduceIte] <;>
            omega
    · simp [hpc] at hs

theorem RWInv_lock_shared_read_tryLock (s s1 : RWState) (i : Nat) (f : Fiber) (h : RWInv s)
    (hf : s.fibers[i]? = some f) (hpc : f.pc = PC.lock_shared .read_tryLock)
    (hs : RWStep s (.step i) = some s1) : RWInv s1 := by
  obtain ⟨⟨⟨wl, wq⟩, ⟨rl, rq⟩, m, rb⟩, l⟩ := s
  obtain ⟨hr, hcount, hw, hzero⟩ := h
  simp only [read_lock_holders, write_lock_readers, first_reader_waiting]
    at hr hcount hw hzero
  obtain ⟨pc0, sh, ex⟩ := f
  simp only at hpc hf
  subst hpc
  have hrl : rl.toNat ≤ 1 := Bool.toNat_le rl
  have hwl : wl.toNat ≤ 1 := Bool.toNat_le wl
  obtain ⟨hS, hX, hP, hP1⟩ := counts_set l i _ sh ex hf
  have hS1 := (hS ⟨.idle, 0, false⟩).1
  have hX1 := (hX ⟨.idle, 0, false⟩).1
  simp only [RWStep, hf] at hs
  cases rl <;>
    (simp [RWMutex.lock_shared, Mutex.tryLock, Mutex.lock, Mutex.unlock] at hs
     subst hs
     refine ⟨?_, ?_, ?_, ?_⟩ <;>
      simp only [read_lock_holders, write_lock_readers, first_reader_waiting,
        (hS _).2, (hX _).2, (hP _ _).2] <;>
      simp only [reduceCtorEq, PC.lock_shared.injEq, PC.unlock_shared.injEq, ↓reduceIte,
        Bool.toNat_true, Bool.toNat_false, eq_self, Nat.add_zero, Nat.sub_zero]
        at hr hw hP1 hX1 hrl hwl ⊢ <;>
      omega)

theorem RWInv_lock_shared_reader_blocked (s s1 : RWState) (i : Nat) (f : Fiber) (h : RWInv s)
    (hf : s.fibers[i]? = some f) (hpc : f.pc = PC.lock_shared .reader_blocked)
    (hs : RWStep s (.step i) = some s1) : RWInv s1 := by
  obtain ⟨⟨⟨wl, wq⟩, ⟨rl, rq⟩, m, rb⟩, l⟩ := s
  obtain ⟨hr, hcount, hw, hzero⟩ := h
  simp only [read_lock_holders, write_lock_readers, first_reader_waiting]
    at hr hcount hw hzero
  obtain ⟨pc0, sh, ex⟩ := f
  simp only at hpc hf
  subst hpc
  have hrl : rl.toNat ≤ 1 := Bool.toNat_le rl
  have hwl : wl.toNat ≤ 1 := Bool.toNat_le wl
  obtain ⟨hS, hX, hP, hP1⟩ := counts_set l i _ sh ex hf
  have hS1 := (hS ⟨.idle, 0, false⟩).1
  have hX1 := (hX ⟨.idle, 0, false⟩).1
  simp only [RWStep, hf] at hs
  cases rb <;>
    (simp [RWMutex.lock_shared, Mutex.tryLock, Mutex.lock, Mutex.unlock] at hs
     subst hs
     refine ⟨?_, ?_, ?_, ?_⟩ <;>
      simp only [read_lock_holders, write_lock_readers, first_reader_waiting,
        (hS _).2, (hX _).2, (hP _ _).2] <;>
      simp only [reduceCtorEq, PC.lock_shared.injEq, PC.unlock_shared.injEq, ↓reduceIte,
        Bool.toNat_true, Bool.toNat_false, eq_self, Nat.add_zero, Nat.sub_zero]
        at hr hw hP1 hX1 hrl hwl ⊢ <;>
      omega)

theorem RWInv_lock_shared_read_lock (s s1 : RWState) (i : Nat) (f : Fiber) (h : RWInv s)
    (hf : s.fibers[i]? = some f) (hpc : f.pc = PC.lock_shared .read_lock)
    (hs : RWStep s (.step i) = some s1) : RWInv s1 := by
  obtain ⟨⟨⟨wl, wq⟩, ⟨rl, rq⟩, m, rb⟩, l⟩ := s
  obtain ⟨hr, hcount, hw, hzero⟩ := h
  simp only [read_lock_holders, write_lock_readers, first_reader_waiting]
    at hr hcount hw hzero
  obtain ⟨pc0, sh, ex⟩ := f
  simp only at hpc hf
  subst hpc
  have hrl : rl.toNat ≤ 1 := Bool.toNat_le rl
  have hwl : wl.toNat ≤ 1 := Bool.toNat_le wl
  obtain ⟨hS, hX, hP, hP1⟩ := counts_set l i _ sh ex hf
  have hS1 := (hS ⟨.idle, 0, false⟩).1
  have hX1 := (hX ⟨.idle, 0, false⟩).1
  simp only [RWStep, hf] at hs
  cases rl <;>
    (simp [RWMutex.lock_shared, Mutex.tryLock, Mutex.lock, Mutex.unlock] at hs
     subst hs
     refine ⟨?_, ?_, ?_, ?_⟩ <;>
      simp only [read_lock_holders, write_lock_readers, first_reader_waiting,
        (hS _).2, (hX _).2, (hP _ _).2] <;>
      simp only [reduceCtorEq, PC.lock_shared.injEq, PC.unlock_shared.injEq, ↓reduceIte,
        Bool.toNat_true, Bool.toNat_false, eq_self, Nat.add_zero, Nat.sub_zero]
        at hr hw hP1 hX1 hrl hwl ⊢ <;>
      omega)

theorem RWInv_lock_shared_write_tryLock (s s1 : RWState) (i : Nat) (f : Fiber) (h : RWInv s)
    (hf : s.fibers[i]? = some f) (hpc : f.pc = PC.lock_shared .write_tryLock)
    (hs : RWStep s (.step i) = some s1) : RWInv s1 := by
  obtain ⟨⟨⟨wl, wq⟩, ⟨rl, rq⟩, m, rb⟩, l⟩ := s
  obtain ⟨hr, hcount, hw, hzero⟩ := h
  simp only [read_lock_holders, write_lock_readers, first_reader_waiting]
    at hr hcount hw hzero
  obtain ⟨pc0, sh, ex⟩ := f
  simp only at hpc hf
  subst hpc
  have hrl : rl.toNat ≤ 1 := Bool.toNat_le rl
  have hwl : wl.toNat ≤ 1 := Bool.toNat_le wl
  obtain ⟨hS, hX, hP, hP1⟩ := counts_set l i _ sh ex hf
  have hS1 := (hS ⟨.idle, 0, false⟩).1
  have hX1 := (hX ⟨.idle, 0, false⟩).1
  simp only [RWStep, hf] at hs
  cases wl <;>
    (simp [RWMutex.lock_shared, Mutex.tryLock, Mutex.lock, Mutex.unlock] at hs
     subst hs
     refine ⟨?_, ?_, ?_, ?_⟩ <;>
      simp only [read_lock_holders, write_lock_readers, first_reader_waiting,
        (hS _).2, (hX _).2, (hP _ _).2] <;>
      simp only [reduceCtorEq, PC.lock_shared.injEq, PC.unlock_shared.injEq, ↓reduceIte,
        Bool.toNat_true, Bool.toNat_false, eq_self, Nat.add_zero, Nat.sub_zero]
        at hr hw hP1 hX1 hrl hwl ⊢ <;>
      omega)

theorem RWInv_lock_shared_set_blocked (s s1 : RWState) (i : Nat) (f : Fiber) (h : RWInv s)
    (hf : s.fibers[i]? = some f) (hpc : f.pc = PC.lock_shared .set_blocked)
    (hs : RWStep s (.step i) = some s1) : RWInv s1 := by
  obtain ⟨⟨⟨wl, wq⟩, ⟨rl, rq⟩, m, rb⟩, l⟩ := s
  obtain ⟨hr, hcount, hw, hzero⟩ := h
  simp only [read_lock_holders, write_lock_readers, first_reader_waiting]
    at hr hcount hw hzero
  obtain ⟨pc0, sh, ex⟩ := f
  simp only at hpc hf
  subst hpc
  have hrl : rl.toNat ≤ 1 := Bool.toNat_le rl
  have hwl : wl.toNat ≤ 1 := Bool.toNat_le wl
  obtain ⟨hS, hX, hP, hP1⟩ := counts_set l i _ sh ex hf
  have hS1 := (hS ⟨.idle, 0, false⟩).1
  have hX1 := (hX ⟨.idle, 0, false⟩).1
  simp only [RWStep, hf] at hs
  simp [RWMutex.lock_shared, Mutex.tryLock, Mutex.lock, Mutex.unlock] at hs
  subst hs
  refine ⟨?_, ?_, ?_, ?_⟩ <;>
      simp only [read_lock_holders, write_lock_readers, first_reader_waiting,
        (hS _).2, (hX _).2, (hP _ _).2] <;>
      simp only [reduceCtorEq, PC.lock_shared.injEq, PC.unlock_shared.injEq, ↓reduceIte,
        Bool.toNat_true, Bool.toNat_false, eq_self, Nat.add_zero, Nat.sub_zero]
        at hr hw hP1 hX1 hrl hwl ⊢ <;>
      omega

theorem RWInv_lock_shared_write_lock (s s1 : RWState) (i : Nat) (f : Fiber) (h : RWInv s)
    (hf : s.fibers[i]? = some f) (hpc : f.pc = PC.lock_shared .write_lock)
    (hs : RWStep s (.step i) = some s1) : RWInv s1 := by
  obtain ⟨⟨⟨wl, wq⟩, ⟨rl, rq⟩, m, rb⟩, l⟩ := s
  obtain ⟨hr, hcount, hw, hzero⟩ := h
  simp only [read_lock_holders, write_lock_readers, first_reader_waiting]
    at hr hcount hw hzero
  obtain ⟨pc0, sh, ex⟩ := f
  simp only at hpc hf
  subst hpc
  have hrl : rl.toNat ≤ 1 := Bool.toNat_le rl
  have hwl : wl.toNat ≤ 1 := Bool.toNat_le wl
  obtain ⟨hS, hX, hP, hP1⟩ := counts_set l i _ sh ex hf
  have hS1 := (hS ⟨.idle, 0, false⟩).1
  have hX1 := (hX ⟨.idle, 0, false⟩).1
  simp only [RWStep, hf] at hs
  cases wl <;>
    (simp [RWMutex.lock_shared, Mutex.tryLock, Mutex.lock, Mutex.unlock] at hs
     subst hs
     refine ⟨?_, ?_, ?_, ?_⟩ <;>
      simp only [read_lock_holders, write_lock_readers, first_reader_waiting,
        (hS _).2, (hX _).2, (hP _ _).2] <;>
      simp only [reduceCtorEq, PC.lock_shared.injEq, PC.unlock_shared.injEq, ↓reduceIte,
        Bool.toNat_true, Bool.toNat_false, eq_self, Nat.add_zero, Nat.sub_zero]
        at hr hw hP1 hX1 hrl hwl ⊢ <;>
      omega)

theorem RWInv_lock_shared_clear_blocked (s s1 : RWState) (i : Nat) (f : Fiber) (h : RWInv s)
    (hf : s.fibers[i]? = some f) (hpc : f.pc = PC.lock_shared .clear_blocked)
    (hs : RWStep s (.step i) = some s1) : RWInv s1 := by
  obtain ⟨⟨⟨wl, wq⟩, ⟨rl, rq⟩, m, rb⟩, l⟩ := s
  obtain ⟨hr, hcount, hw, hzero⟩ := h
  simp only [read_lock_holders, write_lock_readers, first_reader_waiting]
    at hr hcount hw hzero
  obtain ⟨pc0, sh, ex⟩ := f
  simp only at hpc hf
  subst hpc
  have hrl : rl.toNat ≤ 1 := Bool.toNat_le rl
  have hwl : wl.toNat ≤ 1 := Bool.toNat_le wl
  obtain ⟨hS, hX, hP, hP1⟩ := counts_set l i _ sh ex hf
  have hS1 := (hS ⟨.idle, 0, false⟩).1
  have hX1 := (hX ⟨.idle, 0, false⟩).1
  simp only [RWStep, hf] at hs
  simp [RWMutex.lock_shared, Mutex.tryLock, Mutex.lock, Mutex.unlock] at hs
  subst hs
  refine ⟨?_, ?_, ?_, ?_⟩ <;>
      simp only [read_lock_holders, write_lock_readers, first_reader_waiting,
        (hS _).2, (hX _).2, (hP _ _).2] <;>
      simp only [reduceCtorEq, PC.lock_shared.injEq, PC.unlock_shared.injEq, ↓reduceIte,
        Bool.toNat_true, Bool.toNat_false, eq_self, Nat.add_zero, Nat.sub_zero]
        at hr hw hP1 hX1 hrl hwl ⊢ <;>
      omega

theorem RWInv_lock_shared_read_unlock (s s1 : RWState) (i : Nat) (f : Fiber) (h : RWInv s)
    (hf : s.fibers[i]? = some f) (hpc : f.pc = PC.lock_shared .read_unlock)
    (hs : RWStep s (.step i) = some s1) : RWInv s1 := by
  obtain ⟨⟨⟨wl, wq⟩, ⟨rl, rq⟩, m, rb⟩, l⟩ := s
  obtain ⟨hr, hcount, hw, hzero⟩ := h
  simp only [read_lock_holders, write_lock_readers, first_reader_waiting]
    at hr hcount hw hzero
  obtain ⟨pc0, sh, ex⟩ := f
  simp only at hpc hf
  subst hpc
  have hrl : rl.toNat ≤ 1 := Bool.toNat_le rl
  have hwl : wl.toNat ≤ 1 := Bool.toNat_le wl
  obtain ⟨hS, hX, hP, hP1⟩ := counts_set l i _ sh ex hf
  have hS1 := (hS ⟨.idle, 0, false⟩).1
  have hX1 := (hX ⟨.idle, 0, false⟩).1
  simp only [RWStep, hf] at hs
  cases ex <;>
    (simp [RWMutex.lock_shared, Mutex.tryLock, Mutex.lock, Mutex.unlock] at hs
     subst hs
     refine ⟨?_, ?_, ?_, ?_⟩ <;>
      simp only [read_lock_holders, write_lock_readers, first_reader_waiting,
        (hS _).2, (hX _).2, (hP _ _).2] <;>
      simp only [reduceCtorEq, PC.lock_shared.injEq, PC.unlock_shared.injEq, ↓reduceIte,
        Bool.toNat_true, Bool.toNat_false, eq_self, Nat.add_zero, Nat.sub_zero]
        at hr hw hP1 hX1 hrl hwl ⊢ <;>
      omega)

theorem RWInv_lock_shared_incr (s s1 : RWState) (i : Nat) (f : Fiber) (h : RWInv s)
    (hf : s.fibers[i]? = some f) (hpc : f.pc = PC.lock_shared .incr)
    (hs : RWStep s (.step i) = some s1) : RWInv s1 := by
  obtain ⟨⟨⟨wl, wq⟩, ⟨rl, rq⟩, m, rb⟩, l⟩ := s
  obtain ⟨hr, hcount, hw, hzero⟩ := h
  simp only [read_lock_holders, write_lock_readers, first_reader_waiting]
    at hr hcount hw hzero
  obtain ⟨pc0, sh, ex⟩ := f
  simp only at hpc hf
  subst hpc
  have hrl : rl.toNat ≤ 1 := Bool.toNat_le rl
  have hwl : wl.toNat ≤ 1 := Bool.toNat_le wl
  obtain ⟨hS, hX, hP, hP1⟩ := counts_set l i _ sh ex hf
  have hS1 := (hS ⟨.idle, 0, false⟩).1
  have hX1 := (hX ⟨.idle, 0, false⟩).1
  simp only [RWStep, hf] at hs
  by_cases hlt : m < 2147483647
  · by_cases hm : m = 0
    · simp [RWMutex.lock_shared, Mutex.tryLock, Mutex.lock, Mutex.unlock, hm] at hs
      subst hs
      refine ⟨?_, ?_, ?_, ?_⟩ <;>
      simp only [read_lock_holders, write_lock_readers, first_reader_waiting,
        (hS _).2, (hX _).2, (hP _ _).2] <;>
      simp only [reduceCtorEq, PC.lock_shared.injEq, PC.unlock_shared.injEq, ↓reduceIte,
        Bool.toNat_true, Bool.toNat_false, eq_self, Nat.add_zero, Nat.sub_zero]
        at hr hw hP1 hX1 hrl hwl ⊢ <;>
      omega
    · simp [RWMutex.lock_shared, Mutex.tryLock, Mutex.lock, Mutex.unlock, hm, hlt] at hs
      subst hs
      refine ⟨?_, ?_, ?_, ?_⟩ <;>
      simp only [read_lock_holders, write_lock_readers, first_reader_waiting,
        (hS _).2, (hX _).2, (hP _ _).2] <;>
      simp only [reduceCtorEq, PC.lock_shared.injEq, PC.unlock_shared.injEq, ↓reduceIte,
        Bool.toNat_true, Bool.toNat_false, eq_self, Nat.add_zero, Nat.sub_zero]
        at hr hw hP1 hX1 hrl hwl ⊢ <;>
      omega
  · simp [RWMutex.lock_shared, Mutex.tryLock, Mutex.lock, Mutex.unlock, hlt] at hs

theorem RWInv_unlock_shared_read_tryLock (s s1 : RWState) (i : Nat) (f : Fiber) (h : RWInv s)
    (hf : s.fibers[i]? = some f) (hpc : f.pc = PC.unlock_shared .read_tryLock)
    (hs : RWStep s (.step i) = some s1) : RWInv s1 := by
  obtain ⟨⟨⟨wl, wq⟩, ⟨rl, rq⟩, m, rb⟩, l⟩ := s
  obtain ⟨hr, hcount, hw, hzero⟩ := h
  simp only [read_lock_holders, write_lock_readers, first_reader_waiting]
    at hr hcount hw hzero
  obtain ⟨pc0, sh, ex⟩ := f
  simp only at hpc hf
  subst hpc
  have hrl : rl.toNat ≤ 1 := Bool.toNat_le rl
  have hwl : wl.toNat ≤ 1 := Bool.toNat_le wl
  obtain ⟨hS, hX, hP, hP1⟩ := counts_set l i _ sh ex hf
  have hS1 := (hS ⟨.idle, 0, false⟩).1
  have hX1 := (hX ⟨.idle, 0, false⟩).1
  simp only [RWStep, hf] at hs
  cases rl <;>
    (simp [RWMutex.unlock_shared, Mutex.tryLock, Mutex.lock, Mutex.unlock] at hs
     subst hs
     refine ⟨?_, ?_, ?_, ?_⟩ <;>
      simp only [read_lock_holders, write_lock_readers, first_reader_waiting,
        (hS _).2, (hX _).2, (hP _ _).2] <;>
      simp only [reduceCtorEq, PC.lock_shared.injEq, PC.unlock_shared.injEq, ↓reduceIte,
        Bool.toNat_true, Bool.toNat_false, eq_self, Nat.add_zero, Nat.sub_zero]
        at hr hw hP1 hX1 hrl hwl ⊢ <;>
      omega)

theorem RWInv_unlock_shared_write_unlock (s s1 : RWState) (i : Nat) (f : Fiber) (h : RWInv s)
    (hf : s.fibers[i]? = some f) (hpc : f.pc = PC.unlock_shared .write_unlock)
    (hs : RWStep s (.step i) = some s1) : RWInv s1 := by
  obtain ⟨⟨⟨wl, wq⟩, ⟨rl, rq⟩, m, rb⟩, l⟩ := s
  obtain ⟨hr, hcount, hw, hzero⟩ := h
  simp only [read_lock_holders, write_lock_readers, first_reader_waiting]
    at hr hcount hw hzero
  obtain ⟨pc0, sh, ex⟩ := f
  simp only at hpc hf
  subst hpc
  have hrl : rl.toNat ≤ 1 := Bool.toNat_le rl
  have hwl : wl.toNat ≤ 1 := Bool.toNat_le wl
  obtain ⟨hS, hX, hP, hP1⟩ := counts_set l i _ sh ex hf
  have hS1 := (hS ⟨.idle, 0, false⟩).1
  have hX1 := (hX ⟨.idle, 0, false⟩).1
  simp only [RWStep, hf] at hs
  simp [RWMutex.unlock_shared, Mutex.tryLock, Mutex.lock, Mutex.unlock] at hs
  subst hs
  refine ⟨?_, ?_, ?_, ?_⟩ <;>
      simp only [read_lock_holders, write_lock_readers, first_reader_waiting,
        (hS _).2, (hX _).2, (hP _ _).2] <;>
      simp only [reduceCtorEq, PC.lock_shared.injEq, PC.unlock_shared.injEq, ↓reduceIte,
        Bool.toNat_true, Bool.toNat_false, eq_self, Nat.add_zero, Nat.sub_zero]
        at hr hw hP1 hX1 hrl hwl ⊢ <;>
      omega

theorem RWInv_unlock_shared_read_unlock (s s1 : RWState) (i : Nat) (f : Fiber) (h : RWInv s)
    (hf : s.fibers[i]? = some f) (hpc : f.pc = PC.unlock_shared .read_unlock)
    (hs : RWStep s (.step i) = some s1) : RWInv s1 := by
  obtain ⟨⟨⟨wl, wq⟩, ⟨rl, rq⟩, m, rb⟩, l⟩ := s
  obtain ⟨hr, hcount, hw, hzero⟩ := h
  simp only [read_lock_holders, write_lock_readers, first_reader_waiting]
    at hr hcount hw hzero
  obtain ⟨pc0, sh, ex⟩ := f
  simp only at hpc hf
  subst hpc
  have hrl : rl.toNat ≤ 1 := Bool.toNat_le rl
  have hwl : wl.toNat ≤ 1 := Bool.toNat_le wl
  obtain ⟨hS, hX, hP, hP1⟩ := counts_set l i _ sh ex hf
  have hS1 := (hS ⟨.idle, 0, false⟩).1
  have hX1 := (hX ⟨.idle, 0, false⟩).1
  simp only [RWStep, hf] at hs
  simp [RWMutex.unlock_shared, Mutex.tryLock, Mutex.lock, Mutex.unlock] at hs
  subst hs
  refine ⟨?_, ?_, ?_, ?_⟩ <;>
      simp only [read_lock_holders, write_lock_readers, first_reader_waiting,
        (hS _).2, (hX _).2, (hP _ _).2] <;>
      simp only [reduceCtorEq, PC.lock_shared.injEq, PC.unlock_shared.injEq, ↓reduceIte,
        Bool.toNat_true, Bool.toNat_false, eq_self, Nat.add_zero, Nat.sub_zero]
        at hr hw hP1 hX1 hrl hwl ⊢ <;>
      omega

theorem RWInv_unlock_shared_decr (s s1 : RWState) (i : Nat) (f : Fiber) (h : RWInv s)
    (hf : s.fibers[i]? = some f) (hpc : f.pc = PC.unlock_shared .decr)
    (hs : RWStep s (.step i) = some s1) : RWInv s1 := by
  obtain ⟨⟨⟨wl, wq⟩, ⟨rl, rq⟩, m, rb⟩, l⟩ := s
  obtain ⟨hr, hcount, hw, hzero⟩ := h
  simp only [read_lock_holders, write_lock_readers, first_reader_waiting]
    at hr hcount hw hzero
  obtain ⟨pc0, sh, ex⟩ := f
  simp only at hpc hf
  subst hpc
  have hrl : rl.toNat ≤ 1 := Bool.toNat_le rl
  have hwl : wl.toNat ≤ 1 := Bool.toNat_le wl
  obtain ⟨hS, hX, hP, hP1⟩ := counts_set l i _ sh ex hf
  have hS1 := (hS ⟨.idle, 0, false⟩).1
  have hX1 := (hX ⟨.idle, 0, false⟩).1
  simp only [RWStep, hf] at hs
  by_cases hlt : -2147483648 < m
  · by_cases hm : m - 1 = 0
    · simp [RWMutex.unlock_shared, Mutex.tryLock, Mutex.lock, Mutex.unlock, hm, hlt] at hs
      subst hs
      refine ⟨?_, ?_, ?_, ?_⟩ <;>
      simp only [read_lock_holders, write_lock_readers, first_reader_waiting,
        (hS _).2, (hX _).2, (hP _ _).2] <;>
      simp only [reduceCtorEq, PC.lock_shared.injEq, PC.unlock_shared.injEq, ↓reduceIte,
        Bool.toNat_true, Bool.toNat_false, eq_self, Nat.add_zero, Nat.sub_zero]
        at hr hw hP1 hX1 hrl hwl ⊢ <;>
      first | omega | exact fun _ => trivial
    · simp [RWMutex.unlock_shared, Mutex.tryLock, Mutex.lock, Mutex.unlock, hm, hlt] at hs
      subst hs
      refine ⟨?_, ?_, ?_, ?_⟩ <;>
      simp only [read_lock_holders, write_lock_readers, first_reader_waiting,
        (hS _).2, (hX _).2, (hP _ _).2] <;>
      simp only [reduceCtorEq, PC.lock_shared.injEq, PC.unlock_shared.injEq, ↓reduceIte,
        Bool.toNat_true, Bool.toNat_false, eq_self, Nat.add_zero, Nat.sub_zero]
        at hr hw hP1 hX1 hrl hwl ⊢ <;>
      omega
  · simp [RWMutex.unlock_shared, Mutex.tryLock, Mutex.lock, Mutex.unlock, hlt] at hs

theorem RWInv_lock (s s1 : RWState) (i : Nat) (f : Fiber) (h : RWInv s)
    (hf : s.fibers[i]? = some f) (hpc : f.pc = PC.lock)
    (hs : RWStep s (.step i) = some s1) : RWInv s1 := by
  obtain ⟨⟨⟨wl, wq⟩, ⟨rl, rq⟩, m, rb⟩, l⟩ := s
  obtain ⟨hr, hcount, hw, hzero⟩ := h
  simp only [read_lock_holders, write_lock_readers, first_reader_waiting]
    at hr hcount hw hzero
  obtain ⟨pc0, sh, ex⟩ := f
  simp only at hpc hf
  subst hpc
  have hrl : rl.toNat ≤ 1 := Bool.toNat_le rl
  have hwl : wl.toNat ≤ 1 := Bool.toNat_le wl
  obtain ⟨hS, hX, hP, hP1⟩ := counts_set l i _ sh ex hf
  have hS1 := (hS ⟨.idle, 0, false⟩).1
  have hX1 := (hX ⟨.idle, 0, false⟩).1
  simp only [RWStep, hf] at hs
  cases ex <;> cases wl <;>
    (simp [RWMutex.lock, Mutex.tryLock, Mutex.lock] at hs
     subst hs
     refine ⟨?_, ?_, ?_, ?_⟩ <;>
      simp only [read_lock_holders, write_lock_readers, first_reader_waiting,
        (hS _).2, (hX _).2, (hP _ _).2] <;>
      simp only [reduceCtorEq, PC.lock_shared.injEq, PC.unlock_shared.injEq, ↓reduceIte,
        Bool.toNat_true, Bool.toNat_false, eq_self, Nat.add_zero, Nat.sub_zero]
        at hr hw hP1 hX1 hrl hwl ⊢ <;>
      omega)

theorem RWInv_unlock (s s1 : RWState) (i : Nat) (f : Fiber) (h : RWInv s)
    (hf : s.fibers[i]? = some f) (hpc : f.pc = PC.unlock)
    (hs : RWStep s (.step i) = some s1) : RWInv s1 := by
  obtain ⟨⟨⟨wl, wq⟩, ⟨rl, rq⟩, m, rb⟩, l⟩ := s
  obtain ⟨hr, hcount, hw, hzero⟩ := h
  simp only [read_lock_holders, write_lock_readers, first_reader_waiting]
    at hr hcount hw hzero
  obtain ⟨pc0, sh, ex⟩ := f
  simp only at hpc hf
  subst hpc
  have hrl : rl.toNat ≤ 1 := Bool.toNat_le rl
  have hwl : wl.toNat ≤ 1 := Bool.toNat_le wl
  obtain ⟨hS, hX, hP, hP1⟩ := counts_set l i _ sh ex hf
  have hS1 := (hS ⟨.idle, 0, false⟩).1
  have hX1 := (hX ⟨.idle, 0, false⟩).1
  simp only [RWStep, hf] at hs
  cases ex <;>
    (simp [RWMutex.unlock, Mutex.unlock] at hs
     subst hs
     refine ⟨?_, ?_, ?_, ?_⟩ <;>
      simp only [read_lock_holders, write_lock_readers, first_reader_waiting,
        (hS _).2, (hX _).2, (hP _ _).2] <;>
      simp only [reduceCtorEq, PC.lock_shared.injEq, PC.unlock_shared.injEq, ↓reduceIte,
        Bool.toNat_true, Bool.toNat_false, eq_self, Nat.add_zero, Nat.sub_zero]
        at hr hw hP1 hX1 hrl hwl ⊢ <;>
      omega)

theorem RWInv_step (s s1 : RWState) (a : Action) (h : RWInv s) (hs : RWStep s a = some s1) :
    RWInv s1 := by
  cases a with
  | call i c => exact RWInv_call s s1 i c h hs
  | step i =>
    cases hf : s.fibers[i]? with
    | none => simp [RWStep, hf] at hs
    | some f =>
      cases hpc : f.pc with
      | idle => simp [RWStep, hf, hpc] at hs
      | lock_shared pc =>
        cases pc with
        | read_tryLock => exact RWInv_lock_shared_read_tryLock s s1 i f h hf hpc hs
        | reader_blocked => exact RWInv_lock_shared_reader_blocked s s1 i f h hf hpc hs
        | read_lock => exact RWInv_lock_shared_read_lock s s1 i f h hf hpc hs
        | incr => exact RWInv_lock_shared_incr s s1 i f h hf hpc hs
        | write_tryLock => exact RWInv_lock_shared_write_tryLock s s1 i f h hf hpc hs
        | set_blocked => exact RWInv_lock_shared_set_blocked s s1 i f h hf hpc hs
        | write_lock => exact RWInv_lock_shared_write_lock s s1 i f h hf hpc hs
        | clear_blocked => exact RWInv_lock_shared_clear_blocked s s1 i f h hf hpc hs
        | read_unlock => exact RWInv_lock_shared_read_unlock s s1 i f h hf hpc hs
      | unlock_shared pc =>
        cases pc with
        | read_tryLock => exact RWInv_unlock_shared_read_tryLock s s1 i f h hf hpc hs
        | decr => exact RWInv_unlock_shared_decr s s1 i f h hf hpc hs
        | write_unlock => exact RWInv_unlock_shared_write_unlock s s1 i f h hf hpc hs
        | read_unlock => exact RWInv_unlock_shared_read_unlock s s1 i f h hf hpc hs
      | lock => exact RWInv_lock s s1 i f h hf hpc hs
      | unlock => exact RWInv_unlock s s1 i f h hf hpc hs

theorem RWInv_run (acts : List Action) :
    ∀ (s s1 : RWState), RWInv s → RWRun acts s = some s1 → RWInv s1 := by
  induction acts with
  | nil =>
    intro s s1 h hs
    simp only [RWRun, Option.some.injEq] at hs
    exact hs ▸ h
  | cons a rest ih =>
    intro s s1 h hs
    simp only [RWRun] at hs
    cases ha : RWStep s a with
    | none => simp [ha] at hs
    | some s2 =>
      simp only [ha] at hs
      exact ih s2 s1 (RWInv_step s s2 a h ha) hs

/-- What the invariant says about the holders of the locks. -/
theorem RWInv_holders (s : RWState) (h : RWInv s) :
    (0 < shared_holders s.fibers →
        s.rw.write_lock.m_lock = true ∧ exclusive_holders s.fibers = 0)
    ∧ exclusive_holders s.fibers ≤ 1
    ∧ (0 < exclusive_holders s.fibers → s.rw.write_lock.m_lock = true)
    ∧ (first_reader_waiting s.fibers = 0 →
        (0 < s.rw.m_reader → s.rw.write_lock.m_lock = true)
        ∧ ¬ (0 < exclusive_holders s.fibers ∧ 0 < s.rw.m_reader))
    ∧ (s.rw.read_lock.m_lock = false → first_reader_waiting s.fibers = 0) := by
  obtain ⟨⟨⟨wl, wq⟩, ⟨rl, rq⟩, m, rb⟩, l⟩ := s
  obtain ⟨hr, hcount, hw, hzero⟩ := h
  simp only [read_lock_holders, write_lock_readers, first_reader_waiting]
    at hr hcount hw hzero ⊢
  cases wl <;> cases rl <;>
    simp only [Bool.toNat_true, Bool.toNat_false, reduceCtorEq, eq_self, true_and, false_and,
      imp_false, implies_true, and_true, forall_const, false_implies] at hr hw ⊢ <;>
    omega

/-- C24, counterexample: with a writer holding the exclusive lock, a first reader that calls
`lock_shared` takes the read lock, raises `m_reader` to 1, fails `write_lock.tryLock()`, sets
`reader_blocked` and parks in `write_lock.lock()`: an exclusive holder coexists with a reader
count of 1. When the writer then calls `unlock()`, the reader count is 1 and the write lock
is free. -/
theorem C24_parked_reader_counterexample :
    (∃ s, RWRun [.call 0 .lock, .step 0, .call 1 .lock_shared, .step 1, .step 1, .step 1,
          .step 1, .step 1] (RWState.init 2) = some s
        ∧ s = ⟨⟨⟨true, []⟩, ⟨true, []⟩, 1, true⟩,
            [⟨.idle, 0, true⟩, ⟨.lock_shared .write_lock, 0, false⟩]⟩
        ∧ 0 < exclusive_holders s.fibers ∧ 0 < s.rw.m_reader)
    ∧ (∃ s, RWRun [.call 0 .lock, .step 0, .call 1 .lock_shared, .step 1, .step 1, .step 1,
          .step 1, .step 1, .call 0 .unlock, .step 0] (RWState.init 2) = some s
        ∧ s = ⟨⟨⟨false, []⟩, ⟨true, []⟩, 1, true⟩,
            [⟨.idle, 0, false⟩, ⟨.lock_shared .write_lock, 0, false⟩]⟩
        ∧ 0 < s.rw.m_reader ∧ s.rw.write_lock.m_lock = false) :=
  ⟨⟨_, by decide, rfl, by decide, by decide⟩, ⟨_, by decide, rfl, by decide, by decide⟩⟩

/-- C24, amended: in every state reached from the initial state by the statements of
`lock_shared`, `unlock_shared`, `lock` and `unlock`, run by any number of fibers in any
interleaving (`unlock_shared` called by a fiber that holds a shared lock, `unlock` by the
fiber that holds the exclusive lock):
* while a shared lock is held, the write lock is held and no fiber holds the exclusive lock;
  at most one fiber holds the exclusive lock, and then the write lock is held;
* while no first reader stands between `++m_reader == 1` and its acquisition of the write
  lock, and so whenever the read lock is free, the write lock is held whenever the reader
  count is above 0 and no exclusive holder coexists with a positive reader count;
* the `read_lock.unlock()` that ends `lock_shared` or `unlock_shared` can always be executed,
  and it leaves the read lock free and a state in which the write lock is held whenever the
  reader count is above 0 and no exclusive holder coexists with a positive reader count. -/
theorem C24_RWMutex_invariant (n : Nat) (acts : List Action) (s : RWState) (i : Nat)
    (h : RWRun acts (RWState.init n) = some s) :
    (0 < shared_holders s.fibers →
        s.rw.write_lock.m_lock = true ∧ exclusive_holders s.fibers = 0)
    ∧ exclusive_holders s.fibers ≤ 1
    ∧ (0 < exclusive_holders s.fibers → s.rw.write_lock.m_lock = true)
    ∧ (first_reader_waiting s.fibers = 0 →
        (0 < s.rw.m_reader → s.rw.write_lock.m_lock = true)
        ∧ ¬ (0 < exclusive_holders s.fibers ∧ 0 < s.rw.m_reader))
    ∧ (s.rw.read_lock.m_lock = false → first_reader_waiting s.fibers = 0)
    ∧ (returns_shared s i = true →
        ∃ s1, RWStep s (.step i) = some s1
          ∧ s1.rw.read_lock.m_lock = false
          ∧ (0 < s1.rw.m_reader → s1.rw.write_lock.m_lock = true)
          ∧ ¬ (0 < exclusive_holders s1.fibers ∧ 0 < s1.rw.m_reader)) := by
  have hinv : RWInv s := RWInv_run acts _ s (RWInv_init n) h
  obtain ⟨h1, h2, h3, h4, h5⟩ := RWInv_holders s hinv
  refine ⟨h1, h2, h3, h4, h5, ?_⟩
  intro hret
  have hstep : ∃ s1, RWStep s (.step i) = some s1 ∧ s1.rw.read_lock.m_lock = false := by
    simp only [returns_shared] at hret
    cases hf : s.fibers[i]? with
    | none => simp [hf] at hret
    | some f =>
      simp only [hf, Bool.or_eq_true, decide_eq_true_eq] at hret
      rcases hret with hpc | hpc <;>
        simp [RWStep, hf, hpc, RWMutex.lock_shared, RWMutex.unlock_shared, Mutex.unlock]
  obtain ⟨s1, hs1, hfree⟩ := hstep
  obtain ⟨_, _, _, k4, k5⟩ := RWInv_holders s1 (RWInv_step s s1 _ hinv hs1)
  exact ⟨s1, hs1, hfree, k4 (k5 hfree)⟩

/-- Witness of C24: a writer takes the exclusive lock, a first reader parks in
`write_lock.lock()`, the writer unlocks, and the reader acquires the write lock and stands at
the `read_lock.unlock()` that ends its `lock_shared`. -/
theorem C24_RWMutex_invariant_witness :
    RWRun [.call 0 .lock, .step 0, .call 1 .lock_shared, .step 1, .step 1, .step 1, .step 1,
        .step 1, .call 0 .unlock, .step 0, .step 1, .step 1] (RWState.init 2)
      = some ⟨⟨⟨true, []⟩, ⟨true, []⟩, 1, false⟩,
          [⟨.idle, 0, false⟩, ⟨.lock_shared .read_unlock, 0, false⟩]⟩
    ∧ ∃ s1, RWStep ⟨⟨⟨true, []⟩, ⟨true, []⟩, 1, false⟩,
          [⟨.idle, 0, false⟩, ⟨.lock_shared .read_unlock, 0, false⟩]⟩ (.step 1) = some s1
        ∧ s1.rw.read_lock.m_lock = false
        ∧ (0 < s1.rw.m_reader → s1.rw.write_lock.m_lock = true)
        ∧ ¬ (0 < exclusive_holders s1.fibers ∧ 0 < s1.rw.m_reader) :=
  ⟨by decide,
    (C24_RWMutex_invariant 2
      [.call 0 .lock, .step 0, .call 1 .lock_shared, .step 1, .step 1, .step 1, .step 1,
        .step 1, .call 0 .unlock, .step 0, .step 1, .step 1]
      ⟨⟨⟨true, []⟩, ⟨true, []⟩, 1, false⟩,
        [⟨.idle, 0, false⟩, ⟨.lock_shared .read_unlock, 0, false⟩]⟩ 1 (by decide)).2.2.2.2.2
      (by decide)⟩

/-! ### The connection handler -/

theorem JsonRPCConnHandler_served (r : Incoming) (rest : List Incoming)
    (h1 : r.parse_method = Error.NO_ERROR) (h2 : r.method = bytes "sum")
    (h3 : r.parse_request = Error.NO_ERROR) :
    JsonRPCConnHandler (r :: rest) = served r ++ JsonRPCConnHandler rest := by
  simp [JsonRPCConnHandler, served, h1, h2, h3]

/-- C25: in a connection whose earlier requests were `sum` requests served without error, a
request whose method name parses and is not `sum` makes the handler call `ParseMethod`, set
`METHOD_NOT_FOUND` on the protocol object, send one response and flush the write buffer, and
then return: no `ParseRequest`, no call of `sum`, and the requests after it are not read. -/
theorem C25_unknown_method_ends_connection (pre : List Incoming) (req : Incoming)
    (post : List Incoming)
    (hpre : ∀ r ∈ pre, r.parse_method = Error.NO_ERROR ∧ r.method = bytes "sum"
      ∧ r.parse_request = Error.NO_ERROR)
    (h1 : req.parse_method = Error.NO_ERROR) (h2 : req.method ≠ bytes "sum") :
    JsonRPCConnHandler (pre ++ req :: post)
      = (pre.map served).flatten
        ++ [Event.ParseMethod, Event.SetError Error.METHOD_NOT_FOUND,
            Event.SendResponse none, Event.Flush] := by
  induction pre with
  | nil => simp [JsonRPCConnHandler, h1, h2]
  | cons r pre ih =>
    obtain ⟨a, b, c⟩ := hpre r (by simp)
    rw [List.cons_append, JsonRPCConnHandler_served r _ a b c,
      ih (fun x hx => hpre x (by simp [hx]))]
    simp

/-- Witness of C25: a `sum` request, then the request `nope`, then a request that is never
read. -/
theorem C25_unknown_method_ends_connection_witness :
    JsonRPCConnHandler
        ([⟨Error.NO_ERROR, bytes "sum", Error.NO_ERROR, [1, 2, 3, 4]⟩]
          ++ ⟨Error.NO_ERROR, bytes "nope", Error.NO_ERROR, []⟩
            :: [⟨Error.NO_ERROR, bytes "sum", Error.NO_ERROR, [5]⟩])
      = ([(⟨Error.NO_ERROR, bytes "sum", Error.NO_ERROR, [1, 2, 3, 4]⟩ : Incoming)].map
            served).flatten
        ++ [Event.ParseMethod, Event.SetError Error.METHOD_NOT_FOUND,
            Event.SendResponse none, Event.Flush] :=
  C25_unknown_method_ends_connection
    [⟨Error.NO_ERROR, bytes "sum", Error.NO_ERROR, [1, 2, 3, 4]⟩]
    ⟨Error.NO_ERROR, bytes "nope", Error.NO_ERROR, []⟩
    [⟨Error.NO_ERROR, bytes "sum", Error.NO_ERROR, [5]⟩] (by decide) (by decide) (by decide)

/-! ### `Clear` -/

theorem Clear_loop_all_terminal : ∀ (q : List (Status × Int)),
    (∀ e ∈ q, e.1 = Status.TERMINAL) → Clear_loop q = .done [] := by
  intro q
  induction q with
  | nil => intro _; rfl
  | cons e q ih =>
    intro h
    obtain ⟨fb, tid⟩ := e
    have h1 : fb = Status.TERMINAL := h (fb, tid) (by simp)
    simp [Clear_loop, h1, ih (fun e he => h e (by simp [he]))]

theorem Clear_loop_first_live : ∀ (pre : List (Status × Int)) (fb : Status) (tid : Int)
    (post : List (Status × Int)),
    (∀ e ∈ pre, e.1 = Status.TERMINAL) → fb ≠ Status.TERMINAL →
    Clear_loop (pre ++ (fb, tid) :: post) = .assert_failed ((fb, tid) :: post) := by
  intro pre
  induction pre with
  | nil => intro fb tid post _ hfb; simp [Clear_loop, hfb]
  | cons e pre ih =>
    intro fb tid post h hfb
    obtain ⟨fb0, tid0⟩ := e
    have h1 : fb0 = Status.TERMINAL := h (fb0, tid0) (by simp)
    simp [Clear_loop, h1, ih fb tid post (fun e he => h e (by simp [he])) hfb]

/-- C26: for `Mutex::Clear` and `ConditionVariable::Clear`: when every queued fiber is
TERMINAL the loop ends with the wait queue empty and no assertion fails; when the queue is
`pre ++ [(fb, tid)] ++ post` with `pre` all TERMINAL and `fb` not TERMINAL, the assertion fails
at `fb`, the first such fiber, which is still at the front of the queue. -/
theorem C26_Clear (m : Mutex) (cv : ConditionVariable) (pre post : List (Status × Int))
    (fb : Status) (tid : Int) (hpre : ∀ e ∈ pre, e.1 = Status.TERMINAL)
    (hfb : fb ≠ Status.TERMINAL) :
    ((∀ e ∈ m.m_wait_queue, e.1 = Status.TERMINAL) → m.Clear = .done [])
    ∧ ((∀ e ∈ cv.m_wait_queue, e.1 = Status.TERMINAL) → cv.Clear = .done [])
    ∧ (m.m_wait_queue = pre ++ (fb, tid) :: post →
        m.Clear = .assert_failed ((fb, tid) :: post))
    ∧ (cv.m_wait_queue = pre ++ (fb, tid) :: post →
        cv.Clear = .assert_failed ((fb, tid) :: post)) := by
  refine ⟨?_, ?_, ?_, ?_⟩
  · exact Clear_loop_all_terminal _
  · exact Clear_loop_all_terminal _
  · intro h
    simp only [Mutex.Clear, h]
    exact Clear_loop_first_live pre fb tid post hpre hfb
  · intro h
    simp only [ConditionVariable.Clear, h]
    exact Clear_loop_first_live pre fb tid post hpre hfb

/-- Witness of C26: a queue of two TERMINAL fibers, and a queue whose second fiber is
BLOCKED. -/
theorem C26_Clear_witness :
    (Mutex.mk true [(Status.TERMINAL, 0), (Status.TERMINAL, 1)]).Clear = .done []
    ∧ (ConditionVariable.mk false [(Status.TERMINAL, 0), (Status.TERMINAL, 1)]).Clear
        = .done []
    ∧ (Mutex.mk true [(Status.TERMINAL, 0), (Status.BLOCKED, 1), (Status.TERMINAL, 2)]).Clear
        = .assert_failed [(Status.BLOCKED, 1), (Status.TERMINAL, 2)]
    ∧ (ConditionVariable.mk false
          [(Status.TERMINAL, 0), (Status.BLOCKED, 1), (Status.TERMINAL, 2)]).Clear
        = .assert_failed [(Status.BLOCKED, 1), (Status.TERMINAL, 2)] :=
  ⟨(C26_Clear ⟨true, [(Status.TERMINAL, 0), (Status.TERMINAL, 1)]⟩
      ⟨false, [(Status.TERMINAL, 0), (Status.TERMINAL, 1)]⟩ [(Status.TERMINAL, 0)]
      [(Status.TERMINAL, 2)] Status.BLOCKED 1 (by decide) (by decide)).1 (by decide),
   (C26_Clear ⟨true, [(Status.TERMINAL, 0), (Status.TERMINAL, 1)]⟩
      ⟨false, [(Status.TERMINAL, 0), (Status.TERMINAL, 1)]⟩ [(Status.TERMINAL, 0)]
      [(Status.TERMINAL, 2)] Status.BLOCKED 1 (by decide) (by decide)).2.1 (by decide),
   (C26_Clear ⟨true, [(Status.TERMINAL, 0), (Status.BLOCKED, 1), (Status.TERMINAL, 2)]⟩
      ⟨false, [(Status.TERMINAL, 0), (Status.BLOCKED, 1), (Status.TERMINAL, 2)]⟩
      [(Status.TERMINAL, 0)] [(Status.TERMINAL, 2)] Status.BLOCKED 1 (by decide)
      (by decide)).2.2.1 rfl,
   (C26_Clear ⟨true, [(Status.TERMINAL, 0), (Status.BLOCKED, 1), (Status.TERMINAL, 2)]⟩
      ⟨false, [(Status.TERMINAL, 0), (Status.BLOCKED, 1), (Status.TERMINAL, 2)]⟩
      [(Status.TERMINAL, 0)] [(Status.TERMINAL, 2)] Status.BLOCKED 1 (by decide)
      (by decide)).2.2.2 rfl⟩

/-! ### Duplicate keys in a decoded map -/

theorem byte_eq_of_not_lt {a b : Byte} (h1 : ¬ a < b) (h2 : ¬ b < a) : a = b := by
  have h3 := UInt8.not_lt.mp h1
  have h4 := UInt8.not_lt.mp h2
  apply UInt8.toNat.inj
  have h5 : b.toNat ≤ a.toNat := h3
  have h6 : a.toNat ≤ b.toNat := h4
  omega

theorem string_less_trans : ∀ a b c : List Byte,
    string_less a b = true → string_less b c = true → string_less a c = true := by
  intro a
  induction a with
  | nil =>
    intro b c h1 h2
    cases b with
    | nil => simp [string_less] at h1
    | cons y b =>
      cases c with
      | nil => simp [string_less] at h2
      | cons z c => rfl
  | cons x a ih =>
    intro b c h1 h2
    cases b with
    | nil => simp [string_less] at h1
    | cons y b =>
      cases c with
      | nil => simp [string_less] at h2
      | cons z c =>
        unfold string_less at h1 h2 ⊢
        by_cases hxy : x < y
        · by_cases hyz : y < z
          · simp [UInt8.lt_trans hxy hyz]
          · simp only [hyz, if_false] at h2
            by_cases hzy : z < y
            · simp [hzy] at h2
            · have : y = z := byte_eq_of_not_lt hyz hzy
              subst this
              simp [hxy]
        · simp only [hxy, if_false] at h1
          by_cases hyx : y < x
          · simp [hyx] at h1
          · simp only [hyx, if_false] at h1
            have : x = y := byte_eq_of_not_lt hxy hyx
            subst this
            by_cases hxz : x < z
            · simp [hxz]
            · simp only [hxz, if_false] at h2 ⊢
              by_cases hzx : z < x
              · simp [hzx] at h2
              · simp only [hzx, if_false] at h2 ⊢
                exact ih b c h1 h2

theorem string_less_eq_of_not_less : ∀ a b : List Byte,
    string_less a b = false → string_less b a = false → a = b := by
  intro a
  induction a with
  | nil => intro b h1 _; cases b with
    | nil => rfl
    | cons y b => simp [string_less] at h1
  | cons x a ih =>
    intro b h1 h2
    cases b with
    | nil => simp [string_less] at h2
    | cons y b =>
      unfold string_less at h1 h2
      by_cases hxy : x < y
      · simp [hxy] at h1
      · by_cases hyx : y < x
        · simp [hyx] at h2
        · simp only [hxy, hyx, if_false] at h1 h2
          rw [byte_eq_of_not_lt hxy hyx, ih b h1 h2]

theorem std_map_emplace_mem {κ β : Type} (comp : κ → κ → Bool) (key : κ) (val : β) :
    ∀ (t : List (κ × β)), ∀ e ∈ std_map_emplace comp key val t, e = (key, val) ∨ e ∈ t := by
  intro t
  induction t with
  | nil => intro e he; simp [std_map_emplace] at he; exact Or.inl he
  | cons x t ih =>
    intro e he
    unfold std_map_emplace at he
    split at he
    · simp only [List.mem_cons] at he ⊢
      tauto
    · split at he
      · simp only [List.mem_cons] at he ⊢
        rcases he with he | he
        · exact Or.inr (Or.inl he)
        · rcases ih e he with h | h
          · exact Or.inl h
          · exact Or.inr (Or.inr h)
      · exact Or.inr he

theorem std_map_emplace_sorted {κ β : Type} (comp : κ → κ → Bool)
    (htrans : ∀ a b c, comp a b = true → comp b c = true → comp a c = true)
    (key : κ) (val : β) :
    ∀ (t : List (κ × β)), t.Pairwise (fun a b => comp a.1 b.1 = true) →
      (std_map_emplace comp key val t).Pairwise (fun a b => comp a.1 b.1 = true) := by
  intro t
  induction t with
  | nil => intro _; simp [std_map_emplace]
  | cons x t ih =>
    intro h
    obtain ⟨hx, ht⟩ := List.pairwise_cons.mp h
    unfold std_map_emplace
    split
    · rename_i hlt
      refine List.pairwise_cons.mpr ⟨?_, h⟩
      intro e he
      rcases List.mem_cons.mp he with rfl | he
      · exact hlt
      · exact htrans _ _ _ hlt (hx e he)
    · split
      · rename_i hgt
        refine List.pairwise_cons.mpr ⟨?_, ih ht⟩
        intro e he
        rcases std_map_emplace_mem comp key val t e he with rfl | he
        · exact hgt
        · exact hx e he
      · exact h

theorem std_map_emplace_lookup {κ β : Type} [BEq κ] [LawfulBEq κ] (comp : κ → κ → Bool)
    (hirr : ∀ a, comp a a = false)
    (htrans : ∀ a b c, comp a b = true → comp b c = true → comp a c = true)
    (htri : ∀ a b, comp a b = false → comp b a = false → a = b)
    (key : κ) (val : β) (k : κ) :
    ∀ (t : List (κ × β)), t.Pairwise (fun a b => comp a.1 b.1 = true) →
      (std_map_emplace comp key val t).lookup k
        = (t.lookup k).orElse (fun _ => if k == key then some val else none) := by
  intro t
  induction t with
  | nil =>
    intro _
    by_cases hk : k = key
    · subst hk; simp [std_map_emplace]
    · have hb : (k == key) = false := by simpa using hk
      simp [std_map_emplace, List.lookup_cons, hk, hb]
  | cons x t ih =>
    intro h
    obtain ⟨hx, ht⟩ := List.pairwise_cons.mp h
    obtain ⟨xk, xv⟩ := x
    unfold std_map_emplace
    split
    · rename_i hlt
      simp only at hlt hx
      by_cases hk : k = key
      · subst hk
        have hne : ∀ e ∈ (xk, xv) :: t, k ≠ e.1 := by
          intro e he heq
          have hlt2 : comp k e.1 = true := by
            rcases List.mem_cons.mp he with rfl | he
            · exact hlt
            · exact htrans _ _ _ hlt (hx e he)
          rw [← heq, hirr] at hlt2
          exact Bool.noConfusion hlt2
        have hnone : List.lookup k ((xk, xv) :: t) = none := by
          rw [List.lookup_eq_none_iff]
          intro e he
          simpa using (hne e he)
        simp [hnone]
      · have : (k == key) = false := by simpa using hk
        simp [List.lookup_cons, this, hk]
    · split
      · have := ih ht
        by_cases hkx : k = xk
        · subst hkx; simp
        · have hb : (k == xk) = false := by simpa using hkx
          simp only [List.lookup_cons, hb]
          exact this
      · rename_i h1 h2
        simp only [Bool.not_eq_true] at h1 h2
        have hkey : key = xk := htri _ _ h1 h2
        subst hkey
        by_cases hk : k = key
        · subst hk; simp
        · simp [hk]

theorem unordered_map_emplace_lookup {κ β : Type} [DecidableEq κ] [BEq κ] [LawfulBEq κ] (key : κ) (val : β) (k : κ)
    (t : List (κ × β)) :
    (unordered_map_emplace key val t).lookup k
      = (t.lookup k).orElse (fun _ => if k == key then some val else none) := by
  unfold unordered_map_emplace
  split
  · rename_i hmem
    by_cases hk : k = key
    · subst hk
      have : t.lookup k ≠ none := by
        rw [Ne, List.lookup_eq_none_iff]
        intro hall
        obtain ⟨e, he, hek⟩ := List.mem_map.mp hmem
        exact absurd (by simpa using hek.symm) (by simpa using hall e he)
      cases hl : t.lookup k with
      | none => exact absurd hl this
      | some v => simp
    · simp [hk]
  · by_cases hk : k = key
    · subst hk
      rw [List.lookup_append]
      cases t.lookup k <;> simp
    · have : (k == key) = false := by simpa using hk
      rw [List.lookup_append]
      cases t.lookup k <;> simp [List.lookup_cons, this, hk]

theorem unordered_map_emplace_nodup {κ β : Type} [DecidableEq κ] (key : κ) (val : β)
    (t : List (κ × β)) (h : (t.map Prod.fst).Nodup) :
    ((unordered_map_emplace key val t).map Prod.fst).Nodup := by
  unfold unordered_map_emplace
  split
  · exact h
  · rename_i hmem
    simp only [List.map_append, List.map_cons, List.map_nil]
    rw [List.nodup_append]
    refine ⟨h, by simp, ?_⟩
    intro a ha hb
    simp only [List.mem_singleton] at hb
    subst hb
    exact hmem ha

theorem foldl_emplace_lookup {κ β : Type} [BEq κ] [LawfulBEq κ]
    (emplace : κ → β → List (κ × β) → List (κ × β)) (Inv : List (κ × β) → Prop)
    (hInv : ∀ key val t, Inv t → Inv (emplace key val t))
    (hlook : ∀ key val k t, Inv t →
      (emplace key val t).lookup k
        = (t.lookup k).orElse (fun _ => if k == key then some val else none)) :
    ∀ (es t : List (κ × β)), Inv t →
      Inv (es.foldl (fun t kv => emplace kv.1 kv.2 t) t)
      ∧ ∀ k, (es.foldl (fun t kv => emplace kv.1 kv.2 t) t).lookup k
          = (t.lookup k).orElse (fun _ => es.lookup k) := by
  intro es
  induction es with
  | nil =>
    intro t ht
    refine ⟨ht, fun k => ?_⟩
    simp only [List.foldl_nil]
    cases t.lookup k <;> rfl
  | cons e es ih =>
    intro t ht
    obtain ⟨h1, h2⟩ := ih (emplace e.1 e.2 t) (hInv _ _ _ ht)
    refine ⟨h1, fun k => ?_⟩
    rw [List.foldl_cons, h2 k, hlook _ _ _ _ ht]
    obtain ⟨ek, ev⟩ := e
    cases hl : t.lookup k with
    | some v => rfl
    | none =>
      by_cases hk : k = ek
      · subst hk; simp
      · have : (k == ek) = false := by simpa using hk
        simp [List.lookup_cons, hk, this]

theorem object_text_load {M : Type} (emplace : List Byte → Int → M → M) (w : Nat)
    (hw : w = 32 ∨ w = 64) (es : List (List Byte × Int))
    (hkeys : ∀ kv ∈ es, (34 : Byte) ∉ kv.1)
    (hvals : ∀ kv ∈ es, -(2 ^ (w - 1) : Int) ≤ kv.2 ∧ kv.2 < 2 ^ (w - 1))
    (fuel : Nat) (hfuel : es.length < fuel) (t : M) :
    deserialize_like_map_impl_ (deserialize_key_val_impl_string (Load_signed w)) emplace fuel t
        ⟨object_text es, 0⟩
      = .ok (es.foldl (fun t kv => emplace kv.1 kv.2 t) t)
          ⟨object_text es, (object_text es).length⟩ := by
  have e1 : bytes "\"" = [34] := by decide
  have e2 : bytes "\x7b" = [123] := by decide
  have e3 : bytes "\x7d" = [125] := by decide
  have e4 : bytes "," = [44] := by decide
  have htext : object_text es = 123 :: (List.intercalate [44]
      (es.map fun kv => bytes "\"" ++ kv.1 ++ bytes "\":" ++ to_string_signed kv.2)
        ++ 125 :: []) := by
    simp [object_text, e2, e3, e4]
  have := deserialize_like_map_impl__of_unread
    (deserialize_key_val_impl_string (Load_signed w)) emplace
    (fun kv : List Byte × Int => bytes "\"" ++ kv.1 ++ bytes "\":" ++ to_string_signed kv.2) es
    (fun kv hkv b t rest h ht =>
      deserialize_key_val_impl_string_of_unread (Load_signed w) (to_string_signed kv.2)
        kv.1 kv.2 (hkeys kv hkv) t
        (fun b1 rest1 h1 =>
          Load_signed_of_unread w hw kv.2 (hvals kv hkv).1 (hvals kv hkv).2 b1 t rest1 h1
            (by rcases ht with rfl | rfl | rfl <;> decide))
        b rest (by simpa using h))
    (fun kv _ => ⟨34, _, by rw [e1]; rfl, by decide, by decide, by decide⟩)
    fuel hfuel t ⟨object_text es, 0⟩ [] 123 125 (Or.inl rfl) (Or.inl rfl)
    (by simp [unread, htext])
  rw [this, htext]
  simp [Forward]

theorem nodup_of_pairwise_string_less (t : List (List Byte × Int))
    (h : t.Pairwise (fun a b => string_less a.1 b.1 = true)) : (t.map Prod.fst).Nodup := by
  rw [List.Nodup, List.pairwise_map]
  refine h.imp ?_
  intro a b hab heq
  rw [heq, string_less_irrefl] at hab
  exact Bool.noConfusion hab

/-- C27: when the text of an object holds the same key more than once, every entry is parsed
and the whole text consumed, and the decoded `std::map` or `std::unordered_map` holds each key
once, with the value of its first occurrence in the text; `{"a":1,"a":2}` decodes to the map
a -> 1. -/
theorem C27_duplicate_key_keeps_first (w : Nat) (hw : w = 32 ∨ w = 64)
    (es : List (List Byte × Int)) (hkeys : ∀ kv ∈ es, (34 : Byte) ∉ kv.1)
    (hvals : ∀ kv ∈ es, -(2 ^ (w - 1) : Int) ≤ kv.2 ∧ kv.2 < 2 ^ (w - 1))
    (fuel : Nat) (hfuel : es.length < fuel) :
    (∃ t, deserialize_like_map_impl_ (deserialize_key_val_impl_string (Load_signed w))
          (std_map_emplace string_less) fuel [] ⟨object_text es, 0⟩
        = .ok t ⟨object_text es, (object_text es).length⟩
      ∧ t.Pairwise (fun a b => string_less a.1 b.1 = true)
      ∧ (t.map Prod.fst).Nodup
      ∧ ∀ k, t.lookup k = es.lookup k)
    ∧ (∃ t, deserialize_like_map_impl_ (deserialize_key_val_impl_string (Load_signed w))
          unordered_map_emplace fuel [] ⟨object_text es, 0⟩
        = .ok t ⟨object_text es, (object_text es).length⟩
      ∧ (t.map Prod.fst).Nodup
      ∧ ∀ k, t.lookup k = es.lookup k)
    ∧ object_text [(bytes "a", 1), (bytes "a", 2)] = bytes "\x7b\"a\":1,\"a\":2\x7d"
    ∧ deserialize_like_map_impl_ (deserialize_key_val_impl_string (Load_signed 32))
          (std_map_emplace string_less) 3 [] ⟨bytes "\x7b\"a\":1,\"a\":2\x7d", 0⟩
        = .ok [(bytes "a", 1)] ⟨bytes "\x7b\"a\":1,\"a\":2\x7d", 13⟩
    ∧ deserialize_like_map_impl_ (deserialize_key_val_impl_string (Load_signed 32))
          unordered_map_emplace 3 [] ⟨bytes "\x7b\"a\":1,\"a\":2\x7d", 0⟩
        = .ok [(bytes "a", 1)] ⟨bytes "\x7b\"a\":1,\"a\":2\x7d", 13⟩ := by
  refine ⟨?_, ?_, by decide, ?_, ?_⟩
  · obtain ⟨h1, h2⟩ := foldl_emplace_lookup (std_map_emplace string_less)
      (fun t => t.Pairwise (fun a b => string_less a.1 b.1 = true))
      (fun key val t ht => std_map_emplace_sorted string_less string_less_trans key val t ht)
      (fun key val k t ht => std_map_emplace_lookup string_less string_less_irrefl
        string_less_trans string_less_eq_of_not_less key val k t ht)
      es [] List.Pairwise.nil
    exact ⟨_, object_text_load _ w hw es hkeys hvals fuel hfuel [], h1,
      nodup_of_pairwise_string_less _ h1, fun k => by simpa using h2 k⟩
  · obtain ⟨h1, h2⟩ := foldl_emplace_lookup (unordered_map_emplace)
      (fun t : List (List Byte × Int) => (t.map Prod.fst).Nodup)
      (fun key val t ht => unordered_map_emplace_nodup key val t ht)
      (fun key val k t _ => unordered_map_emplace_lookup key val k t)
      es [] (by simp)
    exact ⟨_, object_text_load _ w hw es hkeys hvals fuel hfuel [], h1,
      fun k => by simpa using h2 k⟩
  · set_option maxRecDepth 100000 in decide
  · set_option maxRecDepth 100000 in decide

/-- Witness of C27 at the text `{"a":1,"a":2}` decoded with 32-bit values. -/
theorem C27_duplicate_key_keeps_first_witness :
    ∃ t, deserialize_like_map_impl_ (deserialize_key_val_impl_string (Load_signed 32))
          (std_map_emplace string_less) 3 [] ⟨object_text [(bytes "a", 1), (bytes "a", 2)], 0⟩
        = .ok t ⟨object_text [(bytes "a", 1), (bytes "a", 2)],
            (object_text [(bytes "a", 1), (bytes "a", 2)]).length⟩
      ∧ t.Pairwise (fun a b => string_less a.1 b.1 = true)
      ∧ (t.map Prod.fst).Nodup
      ∧ ∀ k, t.lookup k = [(bytes "a", (1 : Int)), (bytes "a", 2)].lookup k :=
  (C27_duplicate_key_keeps_first 32 (Or.inl rfl) [(bytes "a", 1), (bytes "a", 2)]
    (by decide) (by decide) 3 (by decide)).1

end MyRPC
